import Mathlib

/-!
# Ryu `f2s`: shortest round-trip printing of binary32 values

A shallow embedding of `src/ryu/f2s.c` (default build: neither `NICER_OUTPUT`
nor `NO_DIGIT_TABLE` is defined) and a verification development about it.

Conventions of the embedding
* `uint32_t` / `uint64_t` values are natural numbers; every operation that can
  wrap is followed by an explicit reduction modulo `2^32` / `2^64`.
* `int32_t` / `int` values are integers.  Conversions between the two families
  go through `u32` and `i32` (two's complement).
* Table reads, shift counts and buffer writes are checked; a violation is a
  `Fault`.  Loops carry a fuel argument and report `Fault.fuel` when it runs out.
* The character buffer is a list of byte values; `cstring` reads the
  NUL-terminated string stored at its start.
-/

namespace Ryu

/-! ## Machine model -/

/-- Ways in which a run of the C code could leave defined behaviour, plus fuel exhaustion
of the embedding itself. -/
inductive Fault where
  | tableIndex
  | shiftCount
  | bufferIndex
  | fuel
  deriving DecidableEq, Repr

/-- Conversion of an integer to `uint32_t` (reduction modulo `2^32`). -/
def u32 (x : Int) : Nat := (x % 4294967296).toNat

/-- Conversion of an unsigned value to `int32_t` (two's complement). -/
def i32 (n : Nat) : Int :=
  if n % 4294967296 < 2147483648 then ((n % 4294967296 : Nat) : Int)
  else ((n % 4294967296 : Nat) : Int) - 4294967296

/-- Checked read of a constant table. -/
def tableGet (t : List Nat) (i : Nat) : Except Fault Nat :=
  match t[i]? with
  | some x => .ok x
  | none => .error .tableIndex

/-- Checked store `result[pos] = c` into the character buffer. -/
def poke (buf : List Nat) (pos : Int) (c : Nat) : Except Fault (List Nat) :=
  if 0 ≤ pos ∧ pos < (buf.length : Int) then .ok (buf.set pos.toNat c)
  else .error .bufferIndex

/-- The call `strcpy(result, s)`: the bytes of `s` followed by the terminating NUL. -/
def strcpy (buf : List Nat) (pos : Int) : List Nat → Except Fault (List Nat)
  | [] => poke buf pos 0
  | c :: cs => do
    let buf1 ← poke buf pos c
    strcpy buf1 (pos + 1) cs

/-- The bytes of the NUL-terminated string stored at the start of a buffer. -/
def cbytes (buf : List Nat) : List Nat := buf.takeWhile (fun b => b ≠ 0)

/-- The NUL-terminated string stored at the start of a buffer. -/
def cstring (buf : List Nat) : String := String.mk ((cbytes buf).map Char.ofNat)

/-! ## Constants and tables (`f2s.c` lines 22-72) -/

def FLOAT_MANTISSA_BITS : Nat := 23
def FLOAT_EXPONENT_BITS : Nat := 8

def LOG10_2_DENOMINATOR : Int := 10000000
def LOG10_2_NUMERATOR : Int := 3010299
def LOG10_5_DENOMINATOR : Int := 10000000
def LOG10_5_NUMERATOR : Int := 6989700
def LOG2_5_DENOMINATOR : Int := 10000000
def LOG2_5_NUMERATOR : Int := 23219280

def POW5_INV_BITCOUNT : Nat := 59

def POW5_INV_SPLIT : List Nat := [
  576460752303423489,  461168601842738791,  368934881474191033,  295147905179352826,
  472236648286964522,  377789318629571618,  302231454903657294,  483570327845851670,
  386856262276681336,  309485009821345069,  495176015714152110,  396140812571321688,
  316912650057057351,  507060240091291761,  405648192073033409,  324518553658426727,
  519229685853482763,  415383748682786211,  332306998946228969,  531691198313966350,
  425352958651173080,  340282366920938464,  544451787073501542,  435561429658801234,
  348449143727040987,  557518629963265579,  446014903970612463,  356811923176489971,
  570899077082383953,  456719261665907162,  365375409332725730
]

def POW5_BITCOUNT : Nat := 61

def POW5_SPLIT : List Nat := [
 1152921504606846976, 1441151880758558720, 1801439850948198400, 2251799813685248000,
 1407374883553280000, 1759218604441600000, 2199023255552000000, 1374389534720000000,
 1717986918400000000, 2147483648000000000, 1342177280000000000, 1677721600000000000,
 2097152000000000000, 1310720000000000000, 1638400000000000000, 2048000000000000000,
 1280000000000000000, 1600000000000000000, 2000000000000000000, 1250000000000000000,
 1562500000000000000, 1953125000000000000, 1220703125000000000, 1525878906250000000,
 1907348632812500000, 1192092895507812500, 1490116119384765625, 1862645149230957031,
 1164153218269348144, 1455191522836685180, 1818989403545856475, 2273736754432320594,
 1421085471520200371, 1776356839400250464, 2220446049250313080, 1387778780781445675,
 1734723475976807094, 2168404344971008868, 1355252715606880542, 1694065894508600678,
 2117582368135750847, 1323488980084844279, 1654361225106055349, 2067951531382569187,
 1292469707114105741, 1615587133892632177, 2019483917365790221
]

/-- The two-character decimal renderings of `0 .. 99`, as byte values. -/
def DIGIT_TABLE : List Nat := List.map Char.toNat [
  '0','0','0','1','0','2','0','3','0','4','0','5','0','6','0','7','0','8','0','9',
  '1','0','1','1','1','2','1','3','1','4','1','5','1','6','1','7','1','8','1','9',
  '2','0','2','1','2','2','2','3','2','4','2','5','2','6','2','7','2','8','2','9',
  '3','0','3','1','3','2','3','3','3','4','3','5','3','6','3','7','3','8','3','9',
  '4','0','4','1','4','2','4','3','4','4','4','5','4','6','4','7','4','8','4','9',
  '5','0','5','1','5','2','5','3','5','4','5','5','5','6','5','7','5','8','5','9',
  '6','0','6','1','6','2','6','3','6','4','6','5','6','6','6','7','6','8','6','9',
  '7','0','7','1','7','2','7','3','7','4','7','5','7','6','7','7','7','8','7','9',
  '8','0','8','1','8','2','8','3','8','4','8','5','8','6','8','7','8','8','8','9',
  '9','0','9','1','9','2','9','3','9','4','9','5','9','6','9','7','9','8','9','9'
]

/-! ## Helper functions (`f2s.c` lines 74-119) -/

/-- The helper `min` on `int32_t`. -/
def min (a b : Int) : Int := if a < b then a else b

/-- The loop of `pow5Factor`: `for (count = 0; value > 0; count++)`. -/
def pow5FactorLoop : Nat → Nat → Nat → Except Fault Nat
  | 0, _, _ => .error .fuel
  | fuel + 1, value, count =>
    if value > 0 then
      if u32 ((value : Int) - 5 * ((value / 5 : Nat) : Int)) ≠ 0 then .ok count
      else pow5FactorLoop fuel (value / 5) ((count + 1) % 4294967296)
    else .ok 0

/-- The function `pow5Factor(value)`. -/
def pow5Factor (fuel : Nat) (value : Nat) : Except Fault Nat :=
  pow5FactorLoop fuel value 0

/-- The function `pow5bits(e)`; the quotient is C's truncating division. -/
def pow5bits (e : Int) : Nat :=
  if e = 0 then 1
  else u32 (Int.tdiv (e * LOG2_5_NUMERATOR + LOG2_5_DENOMINATOR - 1) LOG2_5_DENOMINATOR)

/-- The common body of `mulPow5InvDivPow2` and `mulPow5divPow2` once the factor is read:
two 32x32->64 partial products, a 64-bit sum, a right shift by `j - 32` and the cast to
`uint32_t`.  A shift count outside `0 .. 63` is undefined in C. -/
def mulShift (m factor : Nat) (j : Int) : Except Fault Nat :=
  let bits0 := (m * (factor &&& 0xffffffff)) % 18446744073709551616
  let bits1 := (m * (factor >>> 32)) % 18446744073709551616
  if 0 ≤ j - 32 ∧ j - 32 < 64 then
    .ok (((((bits0 >>> 32) + bits1) % 18446744073709551616) >>> (j - 32).toNat) % 4294967296)
  else .error .shiftCount

/-- The function `mulPow5InvDivPow2(m, q, j)`. -/
def mulPow5InvDivPow2 (m q : Nat) (j : Int) : Except Fault Nat := do
  let factor ← tableGet POW5_INV_SPLIT q
  mulShift m factor j

/-- The function `mulPow5divPow2(m, i, j)`. -/
def mulPow5divPow2 (m i : Nat) (j : Int) : Except Fault Nat := do
  let factor ← tableGet POW5_SPLIT i
  mulShift m factor j

/-- The function `decimalLength(v)`. -/
def decimalLength (v : Nat) : Nat :=
  if v ≥ 1000000000 then 10
  else if v ≥ 100000000 then 9
  else if v ≥ 10000000 then 8
  else if v ≥ 1000000 then 7
  else if v ≥ 100000 then 6
  else if v ≥ 10000 then 5
  else if v ≥ 1000 then 4
  else if v ≥ 100 then 3
  else if v ≥ 10 then 2
  else 1

/-! ## Decoding and the interval boundaries (`f2s_buffered`, lines 122-160) -/

/-- The three fields of a binary32 bit pattern. -/
structure Fields where
  sign : Bool
  ieeeMantissa : Nat
  ieeeExponent : Nat
  deriving DecidableEq, Repr

/-- Lines 130-133: `sign`, `ieeeMantissa` and `ieeeExponent` of the pattern `bits`. -/
def decode (bits : Nat) : Fields :=
  let mantissaBits := FLOAT_MANTISSA_BITS
  let exponentBits := FLOAT_EXPONENT_BITS
  { sign := ((bits >>> (mantissaBits + exponentBits)) &&& 1) != 0
    ieeeMantissa := bits &&& ((1 <<< mantissaBits) - 1)
    ieeeExponent := (bits >>> mantissaBits) &&& ((1 <<< exponentBits) - 1) }

/-- The local `offset` (line 124), the exponent bias. -/
def offset : Nat := (1 <<< (FLOAT_EXPONENT_BITS - 1)) - 1

/-- The local `e2` (lines 146 and 149); the unsigned expression is converted to `int32_t`. -/
def Fields.e2 (f : Fields) : Int :=
  if f.ieeeExponent = 0 then
    i32 (u32 (1 - (offset : Int) - (FLOAT_MANTISSA_BITS : Int) - 2))
  else
    i32 (u32 ((f.ieeeExponent : Int) - (offset : Int) - (FLOAT_MANTISSA_BITS : Int) - 2))

/-- The local `m2` (lines 147 and 150). -/
def Fields.m2 (f : Fields) : Nat :=
  if f.ieeeExponent = 0 then f.ieeeMantissa
  else (1 <<< FLOAT_MANTISSA_BITS) ||| f.ieeeMantissa

/-- The locals `even` and `acceptBounds` (lines 152-153). -/
def Fields.acceptBounds (f : Fields) : Bool := (f.m2 &&& 1) == 0

/-- The local `mp` (line 159). -/
def Fields.mp (f : Fields) : Nat := (4 * f.m2 + 2) % 4294967296

/-- The local `mm` (line 160). -/
def Fields.mm (f : Fields) : Nat :=
  u32 ((4 * f.m2 : Nat) -
    (if f.m2 ≠ (1 <<< FLOAT_MANTISSA_BITS) ∨ f.ieeeExponent ≤ 1 then 2 else 1 : Int))

/-! ## Scaling by a power of five (`f2s_buffered`, lines 165-207) -/

/-- The local `q` of the branch `e2 >= 0` (line 169). -/
def qPos (e2 : Int) : Int :=
  i32 (u32 (Int.tdiv (e2 * LOG10_2_NUMERATOR) LOG10_2_DENOMINATOR))

/-- The local `k` of the branch `e2 >= 0` (line 171). -/
def kPos (e2 : Int) : Int :=
  i32 (u32 ((POW5_INV_BITCOUNT : Int) + (pow5bits (qPos e2) : Int) - 1))

/-- The local `i` of the branch `e2 >= 0` (line 172). -/
def iPos (e2 : Int) : Int := -e2 + qPos e2 + kPos e2

/-- The local `q` of the branch `e2 < 0` (line 192). -/
def qNeg (e2 : Int) : Int :=
  i32 (u32 (Int.tdiv (-e2 * LOG10_5_NUMERATOR) LOG10_5_DENOMINATOR))

/-- The local `i` of the branch `e2 < 0` (line 194). -/
def iNeg (e2 : Int) : Int := -e2 - qNeg e2

/-- The local `k` of the branch `e2 < 0` (line 195). -/
def kNeg (e2 : Int) : Int :=
  i32 (u32 ((pow5bits (iNeg e2) : Int) - (POW5_BITCOUNT : Int)))

/-- The local `j` of the branch `e2 < 0` (line 196). -/
def jNeg (e2 : Int) : Int := qNeg e2 - kNeg e2

/-- The state handed to the digit search: `vp`, `vm`, `e10`, `vmIsTrailingZeros`. -/
structure Scaled where
  vp : Nat
  vm : Nat
  e10 : Int
  vmIsTrailingZeros : Bool
  deriving DecidableEq, Repr

/-- The bit `~mm & 1` of a `uint32_t`. -/
def notBit0 (mm : Nat) : Nat := (4294967295 - mm) &&& 1

/-- The statement `vp -= c` for a comparison result `c`. -/
def decIf (vp : Nat) (c : Bool) : Nat := u32 ((vp : Int) - (if c then 1 else 0))

/-- Lines 167-207: the scaled bounds and the inclusivity correction. -/
def scale (fuel : Nat) (e2 : Int) (mp mm : Nat) (acceptBounds : Bool) :
    Except Fault Scaled :=
  if e2 ≥ 0 then do
    let q := qPos e2
    let e10 := q
    let i := iPos e2
    let vp ← mulPow5InvDivPow2 mp (u32 q) i
    let vm ← mulPow5InvDivPow2 mm (u32 q) i
    if mp % 5 = 0 then
      if acceptBounds then
        .ok { vp := vp, vm := vm, e10 := e10, vmIsTrailingZeros := decide (0 ≥ q) }
      else do
        let f ← pow5Factor fuel mp
        .ok { vp := decIf vp (decide (min (e2 + 1) (i32 f) ≥ q)), vm := vm, e10 := e10,
              vmIsTrailingZeros := false }
    else
      if acceptBounds then do
        let f ← pow5Factor fuel mm
        .ok { vp := vp, vm := vm, e10 := e10,
              vmIsTrailingZeros :=
                decide (min (i32 (u32 (e2 + (notBit0 mm : Int)))) (i32 f) ≥ q) }
      else
        .ok { vp := decIf vp (decide (0 ≥ q)), vm := vm, e10 := e10,
              vmIsTrailingZeros := false }
  else do
    let q := qNeg e2
    let e10 := q + e2
    let i := iNeg e2
    let j := jNeg e2
    let vp ← mulPow5divPow2 mp (u32 i) j
    let vm ← mulPow5divPow2 mm (u32 i) j
    if acceptBounds then
      .ok { vp := vp, vm := vm, e10 := e10,
            vmIsTrailingZeros := decide (notBit0 mm ≥ u32 q) }
    else
      .ok { vp := decIf vp (decide (1 ≥ q)), vm := vm, e10 := e10,
            vmIsTrailingZeros := false }

/-! ## The digit search (`f2s_buffered`, lines 209-239) -/

/-- The loop variables of the digit search. -/
structure Search where
  vp : Nat
  vm : Nat
  vmIsTrailingZeros : Bool
  removed : Nat
  deriving DecidableEq, Repr

/-- Lines 215-223: `while (vp / 10 > vm / 10)`. -/
def digitLoop1 : Nat → Search → Except Fault Search
  | 0, _ => .error .fuel
  | fuel + 1, s =>
    if s.vp / 10 > s.vm / 10 then
      digitLoop1 fuel
        { vp := s.vp / 10, vm := s.vm / 10,
          vmIsTrailingZeros := s.vmIsTrailingZeros && (s.vm % 10 == 0),
          removed := (s.removed + 1) % 4294967296 }
    else .ok s

/-- Lines 225-232: `while (vm % 10 == 0)`. -/
def digitLoop2 : Nat → Search → Except Fault Search
  | 0, _ => .error .fuel
  | fuel + 1, s =>
    if s.vm % 10 = 0 then
      digitLoop2 fuel
        { vp := s.vp / 10, vm := s.vm / 10, vmIsTrailingZeros := s.vmIsTrailingZeros,
          removed := (s.removed + 1) % 4294967296 }
    else .ok s

/-- Lines 214-233: both loops of the digit search. -/
def search (fuel : Nat) (sc : Scaled) (acceptBounds : Bool) : Except Fault Search := do
  let s1 ← digitLoop1 fuel
    { vp := sc.vp, vm := sc.vm, vmIsTrailingZeros := sc.vmIsTrailingZeros, removed := 0 }
  if s1.vmIsTrailingZeros && acceptBounds then digitLoop2 fuel s1 else .ok s1

/-- What the digit search hands to the printer: `output`, `olength` and `exp`. -/
structure Decimal where
  output : Nat
  olength : Nat
  exp : Int
  deriving DecidableEq, Repr

/-- Lines 165-239 for a decoded finite non-zero value. -/
def shortest (fuel : Nat) (f : Fields) : Except Fault Decimal := do
  let sc ← scale fuel f.e2 f.mp f.mm f.acceptBounds
  let vplength := decimalLength sc.vp
  let exp := i32 (u32 (sc.e10 + (vplength : Int) - 1))
  let s ← search fuel sc f.acceptBounds
  let output := s.vp
  let olength := u32 ((vplength : Int) - (s.removed : Int))
  .ok { output := output, olength := olength, exp := exp }

/-! ## The printer (`f2s_buffered`, lines 242-314, the `DIGIT_TABLE` build) -/

/-- The call `memcpy(result + pos, DIGIT_TABLE + c, 2)`. -/
def memcpy2 (result : List Nat) (pos : Int) (c : Nat) : Except Fault (List Nat) := do
  let a ← tableGet DIGIT_TABLE c
  let b ← tableGet DIGIT_TABLE (c + 1)
  let r1 ← poke result pos a
  poke r1 (pos + 1) b

/-- The loop variables of the digit printer: the buffer, `output` and `i`. -/
structure Printer where
  result : List Nat
  output : Nat
  i : Int
  deriving DecidableEq, Repr

/-- Lines 250-258: `while (output >= 10000)`. -/
def printLoop4 (index : Int) (olength : Nat) : Nat → Printer → Except Fault Printer
  | 0, _ => .error .fuel
  | fuel + 1, p =>
    if p.output ≥ 10000 then do
      let c := u32 ((p.output : Int) - 10000 * ((p.output / 10000 : Nat) : Int))
      let output := p.output / 10000
      let c0 := ((c % 100) <<< 1) % 4294967296
      let c1 := ((c / 100) <<< 1) % 4294967296
      let r1 ← memcpy2 p.result (index + (olength : Int) - p.i - 1) c0
      let r2 ← memcpy2 r1 (index + (olength : Int) - p.i - 3) c1
      printLoop4 index olength fuel { result := r2, output := output, i := p.i + 4 }
    else .ok p

/-- Lines 259-264: `while (output >= 100)`. -/
def printLoop2 (index : Int) (olength : Nat) : Nat → Printer → Except Fault Printer
  | 0, _ => .error .fuel
  | fuel + 1, p =>
    if p.output ≥ 100 then do
      let c := (u32 ((p.output : Int) - 100 * ((p.output / 100 : Nat) : Int)) <<< 1) % 4294967296
      let output := p.output / 100
      let r1 ← memcpy2 p.result (index + (olength : Int) - p.i - 1) c
      printLoop2 index olength fuel { result := r1, output := output, i := p.i + 2 }
    else .ok p

/-- Lines 249-272: the decimal digits of `output`, the leading one at `index` and the
others from `index + 2` on. -/
def printDigits (fuel : Nat) (result : List Nat) (index : Int) (olength output : Nat) :
    Except Fault (List Nat) := do
  let p1 ← printLoop4 index olength fuel { result := result, output := output, i := 0 }
  let p2 ← printLoop2 index olength fuel p1
  if p2.output ≥ 10 then do
    let c := (p2.output <<< 1) % 4294967296
    let a ← tableGet DIGIT_TABLE (c + 1)
    let r1 ← poke p2.result (index + (olength : Int) - p2.i) a
    let b ← tableGet DIGIT_TABLE c
    poke r1 index b
  else
    poke p2.result index (('0'.toNat + p2.output) % 256)

/-- Lines 283-313: the decimal point, the exponent and the terminating NUL. -/
def printExponent (result : List Nat) (index : Int) (olength : Nat) (exp : Int) :
    Except Fault (List Nat) := do
  let (r1, index1) ←
    (if olength > 1 then do
      let r ← poke result (index + 1) '.'.toNat
      pure (r, i32 (u32 (index + (olength : Int) + 1)))
    else pure (result, index + 1) : Except Fault (List Nat × Int))
  let r2 ← poke r1 index1 'E'.toNat
  let index2 := index1 + 1
  let (r3, index3, exp1) ←
    (if exp < 0 then do
      let r ← poke r2 index2 '-'.toNat
      pure (r, index2 + 1, -exp)
    else pure (r2, index2, exp) : Except Fault (List Nat × Int × Int))
  let (r4, index4) ←
    (if exp1 ≥ 10 then do
      let r ← memcpy2 r3 index3 (2 * exp1).toNat
      pure (r, index3 + 2)
    else do
      let r ← poke r3 index3 (u32 (('0'.toNat : Int) + exp1) % 256)
      pure (r, index3 + 1) : Except Fault (List Nat × Int))
  poke r4 index4 0

/-- Lines 242-314: the printer. -/
def print (fuel : Nat) (result : List Nat) (sign : Bool) (d : Decimal) :
    Except Fault (List Nat) := do
  let (r0, index) ←
    (if sign then do
      let r ← poke result 0 '-'.toNat
      pure (r, 1)
    else pure (result, 0) : Except Fault (List Nat × Int))
  let r1 ← printDigits fuel r0 index d.olength d.output
  printExponent r1 index d.olength d.exp

/-! ## The entry points -/

/-- The function `f2s_buffered(f, result)`, on the bit pattern `bits` of `f`. -/
def f2s_buffered (fuel : Nat) (bits : Nat) (result : List Nat) : Except Fault (List Nat) :=
  let f := decode bits
  if f.ieeeExponent = (1 <<< FLOAT_EXPONENT_BITS) - 1 then
    strcpy result 0 (List.map Char.toNat
      (if f.ieeeMantissa ≠ 0 then "NaN" else if f.sign then "-Infinity" else "Infinity").toList)
  else if f.ieeeExponent = 0 ∧ f.ieeeMantissa = 0 then
    strcpy result 0 (List.map Char.toNat (if f.sign then "-0E0" else "0E0").toList)
  else do
    let d ← shortest fuel f
    print fuel result f.sign d

/-- The function `f2s(f)`: a zeroed 16-byte block handed to `f2s_buffered`. -/
def f2s (fuel : Nat) (bits : Nat) : Except Fault (List Nat) :=
  f2s_buffered fuel bits (List.replicate 16 0)

/-! ## Definitions used to state and prove the properties -/

/-- The binary exponent as a function of the exponent field alone. -/
def e2Of (ex : Nat) : Int := Fields.e2 { sign := false, ieeeMantissa := 0, ieeeExponent := ex }

/-- Numerator of the exact scale factor: `2^e2` when `e2 >= 0`, else `5^(-e2-q)`. -/
def scaleNum (e2 : Int) : Nat :=
  if 0 ≤ e2 then 2 ^ e2.toNat else 5 ^ (iNeg e2).toNat

/-- Denominator of the exact scale factor: `10^q` when `e2 >= 0`, else `2^q`. -/
def scaleDen (e2 : Int) : Nat :=
  if 0 ≤ e2 then 10 ^ (qPos e2).toNat else 2 ^ (qNeg e2).toNat

/-- The table entry used for the binary exponent `e2`. -/
def factorOf (e2 : Int) : Nat :=
  if 0 ≤ e2 then POW5_INV_SPLIT.getD (u32 (qPos e2)) 0 else POW5_SPLIT.getD (u32 (iNeg e2)) 0

/-- The shift count used for the binary exponent `e2`. -/
def shiftOf (e2 : Int) : Int := if 0 ≤ e2 then iPos e2 else jNeg e2

/-- The multiply-shift call made for the binary exponent `e2` (lines 176-177 and 200-201). -/
def mulScaled (e2 : Int) (m : Nat) : Except Fault Nat :=
  if 0 ≤ e2 then mulPow5InvDivPow2 m (u32 (qPos e2)) (iPos e2)
  else mulPow5divPow2 m (u32 (iNeg e2)) (jNeg e2)

/-- For every exponent field, two adjacent Farey fractions enclosing both the exact scale
factor and its table approximation; their denominators add up to at least `2^26`. -/
def fareyTable : List (Nat × Nat × Nat × Nat) := [
  (60419369, 17246681, 202434645, 57784876), (60419369, 17246681, 202434645, 57784876), (120838738, 17246681, 444112121, 63385800),
  (80351809, 57340967, 40486929, 28892438), (160703618, 57340967, 40486929, 14446219), (201190547, 35893593, 282164405, 50339812),
  (31891904, 28448529, 56432881, 50339812), (120216689, 53618435, 56432881, 25169906), (296866259, 66203388, 56432881, 12584953),
  (522597783, 58271600, 112865762, 12584953), (14226947, 7931788, 112865762, 62924765), (239958471, 66890659, 225731524, 62924765),
  (465689995, 64907712, 451463048, 62924765), (93137999, 64907712, 78911052, 54992977), (93137999, 32453856, 157822104, 54992977),
  (93137999, 16226928, 315644208, 54992977), (67264357, 58595519, 25873642, 22539121), (93137999, 40567320, 144885283, 63106441),
  (93137999, 20283660, 289770566, 63106441), (93137999, 10141830, 579541132, 63106441), (93137999, 50709150, 60025427, 32680951),
  (93137999, 25354575, 213188853, 58035526), (186275998, 25354575, 399464851, 54372338), (94772291, 64498679, 5382571, 3663188),
  (194927153, 66330273, 5382571, 1831594), (389854306, 66330273, 5382571, 915797), (76894347, 65414476, 5382571, 4578985),
  (141485199, 60181148, 152250341, 64760133), (141485199, 30090574, 304500682, 64760133), (141485199, 15045287, 609001364, 64760133),
  (47981966, 25511589, 93503233, 49714846), (189467165, 50369012, 93503233, 24857423), (376473631, 50041929, 187006466, 24857423),
  (37893433, 25184506, 73326167, 48733597), (37893433, 12592253, 184545767, 61325850), (75786866, 12592253, 336119499, 55847431),
  (75786866, 62961265, 6594407, 5478419), (151573732, 62961265, 82381273, 34219842), (303147464, 62961265, 82381273, 17109921),
  (550291283, 57145514, 164762546, 17109921), (11200729, 5815751, 119959630, 62286601), (175963275, 45682678, 153561817, 39866927),
  (175963275, 22841339, 483086909, 62708266), (35192655, 22841339, 95967704, 62286601), (70385310, 22841339, 201545669, 65405309),
  (140770620, 22841339, 412701599, 66964663), (28154124, 22841339, 74852111, 60727247), (56308248, 22841339, 159314483, 64625632),
  (112616496, 22841339, 271930979, 55154155), (225232992, 22841339, 609780467, 61839086), (71414002, 36211201, 76909495, 38997747),
  (148323497, 37604474, 153818990, 38997747), (148323497, 18802237, 455961477, 57799984), (86795901, 55013438, 61527596, 38997747),
  (209851093, 66504466, 123055192, 38997747), (209851093, 33252233, 246110384, 38997747), (76688579, 60758952, 56473935, 44743261),
  (76688579, 30379476, 112947870, 44743261), (76688579, 15189738, 302584319, 59932999), (31509431, 31205429, 45179148, 44743261),
  (76688579, 37974345, 90358296, 44743261), (153377158, 37974345, 167046875, 41358803), (320424033, 39666574, 334093750, 41358803),
  (53149033, 32897658, 66818750, 41358803), (186786533, 57807632, 133637500, 41358803), (186786533, 28903816, 267275000, 41358803),
  (79876533, 61801474, 53455000, 41358803), (79876533, 30900737, 106910000, 41358803), (186786533, 36129770, 213820000, 41358803),
  (58494533, 56572441, 42764000, 41358803), (101258533, 48965622, 85528000, 41358803), (272314533, 65841614, 171056000, 41358803),
  (272314533, 32920807, 342112000, 41358803), (67047333, 40527626, 68422400, 41358803), (203892133, 61622616, 136844800, 41358803),
  (203892133, 30811308, 273689600, 41358803), (39678373, 29980131, 54737920, 41358803), (94416293, 35669467, 109475840, 41358803),
  (203892133, 38514135, 218951680, 41358803), (28730789, 27135463, 43790336, 41358803), (72521125, 34247133, 87580672, 41358803),
  (160101797, 37802968, 175161344, 41358803), (510424485, 60260287, 350322688, 41358803), (102084897, 60260287, 44067997, 26013154),
  (204169794, 60260287, 44067997, 13006577), (408339588, 60260287, 248237791, 36633432), (46413520, 34247133, 67274757, 49640009),
  (113688277, 41943571, 134549514, 49640009), (227376554, 41943571, 248237791, 45791790), (37130816, 34247133, 57992053, 53488228),
  (132253685, 60991247, 57992053, 26744114), (264507370, 60991247, 57992053, 13372057), (322499423, 37181652, 438483529, 50553709),
  (105802948, 60991247, 110893527, 63925766), (211605896, 60991247, 110893527, 31962883), (322499423, 46477065, 221787054, 31962883),
  (76497432, 55122209, 24214937, 17448701), (149142243, 53734156, 48429874, 17448701), (149142243, 26867078, 246001991, 44315779),
  (10456499, 9418377, 65490251, 58988374), (20912998, 9418377, 128229245, 57749318), (170055241, 38293036, 128229245, 28874659),
  (426513731, 48021177, 256458490, 28874659), (118763543, 66857931, 51291698, 28874659), (170055241, 47866295, 102583396, 28874659),
  (272638637, 38370477, 205166792, 28874659), (13494369, 9495818, 83717471, 58910933), (13494369, 4747909, 180929311, 63658842),
  (26988738, 4747909, 369850477, 65064784), (26988738, 23739545, 52379105, 46073148), (106356581, 46776119, 52379105, 23036574),
  (212713162, 46776119, 265092267, 58294406), (425426324, 46776119, 265092267, 29147203), (118430773, 65108006, 20951642, 11518287),
  (202237341, 55590577, 41903284, 11518287), (244140625, 33554432, 327947193, 45072719), (48828125, 33554432, 83806568, 57591435),
  (48828125, 16777216, 167613136, 57591435), (48828125, 8388608, 384054397, 65980043), (9765625, 8388608, 71554397, 61464759),
  (9765625, 4194304, 152874419, 65659063), (9765625, 2097152, 305748838, 65659063), (9765625, 1048576, 621263301, 66707639),
  (1953125, 1048576, 123216426, 66151315), (1953125, 524288, 248385977, 66675603), (1953125, 262144, 498725079, 66937747),
  (390625, 262144, 99896954, 67039711), (390625, 131072, 199793908, 67039711), (390625, 65536, 399978441, 67105247),
  (78125, 65536, 79978441, 67090779), (78125, 32768, 159956882, 67090779), (78125, 16384, 319991889, 67107163),
  (78125, 8192, 639983778, 67107163), (15625, 8192, 127999403, 67108551), (15625, 4096, 255998806, 67108551),
  (15625, 2048, 511997612, 67108551), (3125, 2048, 102397612, 67107299), (3125, 1024, 204798349, 67108323),
  (3125, 512, 409599823, 67108835), (625, 512, 81919823, 67108719), (625, 256, 163839646, 67108719),
  (625, 128, 327679917, 67108847), (625, 64, 655359834, 67108847), (125, 64, 131071959, 67108843),
  (125, 32, 262143918, 67108843), (125, 16, 524287961, 67108859), (25, 16, 104857586, 67108855),
  (25, 8, 209715197, 67108863), (25, 4, 419430394, 67108863), (5, 4, 83886079, 67108863),
  (5, 2, 167772158, 67108863), (5, 1, 335544316, 67108863), (1, 1, 67108864, 67108863),
  (2, 1, 134217727, 67108863), (4, 1, 268435453, 67108863), (8, 1, 536870905, 67108863),
  (8, 5, 107374181, 67108863), (16, 5, 214748349, 67108859), (32, 5, 429496717, 67108862),
  (32, 25, 85899337, 67108857), (64, 25, 171798633, 67108841), (128, 25, 343597353, 67108858),
  (128, 125, 68719445, 67108833), (256, 125, 137438933, 67108854), (512, 125, 274877653, 67108802),
  (1024, 125, 549755093, 67108776), (1024, 625, 109950609, 67108526), (2048, 625, 219901585, 67108638),
  (4096, 625, 439803537, 67108694), (4096, 3125, 87959069, 67107444), (8192, 3125, 175916573, 67106847),
  (16384, 3125, 351839773, 67108111), (16384, 15625, 70361401, 67101861), (32768, 15625, 140730681, 67105618),
  (65536, 15625, 281436473, 67099684), (131072, 15625, 562848057, 67096717), (131072, 78125, 112543397, 67081092),
  (262144, 78125, 225003173, 67056171), (524288, 78125, 450184869, 67082773), (524288, 390625, 89722401, 66848398),
  (1048576, 390625, 179899937, 67017949), (2097152, 390625, 359206433, 66907412), (2097152, 1953125, 70163565, 65344912),
  (4194304, 1953125, 141466733, 65875581), (8388608, 1953125, 279878765, 65164353), (16777216, 1953125, 573480045, 66761864),
  (16777216, 9765625, 114696009, 66761864), (33554432, 9765625, 215359305, 62677807), (67108864, 9765625, 450240329, 65518591),
  (67108864, 48828125, 76626293, 55752966), (134217728, 48828125, 76626293, 27876483), (268435456, 48828125, 210844021, 38352304),
  (11518287, 10475821, 72624577, 66051668), (23036574, 10475821, 141734299, 64453297), (46073148, 10475821, 256917169, 58416201),
  (302990317, 34446011, 513834338, 58416201), (115885841, 65873474, 23739545, 13494369), (163364931, 46431106, 210844021, 59925475),
  (163364931, 23215553, 421688042, 59925475), (87398387, 62100289, 18991636, 13494369), (144373295, 51291698, 182356567, 64786067),
  (144373295, 25645849, 364713134, 64786067), (28874659, 25645849, 47091885, 41825996), (57749318, 25645849, 104841203, 46558847),
  (115498636, 25645849, 278089157, 61748197), (230997272, 25645849, 393587793, 43697023), (106080259, 58886373, 18836754, 10456499),
  (124917013, 34671436, 162590521, 45127935), (124917013, 17335718, 450098055, 62463653), (34897402, 24214937, 90019611, 62463653),
  (124917013, 43339295, 180039222, 62463653), (249834026, 43339295, 304956235, 52901474), (66860285, 57992053, 60991247, 52901474),
  (133720570, 57992053, 60991247, 26450737), (194711817, 42221395, 121982494, 26450737), (316694311, 34336066, 560659299, 60786803),
  (106976456, 57992053, 34247133, 18565408), (213952912, 57992053, 34247133, 9282704), (462152957, 62633405, 34247133, 4641352),
  (65032885, 44067997, 34247133, 23206760), (164312903, 55671377, 34247133, 11603380), (362872939, 61473067, 34247133, 5801690),
  (52026308, 44067997, 34247133, 29008450), (138299749, 58572222, 34247133, 14504225), (206794015, 43790336, 275288281, 58294561),
  (206794015, 21895168, 550576562, 58294561), (41358803, 21895168, 95629729, 50625957), (41358803, 10947584, 232618261, 61573541),
  (41358803, 5473792, 506595325, 67047333), (41358803, 27368960, 101319065, 67047333), (41358803, 13684480, 202638130, 67047333),
  (41358803, 6842240, 405276260, 67047333), (41358803, 34211200, 81055252, 67047333), (41358803, 17105600, 162110504, 67047333),
  (41358803, 8552800, 324221008, 67047333), (41358803, 4276400, 648442016, 67047333), (41358803, 21382000, 113144882, 58494533),
  (41358803, 10691000, 226289764, 58494533), (41358803, 5345500, 493938331, 63840033), (41358803, 26727500, 82244145, 53149033),
  (41358803, 13363750, 205847093, 66512783), (41358803, 6681875, 411694186, 66512783), (41358803, 33409375, 65795316, 53149033),
  (82717606, 33409375, 107154119, 43279204), (165435212, 33409375, 272589331, 55048977), (330870424, 33409375, 438024543, 44229176),
  (44743261, 22589574, 107154119, 54099005), (44743261, 11294787, 259051499, 65393792), (527511065, 66581257, 438024543, 55286470),
  (105502213, 66581257, 16015691, 10107322), (211004426, 66581257, 16015691, 5053661), (422008852, 66581257, 227020117, 35817459),
  (38997747, 30763798, 71029129, 56032103), (38997747, 15381899, 142058258, 56032103), (77995494, 15381899, 337046993, 66470799)
]

/-- The conditions under which a table row certifies the exponent field `ex`. -/
def FareyOk (ex : Nat) : Prop :=
  let e2 := e2Of ex
  let r := fareyTable.getD ex (0, 0, 0, 0)
  let a := r.1
  let b := r.2.1
  let c := r.2.2.1
  let d := r.2.2.2
  let A := scaleNum e2
  let B := scaleDen e2
  let F := factorOf e2
  let S := 2 ^ (shiftOf e2).toNat
  c * b = a * d + 1 ∧ 67108864 ≤ b + d ∧
  (0 ≤ e2 → A * S ≤ F * B ∧ a * B ≤ A * b ∧ F * d < c * S) ∧
  (e2 < 0 → F * B ≤ A * S ∧ a * S ≤ F * b ∧ A * d < c * B)

instance (ex : Nat) : Decidable (FareyOk ex) := by
  unfold FareyOk; infer_instance

/-- The fields of a finite, non-zero binary32 value. -/
def Fields.FiniteNonzero (f : Fields) : Prop :=
  f.ieeeExponent < 255 ∧ f.ieeeMantissa < 8388608 ∧ ¬ (f.ieeeExponent = 0 ∧ f.ieeeMantissa = 0)

instance (f : Fields) : Decidable f.FiniteNonzero := by
  unfold Fields.FiniteNonzero; infer_instance

/-- The decimal exponent `e10` chosen for the binary exponent `e2`. -/
def e10Of (e2 : Int) : Int := if 0 ≤ e2 then qPos e2 else qNeg e2 + e2

/-- The upper scaled bound handed to the digit search: the largest admissible integer. -/
def vpOf (f : Fields) : Nat :=
  f.mp * scaleNum f.e2 / scaleDen f.e2 -
    (if f.acceptBounds = false ∧ scaleDen f.e2 ∣ f.mp * scaleNum f.e2 then 1 else 0)

/-- The lower scaled bound handed to the digit search: the floor of the exact value. -/
def vmOf (f : Fields) : Nat := f.mm * scaleNum f.e2 / scaleDen f.e2

/-- Whether the lower scaled bound is an integer that may itself be printed. -/
def tzOf (f : Fields) : Bool :=
  decide (f.acceptBounds = true ∧ scaleDen f.e2 ∣ f.mm * scaleNum f.e2)

/-- The byte stored at position `k` (0 beyond the end). -/
def peek (buf : List Nat) (k : Nat) : Nat := buf.getD k 0

/-- The list `s` is stored in `buf` from position `pos` on. -/
def Holds (buf : List Nat) (pos : Nat) (s : List Nat) : Prop :=
  ∀ t, t < s.length → peek buf (pos + t) = s.getD t 0

/-- Invariant of the two printing loops: the `i` low digits of `output` are in place, digit `d`
at position `idx + olength - d`, and nothing below `idx + 2` has been touched. -/
def PrintInv (buf r : List Nat) (idx olength output i : Nat) : Prop :=
  r.length = buf.length ∧ (∀ k, k < idx + 2 → peek r k = peek buf k) ∧
    ∀ d, d < i → peek r (idx + olength - d) = 48 + output / 10 ^ d % 10

/-- The digits after the decimal point: digits `olength - 2` down to `0` of `output`. -/
def fracDigits (output olength : Nat) : List Nat :=
  (List.range (olength - 1)).map (fun t => 48 + output / 10 ^ (olength - 2 - t) % 10)

/-- The mantissa `d[.ddd]`: the `olength` digits of `output`, a point after the first. -/
def mantissaBytes (output olength : Nat) : List Nat :=
  (48 + output / 10 ^ (olength - 1) % 10) ::
    (if olength > 1 then '.'.toNat :: fracDigits output olength else [])

/-- The exponent: an optional `-` and the one or two digits of its absolute value. -/
def exponentBytes (exp : Int) : List Nat :=
  (if exp < 0 then ['-'.toNat] else []) ++
    (if exp.natAbs ≥ 10 then [48 + exp.natAbs / 10, 48 + exp.natAbs % 10]
     else [48 + exp.natAbs])

/-- The string `[-]d[.ddd]E[-]e[e]` for a sign and a decimal. -/
def render (sign : Bool) (d : Decimal) : List Nat :=
  (if sign then ['-'.toNat] else []) ++ mantissaBytes d.output d.olength ++
    'E'.toNat :: exponentBytes d.exp

/-- The store of the decimal point (lines 284-286). -/
def putPoint (r : List Nat) (idx olength : Nat) : List Nat :=
  if olength > 1 then r.set (idx + 1) '.'.toNat else r

/-- The store of the exponent sign (lines 293-296), with the next free position. -/
def putExpSign (r : List Nat) (n : Nat) (exp : Int) : List Nat × Nat :=
  if exp < 0 then (r.set n '-'.toNat, n + 1) else (r, n)

/-- The stores of the exponent digits (lines 299-304), with the next free position. -/
def putExpDigits (r : List Nat) (n e : Nat) : List Nat × Nat :=
  if e ≥ 10 then ((r.set n (48 + e / 10)).set (n + 1) (48 + e % 10), n + 2)
  else (r.set n (48 + e), n + 1)

/-- The buffer after lines 283-313, written as a chain of stores. -/
def afterExponent (r : List Nat) (idx olength : Nat) (exp : Int) : List Nat :=
  let n0 := idx + (if olength > 1 then olength + 1 else 1)
  let rB := (putPoint r idx olength).set n0 'E'.toNat
  let c := putExpSign rB (n0 + 1) exp
  let d := putExpDigits c.1 c.2 exp.natAbs
  d.1.set d.2 0

/-- The decimal found by the digit search when it removes `r` digits. -/
def decimalOf (f : Fields) (r : Nat) : Decimal :=
  { output := vpOf f / 10 ^ r,
    olength := decimalLength (vpOf f) - r,
    exp := e10Of f.e2 + (decimalLength (vpOf f) : Int) - 1 }

/-- Reads a string of decimal digits, most significant first, on top of `acc`. -/
def readDigitsAux : Nat → List Nat → Option Nat
  | acc, [] => some acc
  | acc, c :: cs =>
    if '0'.toNat ≤ c ∧ c ≤ '9'.toNat then readDigitsAux (10 * acc + (c - '0'.toNat)) cs
    else none

/-- Reads a non-empty string of decimal digits. -/
def readDigits (s : List Nat) : Option Nat :=
  match s with
  | [] => none
  | _ :: _ => readDigitsAux 0 s

/-- The number denoted by a string `[-]d[.ddd]E[-]e`: its sign and the magnitude
`d.ddd * 10^e` as an exact rational. -/
def readSci (s : List Nat) : Option (Bool × ℚ) :=
  let neg := decide (s.head? = some '-'.toNat)
  let s1 := if neg then s.tail else s
  let mant := s1.takeWhile (fun c => c ≠ 'E'.toNat)
  match s1.dropWhile (fun c => c ≠ 'E'.toNat) with
  | [] => none
  | _ :: e =>
    let eneg := decide (e.head? = some '-'.toNat)
    let edig := if eneg then e.tail else e
    let ip := mant.takeWhile (fun c => c ≠ '.'.toNat)
    let fp := (mant.dropWhile (fun c => c ≠ '.'.toNat)).tail
    match readDigits (ip ++ fp), readDigits edig with
    | some m, some x =>
      some (neg, (m : ℚ) * (10 : ℚ) ^ ((if eneg then -(x : Int) else (x : Int)) - (fp.length : Int)))
    | _, _ => none

/-- The `n` low decimal digits of `v` as characters, most significant first. -/
def digitsMSB (v : Nat) : Nat → List Nat
  | 0 => []
  | n + 1 => (48 + v / 10 ^ n % 10) :: digitsMSB v n

/-- The lower boundary `mm * 2^e2` of the rounding interval. -/
def lowerBound (f : Fields) : ℚ := (f.mm : ℚ) * (2 : ℚ) ^ f.e2

/-- The upper boundary `mp * 2^e2` of the rounding interval. -/
def upperBound (f : Fields) : ℚ := (f.mp : ℚ) * (2 : ℚ) ^ f.e2

/-- Membership in the rounding interval: boundaries included exactly when `m2` is even. -/
def InInterval (f : Fields) (y : ℚ) : Prop :=
  if f.m2 % 2 = 0 then lowerBound f ≤ y ∧ y ≤ upperBound f
  else lowerBound f < y ∧ y < upperBound f

/-- The value denoted by a decimal: `output * 10^(exp - (olength - 1))`. -/
def Decimal.value (d : Decimal) : ℚ :=
  (d.output : ℚ) * (10 : ℚ) ^ (d.exp - ((d.olength : Int) - 1))

instance instDecidableEqExcept {ε α : Type} [DecidableEq ε] [DecidableEq α] :
    DecidableEq (Except ε α) := fun a b =>
  match a, b with
  | .ok x, .ok y =>
    if h : x = y then isTrue (by rw [h]) else isFalse (fun h2 => by cases h2; exact h rfl)
  | .error x, .error y =>
    if h : x = y then isTrue (by rw [h]) else isFalse (fun h2 => by cases h2; exact h rfl)
  | .ok _, .error _ => isFalse (fun h2 => by cases h2)
  | .error _, .ok _ => isFalse (fun h2 => by cases h2)

/-- The grammar `["-"] d1 ["." digit+] "E" ["-"] exponent` on byte strings: `d1` is a digit
`1..9`, a point is present only with digits after it, the leading `-` is present exactly when
`sign` is set, and the exponent is one digit, or two digits the first of which is not `0`, and
is never `-0`. -/
def Canonical (sign : Bool) (s : List Nat) : Prop :=
  ∃ (d1 : Nat) (frac : List Nat) (eneg : Bool) (e : List Nat),
    s = (if sign then ['-'.toNat] else []) ++
          d1 :: (if frac = [] then [] else '.'.toNat :: frac) ++
          'E'.toNat :: ((if eneg then ['-'.toNat] else []) ++ e) ∧
    ('1'.toNat ≤ d1 ∧ d1 ≤ '9'.toNat) ∧
    (∀ c ∈ frac, '0'.toNat ≤ c ∧ c ≤ '9'.toNat) ∧
    ((∃ x, e = [x] ∧ '0'.toNat ≤ x ∧ x ≤ '9'.toNat) ∨
      (∃ x y, e = [x, y] ∧ ('1'.toNat ≤ x ∧ x ≤ '9'.toNat) ∧ ('0'.toNat ≤ y ∧ y ≤ '9'.toNat))) ∧
    (eneg = true → e ≠ ['0'.toNat])

/-- The exact value of the pattern `b < 2^31` by the binary32 formula: `M * 2^-149` when the
exponent field `E` is zero and `(2^23 + M) * 2^(E - 150)` otherwise.  The field 255 is read
like any other, so the pattern `0x7f800000` stands for `2^128`. -/
def val (b : Nat) : ℚ :=
  if b / 8388608 % 256 = 0 then ((b % 8388608 : Nat) : ℚ) * (2 : ℚ) ^ (-149 : Int)
  else ((8388608 + b % 8388608 : Nat) : ℚ) *
    (2 : ℚ) ^ (((b / 8388608 % 256 : Nat) : Int) - 150)

/-- The loop variables at every evaluation of the condition of the first loop (line 215): the
state on entry, then the state after each iteration, in order. -/
def digitHeads1 : Nat → Search → Except Fault (List Search)
  | 0, _ => .error .fuel
  | fuel + 1, s =>
    if s.vp / 10 > s.vm / 10 then do
      let rest ← digitHeads1 fuel
        { vp := s.vp / 10, vm := s.vm / 10,
          vmIsTrailingZeros := s.vmIsTrailingZeros && (s.vm % 10 == 0),
          removed := (s.removed + 1) % 4294967296 }
      pure (s :: rest)
    else .ok [s]

/-- The loop variables at every evaluation of the condition of the second loop (line 225): the
state on entry, then the state after each iteration, in order. -/
def digitHeads2 : Nat → Search → Except Fault (List Search)
  | 0, _ => .error .fuel
  | fuel + 1, s =>
    if s.vm % 10 = 0 then do
      let rest ← digitHeads2 fuel
        { vp := s.vp / 10, vm := s.vm / 10, vmIsTrailingZeros := s.vmIsTrailingZeros,
          removed := (s.removed + 1) % 4294967296 }
      pure (s :: rest)
    else .ok [s]

/-- The states visited by lines 214-233: those of the first loop, and those of the second
loop (none when it is not entered). -/
def searchHeads (fuel : Nat) (sc : Scaled) (acceptBounds : Bool) :
    Except Fault (List Search × List Search) := do
  let t1 ← digitHeads1 fuel
    { vp := sc.vp, vm := sc.vm, vmIsTrailingZeros := sc.vmIsTrailingZeros, removed := 0 }
  let s1 ← digitLoop1 fuel
    { vp := sc.vp, vm := sc.vm, vmIsTrailingZeros := sc.vmIsTrailingZeros, removed := 0 }
  if s1.vmIsTrailingZeros && acceptBounds then do
    let t2 ← digitHeads2 fuel s1
    pure (t1, t2)
  else pure (t1, [])

/-- The scaled value itself: the floor of `4 * m2` times the exact scale factor. -/
def vrOf (f : Fields) : Nat := 4 * f.m2 * scaleNum f.e2 / scaleDen f.e2

/-- The state `y` holds the bounds `VP` and `VM` with `y.removed` digits stripped. -/
def Stripped (VP VM : Nat) (y : Search) : Prop :=
  y.vp = VP / 10 ^ y.removed ∧ y.vm = VM / 10 ^ y.removed

/-- The buffer after the digits of `output` have been stored: the leading digit at `idx`, the
digit of weight `10^d` at `idx + olength - d` for `d <= olength - 2`, all else as in `buf`. -/
def digitsAt (buf : List Nat) (idx olength output k : Nat) : Nat :=
  if k = idx then 48 + output / 10 ^ (olength - 1) % 10
  else if idx + 2 ≤ k ∧ k ≤ idx + olength then 48 + output / 10 ^ (idx + olength - k) % 10
  else peek buf k

/-- Lines 275-278 (the `NO_DIGIT_TABLE` build): `for (uint32_t i = 0; i < olength - 1; i++)`.
The state is the buffer, `output` and `i`; the subscript `index + olength - i` is computed in
`uint32_t`. -/
def printLoopNaive (index : Int) (olength : Nat) :
    Nat → List Nat → Nat → Nat → Except Fault (List Nat × Nat)
  | 0, _, _, _ => .error .fuel
  | fuel + 1, result, output, i =>
    if i < u32 ((olength : Int) - 1) then do
      let c := output % 10
      let output1 := output / 10
      let r ← poke result (u32 (index + (olength : Int) - (i : Int))) (('0'.toNat + c) % 256)
      printLoopNaive index olength fuel r output1 ((i + 1) % 4294967296)
    else .ok (result, output)

/-- Lines 274-280 (the `NO_DIGIT_TABLE` build): the digits after the point, last one first,
then the leading digit at `index`. -/
def printDigitsNaive (fuel : Nat) (result : List Nat) (index : Int) (olength output : Nat) :
    Except Fault (List Nat) := do
  let p ← printLoopNaive index olength fuel result output 0
  poke p.1 index (('0'.toNat + p.2 % 10) % 256)

/-- Lines 283-313 in the `NO_DIGIT_TABLE` build: the decimal point, the exponent by division
and remainder (lines 306-309), and the terminating NUL. -/
def printExponentNaive (result : List Nat) (index : Int) (olength : Nat) (exp : Int) :
    Except Fault (List Nat) := do
  let (r1, index1) ←
    (if olength > 1 then do
      let r ← poke result (index + 1) '.'.toNat
      pure (r, i32 (u32 (index + (olength : Int) + 1)))
    else pure (result, index + 1) : Except Fault (List Nat × Int))
  let r2 ← poke r1 index1 'E'.toNat
  let index2 := index1 + 1
  let (r3, index3, exp1) ←
    (if exp < 0 then do
      let r ← poke r2 index2 '-'.toNat
      pure (r, index2 + 1, -exp)
    else pure (r2, index2, exp) : Except Fault (List Nat × Int × Int))
  let (r4, index4) ←
    (if exp1 ≥ 10 then do
      let r ← poke r3 index3 (u32 (('0'.toNat : Int) + Int.tmod (Int.tdiv exp1 10) 10) % 256)
      pure (r, index3 + 1)
    else pure (r3, index3) : Except Fault (List Nat × Int))
  let r5 ← poke r4 index4 (u32 (('0'.toNat : Int) + Int.tmod exp1 10) % 256)
  poke r5 (index4 + 1) 0

/-- Lines 242-314 in the `NO_DIGIT_TABLE` build: the printer. -/
def printNaive (fuel : Nat) (result : List Nat) (sign : Bool) (d : Decimal) :
    Except Fault (List Nat) := do
  let (r0, index) ←
    (if sign then do
      let r ← poke result 0 '-'.toNat
      pure (r, 1)
    else pure (result, 0) : Except Fault (List Nat × Int))
  let r1 ← printDigitsNaive fuel r0 index d.olength d.output
  printExponentNaive r1 index d.olength d.exp

/-- Invariant of the loop of the `NO_DIGIT_TABLE` build: the `i` low digits of `output` are
in place and nothing else has been touched. -/
def NaiveInv (buf r : List Nat) (idx olength output i : Nat) : Prop :=
  r.length = buf.length ∧
    ∀ k, peek r k =
      if idx + olength - i < k ∧ k ≤ idx + olength then
        48 + output / 10 ^ (idx + olength - k) % 10
      else peek buf k

/-! ## Machine arithmetic -/

theorem u32_natCast (n : Nat) (h : n < 4294967296) : u32 (n : Int) = n := by
  unfold u32; omega

theorem u32_of_nonneg (x : Int) (h0 : 0 ≤ x) (h : x < 4294967296) : ((u32 x : Nat) : Int) = x := by
  unfold u32; omega

theorem i32_small (n : Nat) (h : n < 2147483648) : i32 n = (n : Int) := by
  unfold i32; split <;> omega

theorem i32_u32 (x : Int) (h0 : -2147483648 ≤ x) (h : x < 2147483648) : i32 (u32 x) = x := by
  unfold i32 u32; split <;> omega

theorem and_mask32 (x : Nat) : x &&& 0xffffffff = x % 4294967296 :=
  Nat.and_pow_two_sub_one_eq_mod x 32

theorem and_mask23 (x : Nat) : x &&& 8388607 = x % 8388608 :=
  Nat.and_pow_two_sub_one_eq_mod x 23

theorem and_mask8 (x : Nat) : x &&& 255 = x % 256 :=
  Nat.and_pow_two_sub_one_eq_mod x 8

theorem and_mask1 (x : Nat) : x &&& 1 = x % 2 :=
  Nat.and_pow_two_sub_one_eq_mod x 1

theorem or_bit23 (x : Nat) (h : x < 8388608) : 8388608 ||| x = 8388608 + x := by
  have := Nat.mul_add_lt_is_or (i := 23) (b := x) h 1
  simpa using this.symm

/-! ## Decoding -/

theorem decode_sign (bits : Nat) : (decode bits).sign = decide (bits / 2147483648 % 2 = 1) := by
  simp [decode, FLOAT_MANTISSA_BITS, FLOAT_EXPONENT_BITS, Nat.shiftRight_eq_div_pow, and_mask1]
  rfl

theorem decode_mantissa (bits : Nat) : (decode bits).ieeeMantissa = bits % 8388608 := by
  simp [decode, FLOAT_MANTISSA_BITS, Nat.shiftLeft_eq, and_mask23]

theorem decode_exponent (bits : Nat) : (decode bits).ieeeExponent = bits / 8388608 % 256 := by
  simp [decode, FLOAT_MANTISSA_BITS, FLOAT_EXPONENT_BITS, Nat.shiftRight_eq_div_pow,
    Nat.shiftLeft_eq, and_mask8]

theorem e2_eq_e2Of (f : Fields) : f.e2 = e2Of f.ieeeExponent := rfl

theorem e2Of_eq (ex : Nat) (h : ex < 256) :
    e2Of ex = if ex = 0 then -151 else (ex : Int) - 152 := by
  unfold e2Of Fields.e2
  simp only [offset, FLOAT_EXPONENT_BITS, FLOAT_MANTISSA_BITS]
  split
  · rfl
  · rw [i32_u32] <;> norm_num <;> omega

theorem m2_eq (f : Fields) (h : f.ieeeMantissa < 8388608) :
    f.m2 = if f.ieeeExponent = 0 then f.ieeeMantissa else 8388608 + f.ieeeMantissa := by
  unfold Fields.m2
  split
  · rfl
  · simpa [FLOAT_MANTISSA_BITS, Nat.shiftLeft_eq] using or_bit23 _ h

/-! ## Facts that depend on the exponent field only -/

theorem index_ranges_pos : ∀ ex < 255, 0 ≤ e2Of ex →
    0 ≤ qPos (e2Of ex) ∧ qPos (e2Of ex) ≤ 30 ∧ 32 ≤ iPos (e2Of ex) ∧ iPos (e2Of ex) ≤ 95 := by
  decide!

theorem index_ranges_neg : ∀ ex < 255, e2Of ex < 0 →
    0 ≤ qNeg (e2Of ex) ∧ 0 ≤ iNeg (e2Of ex) ∧ iNeg (e2Of ex) ≤ 46 ∧
      32 ≤ jNeg (e2Of ex) ∧ jNeg (e2Of ex) ≤ 95 := by
  decide!

/-! ## Exactness of the fixed-point scaling -/

/-- If two adjacent Farey fractions `a/b < c/d` enclose the interval `[x, y]`, then no multiple
`m * x`, `m * y` with `m < b + d` is separated by an integer. -/
theorem floor_eq_of_farey (a b c d xn xd yn yd m : Nat)
    (hxd : 0 < xd) (hyd : 0 < yd)
    (hxy : xn * yd ≤ yn * xd) (h1 : a * xd ≤ xn * b) (h2 : yn * d < c * yd)
    (hdet : c * b = a * d + 1) (hm : m < b + d) :
    m * xn / xd = m * yn / yd := by
  apply le_antisymm
  · rw [Nat.le_div_iff_mul_le hyd]
    have h3 : m * xn / xd * xd ≤ m * xn := Nat.div_mul_le_self _ _
    have h4 : m * xn / xd * yd * xd ≤ m * yn * xd := by
      calc m * xn / xd * yd * xd = (m * xn / xd * xd) * yd := by ring
        _ ≤ (m * xn) * yd := Nat.mul_le_mul_right _ h3
        _ = m * (xn * yd) := by ring
        _ ≤ m * (yn * xd) := Nat.mul_le_mul_left _ hxy
        _ = m * yn * xd := by ring
    exact Nat.le_of_mul_le_mul_right h4 hxd
  · by_contra hlt
    push_neg at hlt
    set t := m * yn / yd with ht
    have h3 : m * xn < t * xd := by
      rw [Nat.div_lt_iff_lt_mul hxd] at hlt
      exact hlt
    have h4 : t * yd ≤ m * yn := Nat.div_mul_le_self _ _
    have hmpos : 0 < m := by
      by_contra h0
      have hm0 : m = 0 := by omega
      rw [ht, hm0] at hlt
      simp at hlt
    -- a * m < t * b
    have h5 : a * m < t * b := by
      have : a * m * xd < t * b * xd := by
        calc a * m * xd = (a * xd) * m := by ring
          _ ≤ (xn * b) * m := Nat.mul_le_mul_right _ h1
          _ = (m * xn) * b := by ring
          _ < (t * xd) * b := by
              apply Nat.mul_lt_mul_of_pos_right h3
              rcases Nat.eq_zero_or_pos b with hb | hb
              · subst hb; simp at hdet
              · exact hb
          _ = t * b * xd := by ring
      exact Nat.lt_of_mul_lt_mul_right this
    -- t * d < m * c
    have h6 : t * d < m * c := by
      have hd : 0 < d ∨ d = 0 := by omega
      rcases hd with hd | hd
      · have : t * d * yd < m * c * yd := by
          calc t * d * yd = (t * yd) * d := by ring
            _ ≤ (m * yn) * d := Nat.mul_le_mul_right _ h4
            _ = m * (yn * d) := by ring
            _ < m * (c * yd) := Nat.mul_lt_mul_of_pos_left h2 hmpos
            _ = m * c * yd := by ring
        exact Nat.lt_of_mul_lt_mul_right this
      · subst hd
        have hc : 0 < c := by
          rcases Nat.eq_zero_or_pos c with hc | hc
          · subst hc; simp at hdet
          · exact hc
        simpa using Nat.mul_pos hmpos hc
    have h7 : m * (c * b) = m * (a * d) + m := by rw [hdet]; ring
    have h8 : b * (m * c) ≥ b * (t * d + 1) := Nat.mul_le_mul_left _ h6
    have h9 : d * (t * b) ≥ d * (a * m + 1) := Nat.mul_le_mul_left _ h5
    nlinarith [h7, h8, h9]

theorem fareyOk_all : ∀ ex < 255, FareyOk ex := by
  decide!

theorem factor_bounds : ∀ ex < 255,
    factorOf (e2Of ex) < 4611686018427387904 ∧
    (0 ≤ e2Of ex → POW5_INV_SPLIT[u32 (qPos (e2Of ex))]? = some (factorOf (e2Of ex))) ∧
    (e2Of ex < 0 → POW5_SPLIT[u32 (iNeg (e2Of ex))]? = some (factorOf (e2Of ex))) ∧
    32 ≤ shiftOf (e2Of ex) ∧ shiftOf (e2Of ex) < 96 := by
  decide!

theorem scale_bounds : ∀ ex < 255,
    0 < scaleDen (e2Of ex) ∧ scaleDen (e2Of ex) ≤ scaleNum (e2Of ex) ∧
    scaleNum (e2Of ex) < 10 * scaleDen (e2Of ex) := by
  decide!

/-- The split multiplication computes the 96-bit product exactly (for factors below `2^62`). -/
theorem mulShift_eq (m factor : Nat) (j : Int) (hm : m < 4294967296)
    (hf : factor < 4611686018427387904) (hj : 32 ≤ j) (hj2 : j < 96) :
    mulShift m factor j = .ok (m * factor / 2 ^ j.toNat % 4294967296) := by
  unfold mulShift
  have hlo : factor % 4294967296 < 4294967296 := Nat.mod_lt _ (by norm_num)
  have hhi : factor / 4294967296 < 1073741824 := by omega
  have hb0 : m * (factor % 4294967296) < 18446744073709551616 := by nlinarith
  have hb1 : m * (factor / 4294967296) < 4611686018427387904 := by nlinarith
  have hsplit : m * (factor % 4294967296) / 4294967296 + m * (factor / 4294967296)
      = m * factor / 4294967296 := by
    have : m * factor = m * (factor % 4294967296) + m * (factor / 4294967296) * 4294967296 := by
      have := Nat.mod_add_div factor 4294967296
      nlinarith
    rw [this, Nat.add_mul_div_right _ _ (by norm_num : 0 < 4294967296)]
  have hsum : m * (factor % 4294967296) / 4294967296 + m * (factor / 4294967296)
      < 18446744073709551616 := by
    have : m * (factor % 4294967296) / 4294967296 < 4294967296 := by omega
    omega
  have hjj : (2:Nat) ^ j.toNat = 4294967296 * 2 ^ (j - 32).toNat := by
    have : j.toNat = 32 + (j - 32).toNat := by omega
    rw [this, pow_add]; norm_num
  simp only [and_mask32, Nat.shiftRight_eq_div_pow, Nat.reducePow]
  rw [if_pos (by omega), Nat.mod_eq_of_lt hb0,
    Nat.mod_eq_of_lt (by omega : m * (factor / 4294967296) < 18446744073709551616),
    Nat.mod_eq_of_lt hsum, hsplit, hjj, Nat.div_div_eq_div_mul]

theorem scaled_lt (ex : Nat) (hex : ex < 255) (m : Nat) (hm : m ≤ 67108864) :
    m * scaleNum (e2Of ex) / scaleDen (e2Of ex) < 671088640 := by
  obtain ⟨hB, -, hAB⟩ := scale_bounds ex hex
  rw [Nat.div_lt_iff_lt_mul hB]
  rcases Nat.eq_zero_or_pos m with h0 | h0
  · subst h0; simpa using hB
  · calc m * scaleNum (e2Of ex) < m * (10 * scaleDen (e2Of ex)) :=
        Nat.mul_lt_mul_of_pos_left hAB h0
      _ = (10 * m) * scaleDen (e2Of ex) := by ring
      _ ≤ 671088640 * scaleDen (e2Of ex) := Nat.mul_le_mul_right _ (by omega)

/-- The table-driven multiply-shift returns the exact floor of the scaled value, for every
exponent field and every multiplier below `2^26`. -/
theorem mulScaled_exact (ex : Nat) (hex : ex < 255) (m : Nat) (hm : m < 67108864) :
    mulScaled (e2Of ex) m = .ok (m * scaleNum (e2Of ex) / scaleDen (e2Of ex)) := by
  obtain ⟨hF, hpos, hneg, hs1, hs2⟩ := factor_bounds ex hex
  obtain ⟨hB, -, -⟩ := scale_bounds ex hex
  obtain ⟨hdet, hbd, hP, hN⟩ := fareyOk_all ex hex
  have hlt := scaled_lt ex hex m (le_of_lt hm)
  have hS : 0 < 2 ^ (shiftOf (e2Of ex)).toNat := Nat.pow_pos (by norm_num)
  have key : m * factorOf (e2Of ex) / 2 ^ (shiftOf (e2Of ex)).toNat
      = m * scaleNum (e2Of ex) / scaleDen (e2Of ex) := by
    by_cases h : 0 ≤ e2Of ex
    · obtain ⟨h1, h2, h3⟩ := hP h
      exact (floor_eq_of_farey _ _ _ _ _ _ _ _ m hB hS h1 h2 h3 hdet (by omega)).symm
    · obtain ⟨h1, h2, h3⟩ := hN (by omega)
      exact floor_eq_of_farey _ _ _ _ _ _ _ _ m hS hB h1 h2 h3 hdet (by omega)
  have hms : mulShift m (factorOf (e2Of ex)) (shiftOf (e2Of ex))
      = .ok (m * scaleNum (e2Of ex) / scaleDen (e2Of ex)) := by
    rw [mulShift_eq m _ _ (by omega) hF hs1 hs2, key, Nat.mod_eq_of_lt (by omega)]
  unfold mulScaled
  by_cases h : 0 ≤ e2Of ex
  · rw [if_pos h]
    have hsh : shiftOf (e2Of ex) = iPos (e2Of ex) := by simp [shiftOf, h]
    rw [hsh] at hms
    simp only [mulPow5InvDivPow2, tableGet, hpos h]
    exact hms
  · rw [if_neg h]
    have hsh : shiftOf (e2Of ex) = jNeg (e2Of ex) := by simp [shiftOf, h]
    rw [hsh] at hms
    simp only [mulPow5divPow2, tableGet, hneg (by omega)]
    exact hms

/-! ## Finite non-zero inputs -/

theorem decode_finiteNonzero (bits : Nat)
    (hfin : bits / 8388608 % 256 ≠ 255)
    (hnz : ¬ (bits / 8388608 % 256 = 0 ∧ bits % 8388608 = 0)) :
    (decode bits).FiniteNonzero := by
  unfold Fields.FiniteNonzero
  rw [decode_exponent, decode_mantissa]
  refine ⟨by omega, by omega, hnz⟩

theorem m2_pos_lt (f : Fields) (hf : f.FiniteNonzero) : 0 < f.m2 ∧ f.m2 < 16777216 := by
  obtain ⟨h1, h2, h3⟩ := hf
  rw [m2_eq f h2]
  split <;> omega

theorem mp_eq (f : Fields) (hf : f.FiniteNonzero) : f.mp = 4 * f.m2 + 2 := by
  have := m2_pos_lt f hf
  unfold Fields.mp; omega

theorem mm_eq (f : Fields) (hf : f.FiniteNonzero) :
    f.mm = if f.m2 ≠ 8388608 ∨ f.ieeeExponent ≤ 1 then 4 * f.m2 - 2 else 4 * f.m2 - 1 := by
  have := m2_pos_lt f hf
  unfold Fields.mm u32
  simp only [FLOAT_MANTISSA_BITS, Nat.shiftLeft_eq, one_mul, Nat.reducePow]
  split <;> omega

theorem acceptBounds_eq (f : Fields) : f.acceptBounds = decide (f.m2 % 2 = 0) := by
  unfold Fields.acceptBounds
  rw [and_mask1]
  rfl

theorem mm_lt_mp (f : Fields) (hf : f.FiniteNonzero) :
    2 ≤ f.mm ∧ f.mm + 3 ≤ f.mp ∧ f.mp ≤ f.mm + 4 ∧ f.mp < 67108864 := by
  have := m2_pos_lt f hf
  rw [mp_eq f hf, mm_eq f hf]
  split <;> omega

theorem notBit0_eq (mm : Nat) (h : mm < 4294967296) : notBit0 mm = if mm % 2 = 0 then 1 else 0 := by
  unfold notBit0
  rw [and_mask1]
  split <;> omega

/-! ## `pow5Factor` -/

theorem pow5FactorLoop_spec : ∀ (n fuel value count : Nat), 0 < value → value < 5 ^ n →
    n ≤ fuel → count + n < 4294967296 →
    ∃ k, pow5FactorLoop fuel value count = .ok (count + k) ∧ 5 ^ k ∣ value ∧ ¬ 5 ^ (k + 1) ∣ value
  | 0, _, value, count, h0, h1, _, _ => by simp at h1; omega
  | n + 1, 0, value, count, h0, h1, hf, h2 => by omega
  | n + 1, fuel + 1, value, count, h0, h1, hf, h2 => by
    unfold pow5FactorLoop
    rw [if_pos h0]
    have hu : u32 ((value : Int) - 5 * ((value / 5 : Nat) : Int)) = value % 5 := by
      have : (value : Int) - 5 * ((value / 5 : Nat) : Int) = ((value % 5 : Nat) : Int) := by
        omega
      rw [this, u32_natCast]; omega
    rw [hu]
    by_cases h5 : value % 5 = 0
    · rw [if_neg (by simpa using h5)]
      have hv : value / 5 < 5 ^ n := by
        rw [Nat.div_lt_iff_lt_mul (by norm_num)]
        rw [pow_succ] at h1; exact h1
      have hpos : 0 < value / 5 := by omega
      obtain ⟨k, hk1, hk2, hk3⟩ := pow5FactorLoop_spec n fuel (value / 5)
        ((count + 1) % 4294967296) hpos hv (by omega) (by omega)
      refine ⟨k + 1, ?_, ?_, ?_⟩
      · rw [hk1, Nat.mod_eq_of_lt (by omega)]; congr 1; omega
      · have : value = 5 * (value / 5) := by omega
        rw [this, pow_succ, mul_comm]
        exact Nat.mul_dvd_mul_left 5 hk2
      · intro hd
        apply hk3
        have : value = 5 * (value / 5) := by omega
        rw [this, pow_succ (5:Nat) (k+1), mul_comm] at hd
        exact Nat.dvd_of_mul_dvd_mul_left (by norm_num) hd
    · rw [if_pos h5]
      refine ⟨0, rfl, by simp, ?_⟩
      simpa [Nat.dvd_iff_mod_eq_zero] using h5

/-- For every positive 32-bit value and at least 14 units of fuel `pow5Factor` returns the
exponent of 5 in the value. -/
theorem pow5Factor_spec (fuel value : Nat) (hfuel : 14 ≤ fuel) (h0 : 0 < value)
    (h : value < 4294967296) :
    ∃ k, pow5Factor fuel value = .ok k ∧ k < 14 ∧ 5 ^ k ∣ value ∧ ¬ 5 ^ (k + 1) ∣ value := by
  have hv : value < 5 ^ 14 := by norm_num; omega
  obtain ⟨k, hk1, hk2, hk3⟩ := pow5FactorLoop_spec 14 fuel value 0 h0 hv hfuel (by omega)
  refine ⟨k, by simpa [pow5Factor] using hk1, ?_, hk2, hk3⟩
  have hle : 5 ^ k ≤ value := Nat.le_of_dvd h0 hk2
  have : 5 ^ k < 5 ^ 14 := lt_of_le_of_lt hle hv
  exact (Nat.pow_lt_pow_iff_right (by norm_num)).mp this

/-- Divisibility by a power of 5 read off the result of `pow5Factor`. -/
theorem pow5_dvd_iff (k q value : Nat) (h1 : 5 ^ k ∣ value) (h2 : ¬ 5 ^ (k + 1) ∣ value) :
    5 ^ q ∣ value ↔ q ≤ k := by
  constructor
  · intro hq
    by_contra hlt
    exact h2 (dvd_trans (pow_dvd_pow 5 (by omega)) hq)
  · intro hq
    exact dvd_trans (pow_dvd_pow 5 hq) h1

/-! ## The scaled bounds -/

theorem q_facts : ∀ ex < 255,
    (0 ≤ e2Of ex → 0 ≤ qPos (e2Of ex) ∧ qPos (e2Of ex) ≤ e2Of ex) ∧
    (e2Of ex < 0 → 0 ≤ qNeg (e2Of ex) ∧ qNeg (e2Of ex) < 4294967296) := by
  decide!

theorem dvd_scale_pos (q e m : Nat) (hqe : q ≤ e) : 10 ^ q ∣ m * 2 ^ e ↔ 5 ^ q ∣ m := by
  have h10 : (10:Nat) ^ q = 5 ^ q * 2 ^ q := by rw [← Nat.mul_pow]
  constructor
  · intro h
    have h5 : 5 ^ q ∣ m * 2 ^ e := dvd_trans (by rw [h10]; exact dvd_mul_right _ _) h
    have hc : Nat.Coprime (5 ^ q) (2 ^ e) := Nat.Coprime.pow _ _ (by norm_num)
    exact hc.dvd_of_dvd_mul_right h5
  · intro h
    rw [h10]
    exact Nat.mul_dvd_mul h (pow_dvd_pow 2 hqe)

theorem dvd_scale_neg (q i m : Nat) : 2 ^ q ∣ m * 5 ^ i ↔ 2 ^ q ∣ m := by
  constructor
  · intro h
    have hc : Nat.Coprime (2 ^ q) (5 ^ i) := Nat.Coprime.pow _ _ (by norm_num)
    exact hc.dvd_of_dvd_mul_right h
  · intro h
    exact dvd_mul_of_dvd_left h _

theorem two_pow_dvd_of_mod4 (q m : Nat) (hm : m % 4 = 2) : 2 ^ q ∣ m ↔ q ≤ 1 := by
  constructor
  · intro h
    by_contra hq
    have h4 : 4 ∣ m := dvd_trans (by
      have : (4:Nat) = 2 ^ 2 := by norm_num
      rw [this]; exact pow_dvd_pow 2 (by omega)) h
    omega
  · intro h
    have : q = 0 ∨ q = 1 := by omega
    rcases this with h | h <;> subst h
    · simp
    · simp; omega

theorem two_pow_dvd_of_odd (q m : Nat) (hm : m % 2 = 1) : 2 ^ q ∣ m ↔ q = 0 := by
  constructor
  · intro h
    by_contra hq
    have h2 : 2 ∣ m := dvd_trans (dvd_pow_self 2 hq) h
    omega
  · intro h
    subst h; simp

theorem decIf_eq (vp : Nat) (c : Bool) (h0 : 0 < vp) (h : vp < 4294967296) :
    decIf vp c = vp - (if c then 1 else 0) := by
  unfold decIf u32
  cases c <;> simp <;> omega

theorem scaled_ge (ex : Nat) (hex : ex < 255) (m : Nat) :
    m ≤ m * scaleNum (e2Of ex) / scaleDen (e2Of ex) := by
  obtain ⟨hB, hAB, -⟩ := scale_bounds ex hex
  rw [Nat.le_div_iff_mul_le hB]
  exact Nat.mul_le_mul_left _ hAB

theorem scaleDen_dvd_iff_pos (ex : Nat) (hex : ex < 255) (h : 0 ≤ e2Of ex) (m : Nat) :
    scaleDen (e2Of ex) ∣ m * scaleNum (e2Of ex) ↔ 5 ^ (qPos (e2Of ex)).toNat ∣ m := by
  obtain ⟨hq0, hqe⟩ := (q_facts ex hex).1 h
  simp only [scaleDen, scaleNum, if_pos h]
  exact dvd_scale_pos _ _ _ (by omega)

theorem scaleDen_dvd_iff_neg (ex : Nat) (h : e2Of ex < 0) (m : Nat) :
    scaleDen (e2Of ex) ∣ m * scaleNum (e2Of ex) ↔ 2 ^ (qNeg (e2Of ex)).toNat ∣ m := by
  simp only [scaleDen, scaleNum, if_neg (not_le.mpr h)]
  exact dvd_scale_neg _ _ _

/-- Lines 167-207 compute the exact floor of both scaled bounds; the upper one is lowered by one
exactly when it is an integer and bounds are not accepted, and `vmIsTrailingZeros` is set exactly
when bounds are accepted and the lower one is an integer. -/
theorem scale_spec (fuel : Nat) (hfuel : 14 ≤ fuel) (f : Fields) (hf : f.FiniteNonzero) :
    scale fuel f.e2 f.mp f.mm f.acceptBounds = .ok
      { vp := f.mp * scaleNum f.e2 / scaleDen f.e2 -
          (if f.acceptBounds = false ∧ scaleDen f.e2 ∣ f.mp * scaleNum f.e2 then 1 else 0),
        vm := f.mm * scaleNum f.e2 / scaleDen f.e2,
        e10 := e10Of f.e2,
        vmIsTrailingZeros :=
          decide (f.acceptBounds = true ∧ scaleDen f.e2 ∣ f.mm * scaleNum f.e2) } := by
  have hex : f.ieeeExponent < 255 := hf.1
  obtain ⟨hmm2, hmm3, hmm4, hmp⟩ := mm_lt_mp f hf
  have hm2 := m2_pos_lt f hf
  have hmpe := mp_eq f hf
  have hmme := mm_eq f hf
  rw [e2_eq_e2Of]
  generalize hexv : f.ieeeExponent = ex at *
  have hvp := mulScaled_exact ex hex f.mp hmp
  have hvm := mulScaled_exact ex hex f.mm (by omega)
  have hvplt := scaled_lt ex hex f.mp (by omega)
  have hvpge := scaled_ge ex hex f.mp
  obtain ⟨k1, hk1, hk1lt, hk1a, hk1b⟩ := pow5Factor_spec fuel f.mp hfuel (by omega) (by omega)
  obtain ⟨k2, hk2, hk2lt, hk2a, hk2b⟩ := pow5Factor_spec fuel f.mm hfuel (by omega) (by omega)
  by_cases h : 0 ≤ e2Of ex
  · obtain ⟨hq0, hqe⟩ := (q_facts ex hex).1 h
    unfold mulScaled at hvp hvm
    rw [if_pos h] at hvp hvm
    unfold scale
    rw [if_pos h]
    simp only [hvp, hvm, hk1, hk2, bind, Except.bind, e10Of, if_pos h]
    have hdp : scaleDen (e2Of ex) ∣ f.mp * scaleNum (e2Of ex) ↔ qPos (e2Of ex) ≤ (k1 : Int) := by
      rw [scaleDen_dvd_iff_pos ex hex h, pow5_dvd_iff k1 _ _ hk1a hk1b]; omega
    have hdm : scaleDen (e2Of ex) ∣ f.mm * scaleNum (e2Of ex) ↔ qPos (e2Of ex) ≤ (k2 : Int) := by
      rw [scaleDen_dvd_iff_pos ex hex h, pow5_dvd_iff k2 _ _ hk2a hk2b]; omega
    have hk1z : f.mp % 5 ≠ 0 → k1 = 0 := by
      intro h5
      by_contra hk
      have : 5 ∣ f.mp := dvd_trans (dvd_pow_self 5 hk) hk1a
      omega
    have hk2z : f.mp % 5 = 0 → k2 = 0 := by
      intro h5
      by_contra hk
      have : 5 ∣ f.mm := dvd_trans (dvd_pow_self 5 hk) hk2a
      omega
    have hnb : notBit0 f.mm = 0 ∨ notBit0 f.mm = 1 := by
      rw [notBit0_eq _ (by omega)]; split <;> simp
    have hmin1 : min (e2Of ex + 1) (i32 k1) ≥ qPos (e2Of ex) ↔ qPos (e2Of ex) ≤ (k1 : Int) := by
      rw [i32_small _ (by omega)]; unfold min; split <;> omega
    have hmin2 : min (i32 (u32 (e2Of ex + ↑(notBit0 f.mm)))) (i32 k2) ≥ qPos (e2Of ex)
        ↔ qPos (e2Of ex) ≤ (k2 : Int) := by
      have he : e2Of ex < 256 := by rw [e2Of_eq ex (by omega)]; split <;> omega
      rw [i32_small k2 (by omega), i32_u32 _ (by omega) (by omega)]
      unfold min; split <;> omega
    rw [decIf_eq _ _ (by omega) (by omega), decIf_eq _ _ (by omega) (by omega)]
    simp only [hdp, hdm, hmin1, hmin2]
    by_cases h5 : f.mp % 5 = 0
    · have hk2' := hk2z h5
      subst hk2'
      cases hacc : f.acceptBounds <;> simp [h5]
    · have hk1' := hk1z h5
      subst hk1'
      cases hacc : f.acceptBounds <;> simp [h5]
  · have hneg : e2Of ex < 0 := by omega
    obtain ⟨hq0, hq1⟩ := (q_facts ex hex).2 hneg
    unfold mulScaled at hvp hvm
    rw [if_neg h] at hvp hvm
    unfold scale
    rw [if_neg (by simpa using hneg)]
    simp only [hvp, hvm, bind, Except.bind, e10Of, if_neg h]
    have hu : u32 (qNeg (e2Of ex)) = (qNeg (e2Of ex)).toNat := by unfold u32; omega
    have hdp : scaleDen (e2Of ex) ∣ f.mp * scaleNum (e2Of ex) ↔ qNeg (e2Of ex) ≤ 1 := by
      rw [scaleDen_dvd_iff_neg ex hneg, two_pow_dvd_of_mod4 _ _ (by omega)]; omega
    have hdm : scaleDen (e2Of ex) ∣ f.mm * scaleNum (e2Of ex)
        ↔ notBit0 f.mm ≥ u32 (qNeg (e2Of ex)) := by
      rw [scaleDen_dvd_iff_neg ex hneg, hu, notBit0_eq _ (by omega)]
      by_cases hpar : f.mm % 2 = 0
      · rw [if_pos hpar, two_pow_dvd_of_mod4 _ _ (by rw [hmme] at hpar ⊢; split at hpar <;> split <;> omega)]
      · rw [if_neg hpar, two_pow_dvd_of_odd _ _ (by omega)]; omega
    rw [decIf_eq _ _ (by omega) (by omega)]
    simp only [hdp, hdm]
    cases hacc : f.acceptBounds <;> simp

/-! ## The digit search -/

theorem mod_pow_succ_eq_zero (v k : Nat) :
    (v % 10 = 0 ∧ v / 10 % 10 ^ k = 0) ↔ v % 10 ^ (k + 1) = 0 := by
  rw [pow_succ, mul_comm, Nat.mod_mul]
  constructor
  · rintro ⟨h1, h2⟩; rw [h1, h2]
  · intro h
    have h1 : v % 10 < 10 := Nat.mod_lt _ (by norm_num)
    constructor <;> omega

theorem div_pow_succ (v k : Nat) : v / 10 / 10 ^ k = v / 10 ^ (k + 1) := by
  rw [Nat.div_div_eq_div_mul, pow_succ, mul_comm]

theorem div_pow_succ' (v k : Nat) : v / 10 ^ k / 10 = v / 10 ^ (k + 1) := by
  rw [Nat.div_div_eq_div_mul, pow_succ]

/-- The first loop strips `k` digits from both bounds, stops as soon as the bounds agree after
one more division, and before each of its `k` iterations the bounds differ after division. -/
theorem digitLoop1_spec : ∀ (n fuel vp vm : Nat) (tz : Bool) (removed : Nat), vp < 10 ^ n →
    n < fuel → removed + n < 4294967296 →
    ∃ k, k ≤ n ∧ digitLoop1 fuel
        { vp := vp, vm := vm, vmIsTrailingZeros := tz, removed := removed } = .ok
        { vp := vp / 10 ^ k, vm := vm / 10 ^ k,
          vmIsTrailingZeros := tz && decide (vm % 10 ^ k = 0),
          removed := removed + k } ∧
      vp / 10 ^ (k + 1) ≤ vm / 10 ^ (k + 1) ∧
      ∀ j, j < k → vm / 10 ^ (j + 1) < vp / 10 ^ (j + 1)
  | 0, 0, _, _, _, _, _, hf, _ => by omega
  | 0, fuel + 1, vp, vm, tz, removed, h, _, _ => by
    have h0 : vp = 0 := by simpa using h
    subst h0
    refine ⟨0, le_refl _, ?_, ?_, ?_⟩
    · unfold digitLoop1
      simp [Nat.mod_one]
    · simp
    · intro j hj; omega
  | n + 1, 0, _, _, _, _, _, hf, _ => by omega
  | n + 1, fuel + 1, vp, vm, tz, removed, h, hf, hr => by
    unfold digitLoop1
    by_cases hc : vp / 10 > vm / 10
    · simp only [if_pos hc]
      have hv : vp / 10 < 10 ^ n := by
        rw [Nat.div_lt_iff_lt_mul (by norm_num)]
        rw [pow_succ] at h; exact h
      obtain ⟨k, hk, hrun, hexit, hiter⟩ := digitLoop1_spec n fuel (vp / 10) (vm / 10)
        (tz && (vm % 10 == 0)) ((removed + 1) % 4294967296) hv (by omega) (by omega)
      refine ⟨k + 1, by omega, ?_, ?_, ?_⟩
      · rw [hrun]
        simp only [div_pow_succ, Nat.mod_eq_of_lt (by omega : removed + 1 < 4294967296)]
        congr 2
        · rw [Bool.and_assoc]
          congr 1
          have := mod_pow_succ_eq_zero vm k
          rw [Bool.eq_iff_iff]
          simpa using this
        · omega
      · simpa only [div_pow_succ] using hexit
      · intro j hj
        rcases j with _ | j
        · simpa using hc
        · have := hiter j (by omega)
          simpa only [div_pow_succ] using this
    · simp only [if_neg hc]
      refine ⟨0, by omega, by simp [Nat.mod_one], by simpa using hc, ?_⟩
      intro j hj; omega

/-- The second loop strips exactly the trailing zeros of a positive `vm`. -/
theorem digitLoop2_spec : ∀ (n fuel vp vm : Nat) (tz : Bool) (removed : Nat), 0 < vm →
    vm < 10 ^ n → n < fuel → removed + n < 4294967296 →
    ∃ k, k ≤ n ∧ digitLoop2 fuel
        { vp := vp, vm := vm, vmIsTrailingZeros := tz, removed := removed } = .ok
        { vp := vp / 10 ^ k, vm := vm / 10 ^ k,
          vmIsTrailingZeros := tz, removed := removed + k } ∧
      vm % 10 ^ k = 0 ∧ vm / 10 ^ k % 10 ≠ 0
  | 0, _, _, vm, _, _, h0, h, _, _ => by simp at h; omega
  | n + 1, 0, _, _, _, _, _, _, hf, _ => by omega
  | n + 1, fuel + 1, vp, vm, tz, removed, h0, h, hf, hr => by
    unfold digitLoop2
    by_cases hc : vm % 10 = 0
    · simp only [if_pos hc]
      have hv : vm / 10 < 10 ^ n := by
        rw [Nat.div_lt_iff_lt_mul (by norm_num)]
        rw [pow_succ] at h; exact h
      obtain ⟨k, hk, hrun, hz, hexit⟩ := digitLoop2_spec n fuel (vp / 10) (vm / 10) tz
        ((removed + 1) % 4294967296) (by omega) hv (by omega) (by omega)
      refine ⟨k + 1, by omega, ?_, ?_, ?_⟩
      · rw [hrun]
        simp only [div_pow_succ, Nat.mod_eq_of_lt (by omega : removed + 1 < 4294967296)]
        congr 2
        omega
      · exact (mod_pow_succ_eq_zero _ _).mp ⟨hc, hz⟩
      · simpa only [div_pow_succ] using hexit
    · simp only [if_neg hc]
      exact ⟨0, by omega, by simp, by simp [Nat.mod_one], by simpa using hc⟩

theorem div_div_pow (v a b : Nat) : v / 10 ^ a / 10 ^ b = v / 10 ^ (a + b) := by
  rw [Nat.div_div_eq_div_mul, pow_add]

theorem lt_succ_div_mul (v k : Nat) : v < (v / 10 ^ k + 1) * 10 ^ k := by
  have hp : 0 < 10 ^ k := Nat.pow_pos (by norm_num)
  have := Nat.lt_mul_div_succ v hp
  calc v < 10 ^ k * (v / 10 ^ k + 1) := this
    _ = (v / 10 ^ k + 1) * 10 ^ k := by ring

theorem div_mul_pow_of_mod (v k : Nat) (h : v % 10 ^ k = 0) : v / 10 ^ k * 10 ^ k = v :=
  Nat.div_mul_cancel (Nat.dvd_of_mod_eq_zero h)

/-- What the two loops of the digit search achieve, for bounds `vm0 < vp0`. -/
theorem search_spec (fuel : Nat) (hfuel : 11 ≤ fuel) (vp0 vm0 : Nat) (e10 : Int)
    (flag0 acc : Bool) (h1 : vm0 < vp0) (h2 : vp0 < 10 ^ 10) (h3 : 0 < vm0) :
    ∃ r, search fuel { vp := vp0, vm := vm0, e10 := e10, vmIsTrailingZeros := flag0 } acc
        = .ok { vp := vp0 / 10 ^ r, vm := vm0 / 10 ^ r,
                vmIsTrailingZeros := flag0 && decide (vm0 % 10 ^ r = 0), removed := r } ∧
      10 ^ r ≤ vp0 ∧
      (vm0 < vp0 / 10 ^ r * 10 ^ r ∨
        (flag0 = true ∧ acc = true ∧ vp0 / 10 ^ r * 10 ^ r = vm0)) ∧
      vp0 / 10 ^ (r + 1) ≤ vm0 / 10 ^ (r + 1) ∧
      (flag0 = true → acc = true → vm0 / 10 ^ r % 10 ≠ 0 ∨ vm0 % 10 ^ r ≠ 0) := by
  obtain ⟨k1, hk1, hrun1, hexit1, hiter1⟩ :=
    digitLoop1_spec 10 fuel vp0 vm0 flag0 0 h2 (by omega) (by omega)
  have hgt1 : vm0 / 10 ^ k1 < vp0 / 10 ^ k1 := by
    rcases k1 with _ | k
    · simpa using h1
    · exact hiter1 k (by omega)
  have hp1 : 0 < 10 ^ k1 := Nat.pow_pos (by norm_num)
  have hle1 : 10 ^ k1 ≤ vp0 := by
    have : 1 ≤ vp0 / 10 ^ k1 := Nat.succ_le_of_lt (lt_of_le_of_lt (Nat.zero_le _) hgt1)
    rw [Nat.le_div_iff_mul_le hp1] at this
    simpa using this
  have hb1 : vm0 < vp0 / 10 ^ k1 * 10 ^ k1 := by
    calc vm0 < (vm0 / 10 ^ k1 + 1) * 10 ^ k1 := lt_succ_div_mul _ _
      _ ≤ vp0 / 10 ^ k1 * 10 ^ k1 := Nat.mul_le_mul_right _ hgt1
  unfold search
  simp only [hrun1, bind, Except.bind, zero_add]
  by_cases hc : (flag0 && decide (vm0 % 10 ^ k1 = 0) && acc) = true
  · rw [if_pos hc]
    simp only [Bool.and_eq_true, decide_eq_true_eq] at hc
    obtain ⟨⟨hflag, hz1⟩, hacc⟩ := hc
    have hvm1 : vm0 / 10 ^ k1 * 10 ^ k1 = vm0 := div_mul_pow_of_mod _ _ hz1
    have hvm1pos : 0 < vm0 / 10 ^ k1 := by
      rcases Nat.eq_zero_or_pos (vm0 / 10 ^ k1) with h | h
      · rw [h] at hvm1; omega
      · exact h
    have hvp1lt : vp0 / 10 ^ k1 < 10 ^ 10 := lt_of_le_of_lt (Nat.div_le_self _ _) h2
    obtain ⟨k2, hk2, hrun2, hz2, hexit2⟩ := digitLoop2_spec 10 fuel (vp0 / 10 ^ k1)
      (vm0 / 10 ^ k1) (flag0 && decide (vm0 % 10 ^ k1 = 0)) k1 hvm1pos (by omega) (by omega)
      (by omega)
    have hvm2 : vm0 / 10 ^ k1 / 10 ^ k2 * 10 ^ k2 = vm0 / 10 ^ k1 := div_mul_pow_of_mod _ _ hz2
    have hz12 : vm0 % 10 ^ (k1 + k2) = 0 := by
      apply Nat.mod_eq_zero_of_dvd
      rw [pow_add]
      rw [← hvm1, ← hvm2]
      exact ⟨vm0 / 10 ^ k1 / 10 ^ k2, by ring⟩
    have hp2 : 0 < 10 ^ k2 := Nat.pow_pos (by norm_num)
    have hcase : k2 = 0 ∨ vp0 / 10 ^ k1 / 10 ^ k2 = vm0 / 10 ^ k1 / 10 ^ k2 := by
      rcases Nat.eq_zero_or_pos k2 with hk0 | hk0
      · exact Or.inl hk0
      · right
        obtain ⟨k, rfl⟩ : ∃ k, k2 = k + 1 := ⟨k2 - 1, by omega⟩
        have hm10 : vm0 / 10 ^ k1 % 10 = 0 := ((mod_pow_succ_eq_zero _ k).mpr hz2).1
        have hexit1' : vp0 / 10 ^ k1 / 10 ≤ vm0 / 10 ^ k1 / 10 := by
          simpa only [div_pow_succ'] using hexit1
        have heq : vp0 / 10 ^ k1 / 10 = vm0 / 10 ^ k1 / 10 := by omega
        rw [← div_pow_succ, ← div_pow_succ, heq]
    refine ⟨k1 + k2, ?_, ?_, ?_, ?_, ?_⟩
    · rw [hrun2]
      simp only [div_div_pow, hflag, hz1, hz12, decide_True, Bool.and_self]
    · have : 10 ^ k2 ≤ vm0 / 10 ^ k1 :=
        Nat.le_of_dvd hvm1pos (Nat.dvd_of_mod_eq_zero hz2)
      have h10 : 10 ^ k2 ≤ vp0 / 10 ^ k1 := le_trans this (le_of_lt hgt1)
      rw [Nat.le_div_iff_mul_le hp1] at h10
      rw [pow_add, mul_comm]; exact h10
    · rcases hcase with hk0 | heq2
      · subst hk0
        left
        simpa using hb1
      · right
        refine ⟨hflag, hacc, ?_⟩
        rw [← div_div_pow, heq2, pow_add]
        calc vm0 / 10 ^ k1 / 10 ^ k2 * (10 ^ k1 * 10 ^ k2)
            = (vm0 / 10 ^ k1 / 10 ^ k2 * 10 ^ k2) * 10 ^ k1 := by ring
          _ = vm0 := by rw [hvm2, hvm1]
    · rcases hcase with hk0 | heq2
      · subst hk0
        simpa using hexit1
      · rw [← div_pow_succ', ← div_pow_succ', ← div_div_pow, ← div_div_pow, heq2]
    · intro _ _
      left
      rw [← div_div_pow]; exact hexit2
  · rw [if_neg hc]
    refine ⟨k1, rfl, hle1, Or.inl hb1, hexit1, ?_⟩
    intro hflag hacc
    right
    intro hz
    apply hc
    simp [hflag, hacc, hz]

/-! ## `decimalLength` -/

theorem decimalLength_range (v : Nat) : 1 ≤ decimalLength v ∧ decimalLength v ≤ 10 := by
  unfold decimalLength
  split_ifs <;> omega

theorem decimalLength_lt (v : Nat) (h : v < 10 ^ 10) : v < 10 ^ decimalLength v := by
  unfold decimalLength
  split_ifs <;> norm_num <;> omega

theorem decimalLength_le (v : Nat) (h : 1 ≤ v) : 10 ^ (decimalLength v - 1) ≤ v := by
  unfold decimalLength
  split_ifs <;> norm_num <;> omega

theorem decimalLength_unique (v n : Nat) (h1 : 10 ^ (n - 1) ≤ v) (h2 : v < 10 ^ n)
    (hn : 1 ≤ n) (hn10 : n ≤ 10) : decimalLength v = n := by
  have hv : v < 10 ^ 10 := lt_of_lt_of_le h2 (Nat.pow_le_pow_right (by norm_num) hn10)
  have hv1 : 1 ≤ v := le_trans (Nat.pow_pos (by norm_num)) h1
  have a1 := decimalLength_lt v hv
  have a2 := decimalLength_le v hv1
  have a3 := decimalLength_range v
  have b1 : 10 ^ (n - 1) < 10 ^ decimalLength v := lt_of_le_of_lt h1 a1
  have b2 : 10 ^ (decimalLength v - 1) < 10 ^ n := lt_of_le_of_lt a2 h2
  rw [Nat.pow_lt_pow_iff_right (by norm_num)] at b1 b2
  omega

theorem decimalLength_div (v r : Nat) (hv : v < 10 ^ 10) (hr : 10 ^ r ≤ v) :
    r < decimalLength v ∧ decimalLength (v / 10 ^ r) = decimalLength v - r := by
  have hv1 : 1 ≤ v := le_trans (Nat.pow_pos (by norm_num)) hr
  have a1 := decimalLength_lt v hv
  have a2 := decimalLength_le v hv1
  have a3 := decimalLength_range v
  have hp : 0 < 10 ^ r := Nat.pow_pos (by norm_num)
  have hlt : r < decimalLength v := by
    have : 10 ^ r < 10 ^ decimalLength v := lt_of_le_of_lt hr a1
    exact (Nat.pow_lt_pow_iff_right (by norm_num)).mp this
  refine ⟨hlt, ?_⟩
  apply decimalLength_unique
  · rw [Nat.le_div_iff_mul_le hp, ← pow_add]
    have : decimalLength v - r - 1 + r = decimalLength v - 1 := by omega
    rw [this]; exact a2
  · rw [Nat.div_lt_iff_lt_mul hp, ← pow_add]
    have : decimalLength v - r + r = decimalLength v := by omega
    rw [this]; exact a1
  · omega
  · omega

theorem e10_range : ∀ ex < 255, -46 ≤ e10Of (e2Of ex) ∧ e10Of (e2Of ex) ≤ 30 := by
  decide!

/-! ## The shortest decimal of a finite non-zero value -/

theorem vm_lt_vp (f : Fields) (hf : f.FiniteNonzero) :
    0 < vmOf f ∧ vmOf f + 2 ≤ vpOf f ∧ vpOf f < 671088640 := by
  have hex : f.ieeeExponent < 255 := hf.1
  obtain ⟨hmm2, hmm3, hmm4, hmp⟩ := mm_lt_mp f hf
  obtain ⟨hB, hAB, -⟩ := scale_bounds f.ieeeExponent hex
  have h1 := scaled_ge f.ieeeExponent hex f.mm
  have h2 := scaled_lt f.ieeeExponent hex f.mp (by omega)
  rw [← e2_eq_e2Of] at hB hAB h1 h2
  have h3 : f.mm * scaleNum f.e2 / scaleDen f.e2 + 3 ≤ f.mp * scaleNum f.e2 / scaleDen f.e2 := by
    rw [Nat.le_div_iff_mul_le hB]
    have := Nat.div_mul_le_self (f.mm * scaleNum f.e2) (scaleDen f.e2)
    nlinarith
  unfold vmOf vpOf
  refine ⟨by omega, ?_, ?_⟩
  · split <;> omega
  · split <;> omega

/-- Lines 165-239 on a finite non-zero value: the digit search removes `r` digits, prints the
`r`-fold truncation of the upper bound, and `olength` is the number of digits printed. -/
theorem shortest_spec (fuel : Nat) (hfuel : 14 ≤ fuel) (f : Fields) (hf : f.FiniteNonzero) :
    ∃ r, shortest fuel f = .ok
        { output := vpOf f / 10 ^ r,
          olength := decimalLength (vpOf f) - r,
          exp := e10Of f.e2 + (decimalLength (vpOf f) : Int) - 1 } ∧
      search fuel { vp := vpOf f, vm := vmOf f, e10 := e10Of f.e2, vmIsTrailingZeros := tzOf f }
          f.acceptBounds
        = .ok { vp := vpOf f / 10 ^ r, vm := vmOf f / 10 ^ r,
                vmIsTrailingZeros := tzOf f && decide (vmOf f % 10 ^ r = 0), removed := r } ∧
      r < decimalLength (vpOf f) ∧
      decimalLength (vpOf f / 10 ^ r) = decimalLength (vpOf f) - r ∧
      (vmOf f < vpOf f / 10 ^ r * 10 ^ r ∨
        (tzOf f = true ∧ f.acceptBounds = true ∧ vpOf f / 10 ^ r * 10 ^ r = vmOf f)) ∧
      vpOf f / 10 ^ (r + 1) ≤ vmOf f / 10 ^ (r + 1) ∧
      (tzOf f = true → f.acceptBounds = true →
        vmOf f / 10 ^ r % 10 ≠ 0 ∨ vmOf f % 10 ^ r ≠ 0) := by
  obtain ⟨hvm0, hvmvp, hvplt⟩ := vm_lt_vp f hf
  have hsc : scale fuel f.e2 f.mp f.mm f.acceptBounds = .ok
      { vp := vpOf f, vm := vmOf f, e10 := e10Of f.e2, vmIsTrailingZeros := tzOf f } :=
    scale_spec fuel hfuel f hf
  have hvp10 : vpOf f < 10 ^ 10 := by norm_num; omega
  obtain ⟨r, hrun, hr, hb, hc, hd⟩ := search_spec fuel (by omega) (vpOf f) (vmOf f)
    (e10Of f.e2) (tzOf f) f.acceptBounds (by omega) hvp10 hvm0
  obtain ⟨hrlt, hdl⟩ := decimalLength_div (vpOf f) r hvp10 hr
  have hdlr := decimalLength_range (vpOf f)
  obtain ⟨he1, he2⟩ := e10_range f.ieeeExponent hf.1
  rw [← e2_eq_e2Of] at he1 he2
  refine ⟨r, ?_, hrun, hrlt, hdl, hb, hc, hd⟩
  simp only [shortest, hsc, bind, Except.bind, hrun]
  congr 2
  · have : (decimalLength (vpOf f) : Int) - (r : Int)
        = ((decimalLength (vpOf f) - r : Nat) : Int) := by omega
    rw [this, u32_natCast]; omega
  · rw [i32_u32] <;> omega

/-! ## The character buffer -/

theorem peek_set (buf : List Nat) (p : Nat) (c : Nat) (k : Nat) (hp : p < buf.length) :
    peek (buf.set p c) k = if k = p then c else peek buf k := by
  unfold peek
  by_cases h : k = p
  · subst h
    simp [hp]
  · rw [if_neg h]
    simp [List.getElem?_set_ne (Ne.symm h)]

theorem poke_eq (buf : List Nat) (pos : Int) (p : Nat) (c : Nat) (hpos : pos = (p : Int))
    (hp : p < buf.length) : poke buf pos c = .ok (buf.set p c) := by
  subst hpos
  unfold poke
  rw [if_pos (by omega)]
  simp

theorem digit_table_spec : ∀ x < 100,
    DIGIT_TABLE[2 * x]? = some (48 + x / 10) ∧ DIGIT_TABLE[2 * x + 1]? = some (48 + x % 10) := by
  decide!

theorem memcpy2_eq (buf : List Nat) (pos : Int) (p : Nat) (x c : Nat) (hpos : pos = (p : Int))
    (hp : p + 1 < buf.length) (hx : x < 100) (hc : c = 2 * x) :
    memcpy2 buf pos c = .ok ((buf.set p (48 + x / 10)).set (p + 1) (48 + x % 10)) := by
  subst hc
  obtain ⟨h1, h2⟩ := digit_table_spec x hx
  unfold memcpy2
  simp only [tableGet, h1, h2, bind, Except.bind]
  rw [poke_eq buf pos p _ hpos (by omega)]
  simp only
  rw [poke_eq _ (pos + 1) (p + 1) _ (by omega) (by simp; omega)]

theorem Holds.append {buf : List Nat} {pos : Nat} {s1 s2 : List Nat}
    (h1 : Holds buf pos s1) (h2 : Holds buf (pos + s1.length) s2) : Holds buf pos (s1 ++ s2) := by
  intro t ht
  by_cases h : t < s1.length
  · rw [h1 t h]
    simp [List.getElem?_append_left h]
  · have h' : s1.length ≤ t := by omega
    have := h2 (t - s1.length) (by simp at ht; omega)
    have e : pos + s1.length + (t - s1.length) = pos + t := by omega
    rw [e] at this
    rw [this]
    simp [List.getElem?_append_right h']

theorem Holds.nil (buf : List Nat) (pos : Nat) : Holds buf pos [] := by
  intro t ht; simp at ht

theorem Holds.single {buf : List Nat} {pos : Nat} {c : Nat} (h : peek buf pos = c) :
    Holds buf pos [c] := by
  intro t ht
  have : t = 0 := by simpa using ht
  subst this
  simpa using h

theorem Holds.frame {buf buf2 : List Nat} {pos : Nat} {s : List Nat} (bound : Nat)
    (h : Holds buf pos s) (hb : pos + s.length ≤ bound)
    (hfr : ∀ k, k < bound → peek buf2 k = peek buf k) : Holds buf2 pos s := by
  intro t ht
  rw [hfr _ (by omega)]
  exact h t ht

/-- A buffer that stores `s` at its start, followed by a NUL, holds the C string `s`. -/
theorem cbytes_of_holds : ∀ (s buf : List Nat), Holds buf 0 s → peek buf s.length = 0 →
    (∀ c ∈ s, c ≠ 0) → s.length < buf.length → cbytes buf = s
  | [], buf, _, h0, _, hl => by
    rcases buf with _ | ⟨b, bs⟩
    · simp at hl
    · have : b = 0 := by simpa [peek] using h0
      subst this
      simp [cbytes]
  | c :: cs, buf, h, h0, hnz, hl => by
    rcases buf with _ | ⟨b, bs⟩
    · simp at hl
    · have hb : b = c := by
        have := h 0 (by simp)
        simpa [peek] using this
      subst hb
      have hcs : cbytes bs = cs := by
        apply cbytes_of_holds cs bs
        · intro t ht
          have := h (t + 1) (by simp; omega)
          simpa [peek] using this
        · simpa [peek] using h0
        · intro c hc; exact hnz c (List.mem_cons_of_mem _ hc)
        · simpa using hl
      have hb0 : b ≠ 0 := hnz b (List.mem_cons_self _ _)
      unfold cbytes at hcs ⊢
      rw [List.takeWhile_cons_of_pos (by simpa using hb0), hcs]

/-! ## The digit printer -/

theorem peek_set2 (buf : List Nat) (p a b k : Nat) (hp : p + 1 < buf.length) :
    peek ((buf.set p a).set (p + 1) b) k
      = if k = p + 1 then b else if k = p then a else peek buf k := by
  rw [peek_set _ _ _ _ (by simp; omega), peek_set _ _ _ _ (by omega)]

theorem digit_shift (output i t : Nat) : output / 10 ^ (i + t) = output / 10 ^ i / 10 ^ t := by
  rw [pow_add, Nat.div_div_eq_div_mul]

theorem printLoop4_spec (buf : List Nat) (idx olength output : Nat)
    (hlen : idx + olength < buf.length) (hout : output < 10 ^ olength) :
    ∀ (n fuel : Nat) (r : List Nat) (i : Nat), output / 10 ^ i < 10000 ^ n → n < fuel →
      i < olength → PrintInv buf r idx olength output i →
      ∃ (r1 : List Nat) (i1 : Nat), printLoop4 (idx : Int) olength fuel
          { result := r, output := output / 10 ^ i, i := ((i : Nat) : Int) }
          = .ok { result := r1, output := output / 10 ^ i1, i := ((i1 : Nat) : Int) } ∧
        output / 10 ^ i1 < 10000 ∧ i1 < olength ∧ PrintInv buf r1 idx olength output i1
  | _, 0, _, _, _, hf, _, _ => by omega
  | 0, fuel + 1, r, i, h, _, hi, hinv => by
    have h0 : output / 10 ^ i = 0 := by simpa using h
    refine ⟨r, i, ?_, by omega, hi, hinv⟩
    unfold printLoop4
    simp [h0]
  | n + 1, fuel + 1, r, i, h, hf, hi, hinv => by
    unfold printLoop4
    by_cases hc : output / 10 ^ i ≥ 10000
    · simp only [if_pos hc]
      obtain ⟨hl, hfr, hdig⟩ := hinv
      have hp : 0 < 10 ^ i := Nat.pow_pos (by norm_num)
      have hi4 : i + 4 < olength := by
        have h1 : 10000 * 10 ^ i ≤ output := by
          rw [ge_iff_le, Nat.le_div_iff_mul_le hp] at hc; exact hc
        have h2 : 10 ^ (i + 4) < 10 ^ olength := by
          rw [pow_add, mul_comm]; norm_num; omega
        exact (Nat.pow_lt_pow_iff_right (by norm_num)).mp h2
      generalize ho : output / 10 ^ i = o at *
      have hcu : u32 ((o : Int) - 10000 * ((o / 10000 : Nat) : Int)) = o % 10000 := by
        have : (o : Int) - 10000 * ((o / 10000 : Nat) : Int) = ((o % 10000 : Nat) : Int) := by
          omega
        rw [this, u32_natCast]; omega
      rw [hcu]
      have hm1 := memcpy2_eq r ((idx : Int) + (olength : Int) - (i : Int) - 1)
        (idx + olength - i - 1) (o % 10000 % 100) ((o % 10000 % 100) <<< 1 % 4294967296)
        (by omega) (by omega) (by omega) (by rw [Nat.shiftLeft_eq]; omega)
      simp only [hm1, bind, Except.bind]
      have hm2 := memcpy2_eq
        ((r.set (idx + olength - i - 1) (48 + o % 10000 % 100 / 10)).set (idx + olength - i - 1 + 1)
          (48 + o % 10000 % 100 % 10))
        ((idx : Int) + (olength : Int) - (i : Int) - 3)
        (idx + olength - i - 3) (o % 10000 / 100) ((o % 10000 / 100) <<< 1 % 4294967296)
        (by omega) (by simp; omega) (by omega) (by rw [Nat.shiftLeft_eq]; omega)
      simp only [hm2]
      have hnext : o / 10000 = output / 10 ^ (i + 4) := by
        rw [digit_shift, ho]; norm_num
      have hrec := printLoop4_spec buf idx olength output hlen hout n fuel
        (((((r.set (idx + olength - i - 1) (48 + o % 10000 % 100 / 10)).set
          (idx + olength - i - 1 + 1) (48 + o % 10000 % 100 % 10)).set
          (idx + olength - i - 3) (48 + o % 10000 / 100 / 10)).set
          (idx + olength - i - 3 + 1) (48 + o % 10000 / 100 % 10))) (i + 4)
        (by
          rw [← hnext, Nat.div_lt_iff_lt_mul (by norm_num)]
          rw [pow_succ] at h; exact h)
        (by omega) (by omega)
        (by
          refine ⟨by simp [hl], ?_, ?_⟩
          · intro k hk
            rw [peek_set2 _ _ _ _ _ (by simp; omega), peek_set2 _ _ _ _ _ (by omega)]
            rw [if_neg (by omega), if_neg (by omega), if_neg (by omega), if_neg (by omega)]
            exact hfr k hk
          · intro d hd
            rw [peek_set2 _ _ _ _ _ (by simp; omega), peek_set2 _ _ _ _ _ (by omega)]
            split_ifs with h1 h2 h3 h4
            · have : d = i + 2 := by omega
              subst this
              rw [digit_shift, ho]; norm_num; omega
            · have : d = i + 3 := by omega
              subst this
              rw [digit_shift, ho]; norm_num; omega
            · have : d = i := by omega
              subst this
              rw [ho]; omega
            · have : d = i + 1 := by omega
              subst this
              rw [digit_shift, ho]; norm_num; omega
            · exact hdig d (by omega))
      obtain ⟨r1, i1, hrun, hlt, hle, hinv1⟩ := hrec
      refine ⟨r1, i1, ?_, hlt, hle, hinv1⟩
      rw [← hrun, hnext]
      congr 2
    · simp only [if_neg hc]
      exact ⟨r, i, rfl, by omega, hi, hinv⟩

theorem printLoop2_spec (buf : List Nat) (idx olength output : Nat)
    (hlen : idx + olength < buf.length) (hout : output < 10 ^ olength) :
    ∀ (n fuel : Nat) (r : List Nat) (i : Nat), output / 10 ^ i < 100 ^ n → n < fuel →
      i < olength → PrintInv buf r idx olength output i →
      ∃ (r1 : List Nat) (i1 : Nat), printLoop2 (idx : Int) olength fuel
          { result := r, output := output / 10 ^ i, i := ((i : Nat) : Int) }
          = .ok { result := r1, output := output / 10 ^ i1, i := ((i1 : Nat) : Int) } ∧
        output / 10 ^ i1 < 100 ∧ i1 < olength ∧ PrintInv buf r1 idx olength output i1
  | _, 0, _, _, _, hf, _, _ => by omega
  | 0, fuel + 1, r, i, h, _, hi, hinv => by
    have h0 : output / 10 ^ i = 0 := by simpa using h
    refine ⟨r, i, ?_, by omega, hi, hinv⟩
    unfold printLoop2
    simp [h0]
  | n + 1, fuel + 1, r, i, h, hf, hi, hinv => by
    unfold printLoop2
    by_cases hc : output / 10 ^ i ≥ 100
    · simp only [if_pos hc]
      obtain ⟨hl, hfr, hdig⟩ := hinv
      have hp : 0 < 10 ^ i := Nat.pow_pos (by norm_num)
      have hi2 : i + 2 < olength := by
        have h1 : 100 * 10 ^ i ≤ output := by
          rw [ge_iff_le, Nat.le_div_iff_mul_le hp] at hc; exact hc
        have h2 : 10 ^ (i + 2) < 10 ^ olength := by
          rw [pow_add, mul_comm]; norm_num; omega
        exact (Nat.pow_lt_pow_iff_right (by norm_num)).mp h2
      generalize ho : output / 10 ^ i = o at *
      have hcu : u32 ((o : Int) - 100 * ((o / 100 : Nat) : Int)) = o % 100 := by
        have : (o : Int) - 100 * ((o / 100 : Nat) : Int) = ((o % 100 : Nat) : Int) := by
          omega
        rw [this, u32_natCast]; omega
      rw [hcu]
      have hm1 := memcpy2_eq r ((idx : Int) + (olength : Int) - (i : Int) - 1)
        (idx + olength - i - 1) (o % 100) ((o % 100) <<< 1 % 4294967296)
        (by omega) (by omega) (by omega) (by rw [Nat.shiftLeft_eq]; omega)
      simp only [hm1, bind, Except.bind]
      have hnext : o / 100 = output / 10 ^ (i + 2) := by
        rw [digit_shift, ho]; norm_num
      have hrec := printLoop2_spec buf idx olength output hlen hout n fuel
        ((r.set (idx + olength - i - 1) (48 + o % 100 / 10)).set
          (idx + olength - i - 1 + 1) (48 + o % 100 % 10)) (i + 2)
        (by
          rw [← hnext, Nat.div_lt_iff_lt_mul (by norm_num)]
          rw [pow_succ] at h; exact h)
        (by omega) (by omega)
        (by
          refine ⟨by simp [hl], ?_, ?_⟩
          · intro k hk
            rw [peek_set2 _ _ _ _ _ (by omega)]
            rw [if_neg (by omega), if_neg (by omega)]
            exact hfr k hk
          · intro d hd
            rw [peek_set2 _ _ _ _ _ (by omega)]
            split_ifs with h1 h2
            · have : d = i := by omega
              subst this
              rw [ho]; omega
            · have : d = i + 1 := by omega
              subst this
              rw [digit_shift, ho]; norm_num; omega
            · exact hdig d (by omega))
      obtain ⟨r1, i1, hrun, hlt, hle, hinv1⟩ := hrec
      refine ⟨r1, i1, ?_, hlt, hle, hinv1⟩
      rw [← hrun, hnext]
      congr 2
    · simp only [if_neg hc]
      exact ⟨r, i, rfl, by omega, hi, hinv⟩

set_option maxRecDepth 4000 in
/-- Lines 249-272 put the leading digit of `output` at `idx` and its other digits, most
significant first, from `idx + 2` on, provided `output` has exactly `olength` digits. -/
theorem printDigits_spec (fuel : Nat) (hfuel : 4 ≤ fuel) (buf : List Nat)
    (idx olength output : Nat) (hlen : idx + olength < buf.length) (hol : 1 ≤ olength)
    (hol10 : olength ≤ 10)
    (hlo : 10 ^ (olength - 1) ≤ output) (hout : output < 10 ^ olength) :
    ∃ r, printDigits fuel buf (idx : Int) olength output = .ok r ∧
      r.length = buf.length ∧ (∀ k, k < idx → peek r k = peek buf k) ∧
      peek r idx = 48 + output / 10 ^ (olength - 1) % 10 ∧
      ∀ d, d + 2 ≤ olength → peek r (idx + olength - d) = 48 + output / 10 ^ d % 10 := by
  have h10 : output < 10000 ^ 3 := by
    calc output < 10 ^ olength := hout
      _ ≤ 10 ^ 10 := Nat.pow_le_pow_right (by norm_num) hol10
      _ ≤ 10000 ^ 3 := by norm_num
  obtain ⟨r1, i1, hrun1, hlt1, hi1, hinv1⟩ := printLoop4_spec buf idx olength output hlen hout
    3 fuel buf 0 (by simpa using h10) (by omega) (by omega)
    ⟨rfl, fun _ _ => rfl, fun d hd => by omega⟩
  obtain ⟨r2, i2, hrun2, hlt2, hi2, hinv2⟩ := printLoop2_spec buf idx olength output hlen hout
    2 fuel r1 i1 (by norm_num; omega) (by omega) hi1 hinv1
  obtain ⟨hl, hfr, hdig⟩ := hinv2
  have hp : 0 < 10 ^ i2 := Nat.pow_pos (by norm_num)
  have hge1 : 1 ≤ output / 10 ^ i2 := by
    rw [Nat.le_div_iff_mul_le hp, one_mul]
    exact le_trans (Nat.pow_le_pow_right (by norm_num) (by omega)) hlo
  unfold printDigits
  have hrun1' : printLoop4 (idx : Int) olength fuel { result := buf, output := output, i := 0 }
      = .ok { result := r1, output := output / 10 ^ i1, i := ((i1 : Nat) : Int) } := by
    simpa using hrun1
  simp only [hrun1', hrun2, bind, Except.bind]
  generalize ho : output / 10 ^ i2 = o at *
  by_cases hc : o ≥ 10
  · rw [if_pos hc]
    have hol2 : olength = i2 + 2 := by
      have h1 : 10 * 10 ^ i2 ≤ output := by
        rw [← ho, ge_iff_le, Nat.le_div_iff_mul_le hp] at hc; exact hc
      have h2 : output < 100 * 10 ^ i2 := by
        rw [← ho, Nat.div_lt_iff_lt_mul hp] at hlt2; exact hlt2
      have h3 : 10 ^ (i2 + 1) < 10 ^ olength := by
        rw [pow_succ, mul_comm]; omega
      have h4 : 10 ^ (olength - 1) < 10 ^ (i2 + 2) := by
        rw [pow_add, mul_comm]; norm_num; omega
      rw [Nat.pow_lt_pow_iff_right (by norm_num)] at h3 h4
      omega
    obtain ⟨ht1, ht2⟩ := digit_table_spec o (by omega)
    have hsh : o <<< 1 % 4294967296 = 2 * o := by rw [Nat.shiftLeft_eq]; omega
    simp only [hsh, tableGet, ht1, ht2]
    rw [poke_eq r2 _ (idx + 2) _ (by omega) (by omega)]
    simp only
    rw [poke_eq _ _ idx _ rfl (by simp; omega)]
    refine ⟨_, rfl, by simp [hl], ?_, ?_, ?_⟩
    · intro k hk
      rw [peek_set _ _ _ _ (by simp; omega), peek_set _ _ _ _ (by omega)]
      rw [if_neg (by omega), if_neg (by omega)]
      exact hfr k (by omega)
    · rw [peek_set _ _ _ _ (by simp; omega), if_pos rfl]
      have : olength - 1 = i2 + 1 := by omega
      rw [this, digit_shift, ho]; norm_num; omega
    · intro d hd
      rw [peek_set _ _ _ _ (by simp; omega), peek_set _ _ _ _ (by omega)]
      rw [if_neg (by omega)]
      split_ifs with h1
      · have : d = i2 := by omega
        subst this
        rw [ho]
      · exact hdig d (by omega)
  · rw [if_neg hc]
    have hol1 : olength = i2 + 1 := by
      have h2 : output < 10 * 10 ^ i2 := by
        have h : output / 10 ^ i2 < 10 := by rw [ho]; omega
        rwa [Nat.div_lt_iff_lt_mul hp] at h
      have h4 : 10 ^ (olength - 1) < 10 ^ (i2 + 1) := by
        rw [pow_succ, mul_comm]; omega
      rw [Nat.pow_lt_pow_iff_right (by norm_num)] at h4
      omega
    rw [poke_eq r2 _ idx _ rfl (by omega)]
    refine ⟨_, rfl, by simp [hl], ?_, ?_, ?_⟩
    · intro k hk
      rw [peek_set _ _ _ _ (by omega), if_neg (by omega)]
      exact hfr k (by omega)
    · rw [peek_set _ _ _ _ (by omega), if_pos rfl]
      have : olength - 1 = i2 := by omega
      rw [this, ho]
      have : '0'.toNat = 48 := by decide
      rw [this]; omega
    · intro d hd
      rw [peek_set _ _ _ _ (by omega), if_neg (by omega)]
      exact hdig d (by omega)

/-! ## The printed string -/

theorem fracDigits_length (output olength : Nat) :
    (fracDigits output olength).length = olength - 1 := by
  simp [fracDigits]

theorem fracDigits_getD (output olength t : Nat) (ht : t < olength - 1) :
    (fracDigits output olength).getD t 0 = 48 + output / 10 ^ (olength - 2 - t) % 10 := by
  simp [fracDigits, List.getElem?_range ht, ht]

theorem mantissaBytes_length (output olength : Nat) :
    (mantissaBytes output olength).length = if olength > 1 then olength + 1 else 1 := by
  unfold mantissaBytes
  split
  · simp [fracDigits_length]; omega
  · simp

theorem Holds.snoc {r : List Nat} {s : List Nat} (c : Nat) (h : Holds r 0 s)
    (hl : s.length < r.length) : Holds (r.set s.length c) 0 (s ++ [c]) := by
  apply Holds.append
  · exact Holds.frame s.length h (by omega) (fun k hk => by
      rw [peek_set _ _ _ _ hl, if_neg (by omega)])
  · apply Holds.single
    rw [peek_set _ _ _ _ hl]; simp

theorem Holds.frame_set {r : List Nat} {s : List Nat} (p c : Nat) (h : Holds r 0 s)
    (hp : s.length ≤ p) (hl : p < r.length) : Holds (r.set p c) 0 s :=
  Holds.frame s.length h (by omega) (fun k hk => by
    rw [peek_set _ _ _ _ hl, if_neg (by omega)])

theorem mantissa_holds (r pre : List Nat) (idx olength output : Nat) (hpre : Holds r 0 pre)
    (hprelen : pre.length = idx)
    (hlead : peek r idx = 48 + output / 10 ^ (olength - 1) % 10)
    (hdig : ∀ d, d + 2 ≤ olength → peek r (idx + olength - d) = 48 + output / 10 ^ d % 10)
    (hl : idx + olength < r.length) :
    Holds (if olength > 1 then r.set (idx + 1) '.'.toNat else r) 0
      (pre ++ mantissaBytes output olength) := by
  by_cases h1 : olength > 1
  · rw [if_pos h1]
    apply Holds.append
    · exact Holds.frame_set _ _ hpre (by omega) (by omega)
    · intro t ht
      rw [mantissaBytes_length _ _, if_pos h1] at ht
      rw [peek_set _ _ _ _ (by omega)]
      simp only [zero_add, hprelen]
      unfold mantissaBytes
      rw [if_pos h1]
      rcases t with _ | _ | t
      · rw [if_neg (by omega)]
        simpa using hlead
      · simp
      · rw [if_neg (by omega)]
        have := hdig (olength - 2 - t) (by omega)
        have e : idx + olength - (olength - 2 - t) = idx + (t + 1 + 1) := by omega
        rw [e] at this
        rw [this]
        have := fracDigits_getD output olength t (by omega)
        simpa using this.symm
  · rw [if_neg h1]
    apply Holds.append hpre
    intro t ht
    unfold mantissaBytes at ht ⊢
    rw [if_neg h1] at ht ⊢
    have : t = 0 := by simpa using ht
    subst this
    simpa [hprelen] using hlead

set_option maxRecDepth 4000 in
theorem printExponent_eq (r : List Nat) (idx olength : Nat) (exp : Int)
    (hl : idx + olength + 5 < r.length) (hol : 1 ≤ olength) (hol10 : olength ≤ 10)
    (hidx : idx ≤ 1) (he1 : -99 ≤ exp) (he2 : exp ≤ 99) :
    printExponent r (idx : Int) olength exp = .ok (afterExponent r idx olength exp) := by
  have h48 : '0'.toNat = 48 := by decide
  by_cases h1 : olength > 1
  · by_cases h2 : exp < 0
    · by_cases h3 : -exp ≥ 10
      · have h3' : exp.natAbs ≥ 10 := by omega
        unfold printExponent afterExponent putExpDigits putExpSign putPoint
        simp only [h1, h2, h3', if_true, if_false, bind, Except.bind, pure, Except.pure]
        rw [poke_eq r _ (idx + 1) _ (by omega) (by omega)]
        simp only []
        rw [i32_u32 _ (by omega) (by omega)]
        rw [poke_eq _ _ (idx + (olength + 1)) _ (by omega) (by first | omega | (simp; omega))]
        simp only []
        rw [poke_eq _ _ (idx + (olength + 1) + 1) _ (by omega) (by first | omega | (simp; omega))]
        simp only []
        rw [if_pos h3]
        rw [memcpy2_eq _ _ (idx + (olength + 1) + 2) exp.natAbs _ (by omega) (by first | omega | (simp; omega))
          (by omega) (by omega)]
        simp only []
        rw [poke_eq _ _ (idx + (olength + 1) + 2 + 2) _ (by omega) (by first | omega | (simp; omega))]
      · have h3' : ¬ exp.natAbs ≥ 10 := by omega
        unfold printExponent afterExponent putExpDigits putExpSign putPoint
        simp only [h1, h2, h3', if_true, if_false, bind, Except.bind, pure, Except.pure]
        rw [poke_eq r _ (idx + 1) _ (by omega) (by omega)]
        simp only []
        rw [i32_u32 _ (by omega) (by omega)]
        rw [poke_eq _ _ (idx + (olength + 1)) _ (by omega) (by first | omega | (simp; omega))]
        simp only []
        rw [poke_eq _ _ (idx + (olength + 1) + 1) _ (by omega) (by first | omega | (simp; omega))]
        simp only []
        rw [if_neg h3]
        have hc : u32 (('0'.toNat : Int) + -exp) % 256 = 48 + exp.natAbs := by
          rw [h48]; unfold u32; omega
        rw [hc, poke_eq _ _ (idx + (olength + 1) + 2) _ (by omega) (by first | omega | (simp; omega))]
        simp only []
        rw [poke_eq _ _ (idx + (olength + 1) + 2 + 1) _ (by omega) (by first | omega | (simp; omega))]
    · by_cases h3 : exp ≥ 10
      · have h3' : exp.natAbs ≥ 10 := by omega
        unfold printExponent afterExponent putExpDigits putExpSign putPoint
        simp only [h1, h2, h3', if_true, if_false, bind, Except.bind, pure, Except.pure]
        rw [poke_eq r _ (idx + 1) _ (by omega) (by omega)]
        simp only []
        rw [i32_u32 _ (by omega) (by omega)]
        rw [poke_eq _ _ (idx + (olength + 1)) _ (by omega) (by first | omega | (simp; omega))]
        simp only []
        rw [if_pos h3]
        rw [memcpy2_eq _ _ (idx + (olength + 1) + 1) exp.natAbs _ (by omega) (by first | omega | (simp; omega))
          (by omega) (by omega)]
        simp only []
        rw [poke_eq _ _ (idx + (olength + 1) + 1 + 2) _ (by omega) (by first | omega | (simp; omega))]
      · have h3' : ¬ exp.natAbs ≥ 10 := by omega
        unfold printExponent afterExponent putExpDigits putExpSign putPoint
        simp only [h1, h2, h3', if_true, if_false, bind, Except.bind, pure, Except.pure]
        rw [poke_eq r _ (idx + 1) _ (by omega) (by omega)]
        simp only []
        rw [i32_u32 _ (by omega) (by omega)]
        rw [poke_eq _ _ (idx + (olength + 1)) _ (by omega) (by first | omega | (simp; omega))]
        simp only []
        rw [if_neg h3]
        have hc : u32 (('0'.toNat : Int) + exp) % 256 = 48 + exp.natAbs := by
          rw [h48]; unfold u32; omega
        rw [hc, poke_eq _ _ (idx + (olength + 1) + 1) _ (by omega) (by first | omega | (simp; omega))]
        simp only []
        rw [poke_eq _ _ (idx + (olength + 1) + 1 + 1) _ (by omega) (by first | omega | (simp; omega))]
  · by_cases h2 : exp < 0
    · by_cases h3 : -exp ≥ 10
      · have h3' : exp.natAbs ≥ 10 := by omega
        unfold printExponent afterExponent putExpDigits putExpSign putPoint
        simp only [h1, h2, h3', if_true, if_false, bind, Except.bind, pure, Except.pure]
        rw [poke_eq _ _ (idx + 1) _ (by omega) (by omega)]
        simp only []
        rw [poke_eq _ _ (idx + 1 + 1) _ (by omega) (by first | omega | (simp; omega))]
        simp only []
        rw [if_pos h3]
        rw [memcpy2_eq _ _ (idx + 1 + 2) exp.natAbs _ (by omega) (by first | omega | (simp; omega))
          (by omega) (by omega)]
        simp only []
        rw [poke_eq _ _ (idx + 1 + 2 + 2) _ (by omega) (by first | omega | (simp; omega))]
      · have h3' : ¬ exp.natAbs ≥ 10 := by omega
        unfold printExponent afterExponent putExpDigits putExpSign putPoint
        simp only [h1, h2, h3', if_true, if_false, bind, Except.bind, pure, Except.pure]
        rw [poke_eq _ _ (idx + 1) _ (by omega) (by omega)]
        simp only []
        rw [poke_eq _ _ (idx + 1 + 1) _ (by omega) (by first | omega | (simp; omega))]
        simp only []
        rw [if_neg h3]
        have hc : u32 (('0'.toNat : Int) + -exp) % 256 = 48 + exp.natAbs := by
          rw [h48]; unfold u32; omega
        rw [hc, poke_eq _ _ (idx + 1 + 2) _ (by omega) (by first | omega | (simp; omega))]
        simp only []
        rw [poke_eq _ _ (idx + 1 + 2 + 1) _ (by omega) (by first | omega | (simp; omega))]
    · by_cases h3 : exp ≥ 10
      · have h3' : exp.natAbs ≥ 10 := by omega
        unfold printExponent afterExponent putExpDigits putExpSign putPoint
        simp only [h1, h2, h3', if_true, if_false, bind, Except.bind, pure, Except.pure]
        rw [poke_eq _ _ (idx + 1) _ (by omega) (by omega)]
        simp only []
        rw [if_pos h3]
        rw [memcpy2_eq _ _ (idx + 1 + 1) exp.natAbs _ (by omega) (by first | omega | (simp; omega))
          (by omega) (by omega)]
        simp only []
        rw [poke_eq _ _ (idx + 1 + 1 + 2) _ (by omega) (by first | omega | (simp; omega))]
      · have h3' : ¬ exp.natAbs ≥ 10 := by omega
        unfold printExponent afterExponent putExpDigits putExpSign putPoint
        simp only [h1, h2, h3', if_true, if_false, bind, Except.bind, pure, Except.pure]
        rw [poke_eq _ _ (idx + 1) _ (by omega) (by omega)]
        simp only []
        rw [if_neg h3]
        have hc : u32 (('0'.toNat : Int) + exp) % 256 = 48 + exp.natAbs := by
          rw [h48]; unfold u32; omega
        rw [hc, poke_eq _ _ (idx + 1 + 1) _ (by omega) (by first | omega | (simp; omega))]
        simp only []
        rw [poke_eq _ _ (idx + 1 + 1 + 1) _ (by omega) (by first | omega | (simp; omega))]

theorem Holds.snoc_at {r : List Nat} {s : List Nat} (p c : Nat) (h : Holds r 0 s)
    (hp : p = s.length) (hl : p < r.length) : Holds (r.set p c) 0 (s ++ [c]) := by
  subst hp
  exact Holds.snoc c h hl

theorem putExpSign_holds (r s : List Nat) (n : Nat) (exp : Int) (h : Holds r 0 s)
    (hn : n = s.length) (hl : n < r.length) :
    Holds (putExpSign r n exp).1 0 (s ++ (if exp < 0 then ['-'.toNat] else [])) ∧
      (putExpSign r n exp).2 = (s ++ (if exp < 0 then ['-'.toNat] else [])).length ∧
      (putExpSign r n exp).1.length = r.length ∧ (putExpSign r n exp).2 ≤ n + 1 := by
  unfold putExpSign
  split
  · exact ⟨Holds.snoc_at n _ h hn hl, by simp [hn], by simp, by simp⟩
  · exact ⟨by simpa using h, by simp [hn], rfl, by simp⟩

theorem putExpDigits_holds (r s : List Nat) (n e : Nat) (h : Holds r 0 s)
    (hn : n = s.length) (hl : n + 1 < r.length) :
    Holds (putExpDigits r n e).1 0
        (s ++ (if e ≥ 10 then [48 + e / 10, 48 + e % 10] else [48 + e])) ∧
      (putExpDigits r n e).2
        = (s ++ (if e ≥ 10 then [48 + e / 10, 48 + e % 10] else [48 + e])).length ∧
      (putExpDigits r n e).1.length = r.length ∧ (putExpDigits r n e).2 ≤ n + 2 := by
  unfold putExpDigits
  split
  · refine ⟨?_, by simp [hn], by simp, by simp⟩
    have h1 := Holds.snoc_at n (48 + e / 10) h hn (by omega)
    have h2 := Holds.snoc_at (n + 1) (48 + e % 10) h1 (by simp [hn]) (by simp; omega)
    simpa using h2
  · exact ⟨Holds.snoc_at n _ h hn (by omega), by simp [hn], by simp, by simp⟩

/-- Lines 283-313 append the point, `E`, the exponent and the NUL to a buffer whose mantissa
digits are in place. -/
theorem printExponent_spec (r pre : List Nat) (idx olength output : Nat) (exp : Int)
    (hpre : Holds r 0 pre) (hprelen : pre.length = idx)
    (hlead : peek r idx = 48 + output / 10 ^ (olength - 1) % 10)
    (hdig : ∀ d, d + 2 ≤ olength → peek r (idx + olength - d) = 48 + output / 10 ^ d % 10)
    (hl : idx + olength + 5 < r.length) (hol : 1 ≤ olength) (hol10 : olength ≤ 10)
    (hidx : idx ≤ 1) (he1 : -99 ≤ exp) (he2 : exp ≤ 99) :
    ∃ r1, printExponent r (idx : Int) olength exp = .ok r1 ∧ r1.length = r.length ∧
      Holds r1 0 (pre ++ mantissaBytes output olength ++ 'E'.toNat :: exponentBytes exp) ∧
      peek r1 (pre ++ mantissaBytes output olength ++ 'E'.toNat :: exponentBytes exp).length
        = 0 ∧
      (pre ++ mantissaBytes output olength ++ 'E'.toNat :: exponentBytes exp).length
        ≤ idx + olength + 5 := by
  refine ⟨_, printExponent_eq r idx olength exp hl hol hol10 hidx he1 he2, ?_⟩
  have hm := mantissa_holds r pre idx olength output hpre hprelen hlead hdig (by omega)
  have hmlen := mantissaBytes_length output olength
  have hn0 : idx + (if olength > 1 then olength + 1 else 1)
      = (pre ++ mantissaBytes output olength).length := by
    rw [List.length_append, hprelen, hmlen]
  have hn0le : idx + (if olength > 1 then olength + 1 else 1) ≤ idx + olength + 1 := by
    split <;> omega
  have hAlen : (putPoint r idx olength).length = r.length := by
    unfold putPoint; split <;> simp
  have hB := Holds.snoc_at (idx + (if olength > 1 then olength + 1 else 1)) 'E'.toNat
    (show Holds (putPoint r idx olength) 0 _ from hm) hn0 (by rw [hAlen]; omega)
  have hBlen : ((putPoint r idx olength).set
      (idx + (if olength > 1 then olength + 1 else 1)) 'E'.toNat).length = r.length := by
    simp [hAlen]
  obtain ⟨hC, hCn, hClen, hCle⟩ := putExpSign_holds _ _
    (idx + (if olength > 1 then olength + 1 else 1) + 1) exp hB
    (by rw [List.length_append, ← hn0]; rfl) (by rw [hBlen]; omega)
  obtain ⟨hD, hDn, hDlen, hDle⟩ := putExpDigits_holds _ _ _ exp.natAbs hC hCn
    (by rw [hClen, hBlen]; omega)
  have hlist : pre ++ mantissaBytes output olength ++ 'E'.toNat :: exponentBytes exp
      = pre ++ mantissaBytes output olength ++ ['E'.toNat] ++
          (if exp < 0 then ['-'.toNat] else []) ++
          (if exp.natAbs ≥ 10 then [48 + exp.natAbs / 10, 48 + exp.natAbs % 10]
           else [48 + exp.natAbs]) := by
    unfold exponentBytes
    simp
  rw [hlist]
  unfold afterExponent
  simp only []
  refine ⟨by rw [List.length_set, hDlen, hClen, hBlen], ?_, ?_, ?_⟩
  · exact Holds.frame_set _ _ hD (by rw [hDn]) (by rw [hDlen, hClen, hBlen]; omega)
  · rw [← hDn, peek_set _ _ _ _ (by rw [hDlen, hClen, hBlen]; omega)]
    simp
  · rw [← hDn]; omega

theorem render_ne_zero (sign : Bool) (d : Decimal) : ∀ c ∈ render sign d, c ≠ 0 := by
  have h1 : '-'.toNat = 45 := by decide
  have h2 : '.'.toNat = 46 := by decide
  have h3 : 'E'.toNat = 69 := by decide
  intro c hc
  unfold render mantissaBytes exponentBytes fracDigits at hc
  rw [h1, h2, h3] at hc
  simp only [List.mem_append, List.mem_cons, List.mem_map, List.mem_range] at hc
  rcases hc with (hc | hc | hc) | hc | hc | hc
  · split at hc
    · simp at hc; omega
    · simp at hc
  · omega
  · split at hc
    · simp only [List.mem_cons, List.mem_map, List.mem_range] at hc
      rcases hc with hc | ⟨t, -, ht⟩ <;> omega
    · simp at hc
  · omega
  · split at hc
    · simp at hc; omega
    · simp at hc
  · split at hc
    · simp at hc; omega
    · simp at hc; omega

set_option maxRecDepth 4000 in
/-- Lines 242-314: for a decimal whose `output` has exactly `olength <= 9` digits and whose
exponent has at most two digits, the printer stores the rendered string and its NUL within the
first 16 bytes of the buffer. -/
theorem print_spec (fuel : Nat) (hfuel : 4 ≤ fuel) (buf : List Nat) (hlen : 16 ≤ buf.length)
    (sign : Bool) (d : Decimal) (hol : 1 ≤ d.olength) (hol9 : d.olength ≤ 9)
    (hlo : 10 ^ (d.olength - 1) ≤ d.output) (hhi : d.output < 10 ^ d.olength)
    (he1 : -99 ≤ d.exp) (he2 : d.exp ≤ 99) :
    ∃ r, print fuel buf sign d = .ok r ∧ r.length = buf.length ∧
      cbytes r = render sign d ∧ (render sign d).length ≤ 15 := by
  obtain ⟨output, olength, exp⟩ := d
  simp only at hol hol9 hlo hhi he1 he2
  cases sign
  · obtain ⟨r1, hrun1, hl1, hfr1, hlead1, hdig1⟩ := printDigits_spec fuel hfuel buf 0 olength
      output (by omega) hol (by omega) hlo hhi
    obtain ⟨r2, hrun2, hl2, hh2, hz2, hle2⟩ := printExponent_spec r1 [] 0 olength output exp
      (Holds.nil _ _) rfl hlead1 hdig1 (by omega) hol (by omega) (by omega) he1 he2
    refine ⟨r2, ?_, by omega, ?_, ?_⟩
    · unfold print
      simp only [Bool.false_eq_true, if_false, bind, Except.bind, pure, Except.pure]
      have : printDigits fuel buf 0 olength output = .ok r1 := by simpa using hrun1
      rw [this]
      simp only []
      simpa using hrun2
    · apply cbytes_of_holds
      · simpa [render] using hh2
      · simpa [render] using hz2
      · exact render_ne_zero _ _
      · have : (render false { output := output, olength := olength, exp := exp }).length
            ≤ 0 + olength + 5 := by simpa [render] using hle2
        omega
    · have : (render false { output := output, olength := olength, exp := exp }).length
          ≤ 0 + olength + 5 := by simpa [render] using hle2
      omega
  · have hp0 : poke buf 0 '-'.toNat = .ok (buf.set 0 '-'.toNat) :=
      poke_eq buf 0 0 _ rfl (by omega)
    obtain ⟨r1, hrun1, hl1, hfr1, hlead1, hdig1⟩ := printDigits_spec fuel hfuel
      (buf.set 0 '-'.toNat) 1 olength output (by simp; omega) hol (by omega) hlo hhi
    have hpre : Holds r1 0 ['-'.toNat] := by
      apply Holds.single
      rw [hfr1 0 (by omega), peek_set _ _ _ _ (by omega)]
      simp
    obtain ⟨r2, hrun2, hl2, hh2, hz2, hle2⟩ := printExponent_spec r1 ['-'.toNat] 1 olength
      output exp hpre rfl hlead1 hdig1 (by rw [hl1]; simp; omega) hol (by omega) (by omega)
      he1 he2
    refine ⟨r2, ?_, by rw [hl2, hl1]; simp, ?_, ?_⟩
    · unfold print
      simp only [if_true, bind, Except.bind, pure, Except.pure, hp0]
      have : printDigits fuel (buf.set 0 '-'.toNat) 1 olength output = .ok r1 := by
        simpa using hrun1
      rw [this]
      simp only []
      simpa using hrun2
    · apply cbytes_of_holds
      · simpa [render] using hh2
      · simpa [render] using hz2
      · exact render_ne_zero _ _
      · have : (render true { output := output, olength := olength, exp := exp }).length
            ≤ 1 + olength + 5 := by simpa [render] using hle2
        rw [hl2, hl1]; simp; omega
    · have : (render true { output := output, olength := olength, exp := exp }).length
          ≤ 1 + olength + 5 := by simpa [render] using hle2
      omega

/-! ## The whole conversion on finite non-zero inputs -/

theorem decimalOf_shape (f : Fields) (hf : f.FiniteNonzero) (r : Nat)
    (hr : r < decimalLength (vpOf f))
    (hdl : decimalLength (vpOf f / 10 ^ r) = decimalLength (vpOf f) - r) :
    1 ≤ (decimalOf f r).olength ∧ (decimalOf f r).olength ≤ 9 ∧
      10 ^ ((decimalOf f r).olength - 1) ≤ (decimalOf f r).output ∧
      (decimalOf f r).output < 10 ^ (decimalOf f r).olength ∧
      -46 ≤ (decimalOf f r).exp ∧ (decimalOf f r).exp ≤ 38 := by
  obtain ⟨hvm0, hvmvp, hvplt⟩ := vm_lt_vp f hf
  obtain ⟨he1, he2⟩ := e10_range f.ieeeExponent hf.1
  rw [← e2_eq_e2Of] at he1 he2
  have hdl9 : decimalLength (vpOf f) ≤ 9 := by
    unfold decimalLength
    split_ifs <;> omega
  have hdl1 := (decimalLength_range (vpOf f)).1
  have hpos : 1 ≤ vpOf f / 10 ^ r := by
    by_contra h
    have h0 : vpOf f / 10 ^ r = 0 := Nat.lt_one_iff.mp (not_le.mp h)
    have hr1 := decimalLength_range (vpOf f / 10 ^ r)
    rw [h0] at hdl
    have : decimalLength 0 = 1 := by decide
    have hr0 : decimalLength (vpOf f) - r = 1 := by omega
    have hlt := decimalLength_le (vpOf f) (by omega)
    have hp : 0 < 10 ^ r := Nat.pow_pos (by norm_num)
    have hle : 10 ^ r ≤ vpOf f := by
      have : r = decimalLength (vpOf f) - 1 := by omega
      rw [this]; exact hlt
    have : 1 ≤ vpOf f / 10 ^ r := by
      rw [Nat.le_div_iff_mul_le hp, one_mul]; exact hle
    exact h this
  have hlt10 : vpOf f / 10 ^ r < 10 ^ 10 :=
    lt_of_le_of_lt (Nat.div_le_self _ _) (by norm_num; omega)
  have h1 := decimalLength_le (vpOf f / 10 ^ r) hpos
  have h2 := decimalLength_lt (vpOf f / 10 ^ r) hlt10
  rw [hdl] at h1 h2
  unfold decimalOf
  simp only
  refine ⟨by omega, by omega, h1, h2, by omega, by omega⟩

/-- On a finite non-zero input `f2s_buffered` succeeds with at least 14 units of fuel and a
buffer of at least 16 bytes, and the string it leaves is the rendering of the decimal found by
the digit search. -/
theorem f2s_buffered_finite (fuel : Nat) (hfuel : 14 ≤ fuel) (bits : Nat) (buf : List Nat)
    (hlen : 16 ≤ buf.length) (hf : (decode bits).FiniteNonzero) :
    ∃ r res, shortest fuel (decode bits) = .ok (decimalOf (decode bits) r) ∧
      f2s_buffered fuel bits buf = .ok res ∧ res.length = buf.length ∧
      cbytes res = render (decode bits).sign (decimalOf (decode bits) r) ∧
      (render (decode bits).sign (decimalOf (decode bits) r)).length ≤ 15 := by
  obtain ⟨r, hsh, -, hr, hdl, -, -, -⟩ := shortest_spec fuel hfuel (decode bits) hf
  obtain ⟨h1, h2, h3, h4, h5, h6⟩ := decimalOf_shape (decode bits) hf r hr hdl
  obtain ⟨res, hp, hl, hc, hle⟩ := print_spec fuel (by omega) buf hlen (decode bits).sign
    (decimalOf (decode bits) r) h1 h2 h3 h4 (by omega) (by omega)
  refine ⟨r, res, hsh, ?_, hl, hc, hle⟩
  obtain ⟨hx, hm, hnz⟩ := hf
  unfold f2s_buffered
  simp only [FLOAT_EXPONENT_BITS]
  rw [if_neg (by omega), if_neg hnz]
  simp only [bind, Except.bind]
  have hsh' : shortest fuel (decode bits) = .ok (decimalOf (decode bits) r) := hsh
  rw [hsh']
  exact hp

/-! ## Independence of the fuel -/

theorem digitLoop1_mono : ∀ (n : Nat) (s x : Search), digitLoop1 n s = .ok x →
    digitLoop1 (n + 1) s = .ok x
  | 0, s, x, h => by simp [digitLoop1] at h
  | n + 1, s, x, h => by
    unfold digitLoop1 at h ⊢
    split
    · rename_i hc
      rw [if_pos hc] at h
      exact digitLoop1_mono n _ x h
    · rename_i hc
      rw [if_neg hc] at h
      exact h

theorem digitLoop2_mono : ∀ (n : Nat) (s x : Search), digitLoop2 n s = .ok x →
    digitLoop2 (n + 1) s = .ok x
  | 0, s, x, h => by simp [digitLoop2] at h
  | n + 1, s, x, h => by
    unfold digitLoop2 at h ⊢
    split
    · rename_i hc
      rw [if_pos hc] at h
      exact digitLoop2_mono n _ x h
    · rename_i hc
      rw [if_neg hc] at h
      exact h

theorem digitLoop1_mono_le (n m : Nat) (h : n ≤ m) (s x : Search)
    (hs : digitLoop1 n s = .ok x) : digitLoop1 m s = .ok x := by
  induction m, h using Nat.le_induction with
  | base => exact hs
  | succ k _ ih => exact digitLoop1_mono k s x ih

theorem digitLoop2_mono_le (n m : Nat) (h : n ≤ m) (s x : Search)
    (hs : digitLoop2 n s = .ok x) : digitLoop2 m s = .ok x := by
  induction m, h using Nat.le_induction with
  | base => exact hs
  | succ k _ ih => exact digitLoop2_mono k s x ih

theorem search_mono_le (n m : Nat) (h : n ≤ m) (sc : Scaled) (acc : Bool) (x : Search)
    (hs : search n sc acc = .ok x) : search m sc acc = .ok x := by
  unfold search at hs ⊢
  simp only [bind, Except.bind] at hs ⊢
  cases h1 : digitLoop1 n
      { vp := sc.vp, vm := sc.vm, vmIsTrailingZeros := sc.vmIsTrailingZeros, removed := 0 } with
  | error e => rw [h1] at hs; simp at hs
  | ok s1 =>
    rw [h1] at hs
    rw [digitLoop1_mono_le n m h _ _ h1]
    simp only at hs ⊢
    split
    · rename_i hc
      rw [if_pos hc] at hs
      exact digitLoop2_mono_le n m h _ _ hs
    · rename_i hc
      rw [if_neg hc] at hs
      exact hs

/-- With at least 14 units of fuel the result of the digit search no longer depends on it. -/
theorem shortest_fuel (fuel : Nat) (hfuel : 14 ≤ fuel) (f : Fields) (hf : f.FiniteNonzero) :
    shortest fuel f = shortest 14 f := by
  obtain ⟨r, h14, hs14, -⟩ := shortest_spec 14 (le_refl _) f hf
  have hsc : scale fuel f.e2 f.mp f.mm f.acceptBounds = .ok
      { vp := vpOf f, vm := vmOf f, e10 := e10Of f.e2, vmIsTrailingZeros := tzOf f } :=
    scale_spec fuel hfuel f hf
  have hsc14 : scale 14 f.e2 f.mp f.mm f.acceptBounds = .ok
      { vp := vpOf f, vm := vmOf f, e10 := e10Of f.e2, vmIsTrailingZeros := tzOf f } :=
    scale_spec 14 (le_refl _) f hf
  have hs := search_mono_le 14 fuel hfuel _ _ _ hs14
  simp only [shortest, hsc, hsc14, bind, Except.bind, hs, hs14]

/-! ## `strcpy` -/

theorem strcpy_spec : ∀ (s buf : List Nat) (pos : Nat), pos + s.length < buf.length →
    ∃ r, strcpy buf (pos : Int) s = .ok r ∧ r.length = buf.length ∧
      (∀ k, k < pos → peek r k = peek buf k) ∧ Holds r pos s ∧ peek r (pos + s.length) = 0
  | [], buf, pos, h => by
    refine ⟨buf.set pos 0, ?_, by simp, ?_, Holds.nil _ _, ?_⟩
    · unfold strcpy
      exact poke_eq buf _ pos 0 rfl (by simpa using h)
    · intro k hk
      rw [peek_set _ _ _ _ (by simpa using h), if_neg (by omega)]
    · rw [peek_set _ _ _ _ (by simpa using h)]; simp
  | c :: cs, buf, pos, h => by
    simp only [List.length_cons] at h
    obtain ⟨r, hr, hl, hfr, hh, hz⟩ := strcpy_spec cs (buf.set pos c) (pos + 1)
      (by simp; omega)
    refine ⟨r, ?_, by simpa using hl, ?_, ?_, ?_⟩
    · unfold strcpy
      simp only [bind, Except.bind]
      rw [poke_eq buf _ pos c rfl (by omega)]
      simpa using hr
    · intro k hk
      rw [hfr k (by omega), peek_set _ _ _ _ (by omega), if_neg (by omega)]
    · intro t ht
      rcases t with _ | t
      · rw [Nat.add_zero, hfr pos (by omega), peek_set _ _ _ _ (by omega)]
        simp
      · have := hh t (by simpa using ht)
        have e : pos + 1 + t = pos + (t + 1) := by omega
        rw [e] at this
        rw [this]; simp
    · have e : pos + (cs.length + 1) = pos + 1 + cs.length := by omega
      simp only [List.length_cons]
      rw [e]; exact hz

/-- A literal without NUL bytes copied to the start of a large enough buffer is the C string
found there afterwards. -/
theorem strcpy_cbytes (s buf : List Nat) (hl : s.length < buf.length) (hnz : ∀ c ∈ s, c ≠ 0) :
    ∃ r, strcpy buf 0 s = .ok r ∧ r.length = buf.length ∧ cbytes r = s := by
  obtain ⟨r, hr, hlen, -, hh, hz⟩ := strcpy_spec s buf 0 (by omega)
  refine ⟨r, by simpa using hr, hlen, ?_⟩
  exact cbytes_of_holds s r hh (by simpa using hz) hnz (by omega)

/-! ## Reading the printed string back -/

theorem digitsMSB_length (v n : Nat) : (digitsMSB v n).length = n := by
  induction n with
  | zero => rfl
  | succ n ih => simp [digitsMSB, ih]

theorem digitsMSB_getD (v : Nat) : ∀ (n t : Nat), t < n →
    (digitsMSB v n).getD t 0 = 48 + v / 10 ^ (n - 1 - t) % 10
  | 0, t, h => by omega
  | n + 1, 0, _ => by simp [digitsMSB]
  | n + 1, t + 1, h => by
    have := digitsMSB_getD v n t (by omega)
    simp only [digitsMSB, List.getD_cons_succ]
    rw [this]
    have e : n + 1 - 1 - (t + 1) = n - 1 - t := by omega
    rw [e]

theorem fracDigits_eq (output olength : Nat) :
    fracDigits output olength = digitsMSB output (olength - 1) := by
  apply List.ext_getElem?
  intro t
  by_cases ht : t < olength - 1
  · have h1 := fracDigits_getD output olength t ht
    have h2 := digitsMSB_getD output (olength - 1) t ht
    have l1 : t < (fracDigits output olength).length := by rw [fracDigits_length]; exact ht
    have l2 : t < (digitsMSB output (olength - 1)).length := by
      rw [digitsMSB_length]; exact ht
    rw [List.getD_eq_getElem _ _ l1] at h1
    rw [List.getD_eq_getElem _ _ l2] at h2
    rw [List.getElem?_eq_getElem l1, List.getElem?_eq_getElem l2, h1, h2]
    have e : olength - 2 - t = olength - 1 - 1 - t := by omega
    rw [e]
  · rw [List.getElem?_eq_none (by rw [fracDigits_length]; omega),
      List.getElem?_eq_none (by rw [digitsMSB_length]; omega)]

theorem readDigitsAux_digitsMSB (v : Nat) : ∀ (n acc : Nat),
    readDigitsAux acc (digitsMSB v n) = some (acc * 10 ^ n + v % 10 ^ n)
  | 0, acc => by simp [digitsMSB, readDigitsAux, Nat.mod_one]
  | n + 1, acc => by
    have h0 : '0'.toNat = 48 := by decide
    have h9 : '9'.toNat = 57 := by decide
    have hd : v / 10 ^ n % 10 < 10 := Nat.mod_lt _ (by norm_num)
    unfold digitsMSB readDigitsAux
    rw [h0, h9, if_pos (by omega), readDigitsAux_digitsMSB v n]
    congr 1
    rw [Nat.mod_pow_succ]
    have : 48 + v / 10 ^ n % 10 - 48 = v / 10 ^ n % 10 := by omega
    rw [this]
    ring

theorem digitsMSB_bounds (v : Nat) : ∀ (n : Nat), ∀ c ∈ digitsMSB v n, 48 ≤ c ∧ c ≤ 57
  | 0, c, h => by simp [digitsMSB] at h
  | n + 1, c, h => by
    simp only [digitsMSB, List.mem_cons] at h
    rcases h with h | h
    · have : v / 10 ^ n % 10 < 10 := Nat.mod_lt _ (by norm_num)
      omega
    · exact digitsMSB_bounds v n c h

theorem mantissaBytes_eq (output olength : Nat) :
    mantissaBytes output olength =
      (48 + output / 10 ^ (olength - 1) % 10) ::
        (if olength > 1 then '.'.toNat :: digitsMSB output (olength - 1) else []) := by
  unfold mantissaBytes
  rw [fracDigits_eq]

theorem split_at_mark (m : Nat) (l rest : List Nat) (h : ∀ c ∈ l, c ≠ m) :
    (l ++ m :: rest).takeWhile (fun c => c ≠ m) = l ∧
      (l ++ m :: rest).dropWhile (fun c => c ≠ m) = m :: rest := by
  constructor
  · rw [List.takeWhile_append_of_pos (by simpa using h)]
    simp
  · rw [List.dropWhile_append_of_pos (by simpa using h)]
    simp

theorem split_no_mark (m : Nat) (l : List Nat) (h : ∀ c ∈ l, c ≠ m) :
    l.takeWhile (fun c => c ≠ m) = l ∧ l.dropWhile (fun c => c ≠ m) = [] := by
  have := split_at_mark m l [] h
  constructor
  · rw [List.takeWhile_eq_self_iff]; simpa using h
  · rw [List.dropWhile_eq_nil_iff]; simpa using h

theorem readDigits_exponent (a : Nat) (ha : a ≤ 99) :
    readDigits (if a ≥ 10 then [48 + a / 10, 48 + a % 10] else [48 + a]) = some a := by
  have h0 : '0'.toNat = 48 := by decide
  have h9 : '9'.toNat = 57 := by decide
  split
  · simp only [readDigits, readDigitsAux, h0, h9]
    rw [if_pos (by omega), if_pos (by omega)]
    congr 1
    omega
  · simp only [readDigits, readDigitsAux, h0, h9]
    rw [if_pos (by omega)]
    congr 1
    omega

theorem readDigits_digitsMSB (v n : Nat) (hn : 1 ≤ n) (hv : v < 10 ^ n) :
    readDigits (digitsMSB v n) = some v := by
  obtain ⟨k, rfl⟩ : ∃ k, n = k + 1 := ⟨n - 1, by omega⟩
  have := readDigitsAux_digitsMSB v (k + 1) 0
  rw [Nat.mod_eq_of_lt hv] at this
  simp only [digitsMSB] at this ⊢
  simpa [readDigits] using this

/-- The value read back from a rendered decimal is `output * 10^(exp - (olength - 1))`, with
the sign that was rendered. -/
theorem readSci_render (sign : Bool) (d : Decimal) (hol : 1 ≤ d.olength)
    (hhi : d.output < 10 ^ d.olength) (he1 : -99 ≤ d.exp) (he2 : d.exp ≤ 99) :
    readSci (render sign d)
      = some (sign, (d.output : ℚ) * (10 : ℚ) ^ (d.exp - ((d.olength : Int) - 1))) := by
  obtain ⟨output, olength, exp⟩ := d
  simp only at hol hhi he1 he2 ⊢
  have h1 : '-'.toNat = 45 := by decide
  have h2 : '.'.toNat = 46 := by decide
  have h3 : 'E'.toNat = 69 := by decide
  have hlead : output / 10 ^ (olength - 1) % 10 < 10 := Nat.mod_lt _ (by norm_num)
  have hF := digitsMSB_bounds output (olength - 1)
  -- the mantissa and its two parts
  have hM := mantissaBytes_eq output olength
  have hMne : ∀ c ∈ mantissaBytes output olength, c ≠ 69 := by
    intro c hc
    rw [hM, h2] at hc
    simp only [List.mem_cons] at hc
    rcases hc with hc | hc
    · omega
    · split at hc
      · simp only [List.mem_cons] at hc
        rcases hc with hc | hc
        · omega
        · have := hF c hc; omega
      · simp at hc
  have hMhead : (mantissaBytes output olength).head? ≠ some 45 := by
    rw [hM]; simp; omega
  have hparts : (mantissaBytes output olength).takeWhile (fun c => c ≠ 46)
        ++ ((mantissaBytes output olength).dropWhile (fun c => c ≠ 46)).tail
        = digitsMSB output olength ∧
      (((mantissaBytes output olength).dropWhile (fun c => c ≠ 46)).tail).length
        = olength - 1 := by
    rw [hM, h2]
    by_cases hgt : olength > 1
    · rw [if_pos hgt]
      have hsp := split_at_mark 46 [48 + output / 10 ^ (olength - 1) % 10]
        (digitsMSB output (olength - 1)) (by simp; omega)
      simp only [List.singleton_append] at hsp
      rw [hsp.1, hsp.2]
      obtain ⟨k, rfl⟩ : ∃ k, olength = k + 1 := ⟨olength - 1, by omega⟩
      simp [digitsMSB, digitsMSB_length]
    · rw [if_neg hgt]
      have hsp := split_no_mark 46 [48 + output / 10 ^ (olength - 1) % 10] (by simp; omega)
      rw [hsp.1, hsp.2]
      have : olength = 1 := by omega
      subst this
      simp [digitsMSB]
  -- the exponent
  have hX : (exponentBytes exp).head? = some 45 ↔ exp < 0 := by
    unfold exponentBytes
    rw [h1]
    by_cases hneg : exp < 0
    · simp [hneg]
    · simp only [hneg, if_false, List.nil_append, iff_false]
      split <;> simp <;> omega
  have hXd : (if exp < 0 then (exponentBytes exp).tail else exponentBytes exp)
      = (if exp.natAbs ≥ 10 then [48 + exp.natAbs / 10, 48 + exp.natAbs % 10]
          else [48 + exp.natAbs]) := by
    unfold exponentBytes
    by_cases hneg : exp < 0
    · simp [hneg]
    · simp [hneg]
  have hs1 : (if decide ((render sign ⟨output, olength, exp⟩).head? = some 45) = true
        then (render sign ⟨output, olength, exp⟩).tail else render sign ⟨output, olength, exp⟩)
        = mantissaBytes output olength ++ 69 :: exponentBytes exp ∧
      decide ((render sign ⟨output, olength, exp⟩).head? = some 45) = sign := by
    unfold render
    rw [h1, h3]
    cases sign
    · have : ((mantissaBytes output olength ++ 69 :: exponentBytes exp).head? = some 45)
          = False := by
        rw [hM]; simp; omega
      simp [this]
      exact ⟨fun h => absurd h hMhead, hMhead⟩
    · simp
  have hsplit := split_at_mark 69 (mantissaBytes output olength) (exponentBytes exp) hMne
  unfold readSci
  simp only [h1, h2, h3]
  rw [hs1.1, hs1.2, hsplit.1, hsplit.2]
  simp only []
  rw [hparts.1, hparts.2, readDigits_digitsMSB output olength hol hhi]
  have hdec : decide ((exponentBytes exp).head? = some 45) = decide (exp < 0) := by
    simp only [hX]
  rw [hdec]
  have hXd' : (if decide (exp < 0) = true then (exponentBytes exp).tail else exponentBytes exp)
      = (if exp.natAbs ≥ 10 then [48 + exp.natAbs / 10, 48 + exp.natAbs % 10]
          else [48 + exp.natAbs]) := by
    simpa using hXd
  rw [hXd', readDigits_exponent exp.natAbs (by omega)]
  simp only []
  congr 3
  by_cases hneg : exp < 0
  · simp only [hneg, decide_True, if_true]
    have : ((olength - 1 : Nat) : Int) = (olength : Int) - 1 := by omega
    rw [this]; congr 1; omega
  · simp only [hneg, decide_False]
    have : ((olength - 1 : Nat) : Int) = (olength : Int) - 1 := by omega
    rw [this]; congr 1
    simp; omega

/-! ## The rounding interval in exact rationals -/

theorem scale_identity (ex : Nat) (hex : ex < 255) :
    (2 : ℚ) ^ (e2Of ex) =
      (scaleNum (e2Of ex) : ℚ) / (scaleDen (e2Of ex) : ℚ) * (10 : ℚ) ^ (e10Of (e2Of ex)) := by
  by_cases h : 0 ≤ e2Of ex
  · obtain ⟨hq0, -⟩ := (q_facts ex hex).1 h
    obtain ⟨n, hn⟩ := Int.eq_ofNat_of_zero_le h
    obtain ⟨k, hk⟩ := Int.eq_ofNat_of_zero_le hq0
    simp only [scaleNum, scaleDen, e10Of, if_pos h]
    rw [hk, hn]
    simp only [Int.toNat_ofNat, zpow_natCast, Nat.cast_pow, Nat.cast_ofNat]
    field_simp
  · have hneg : e2Of ex < 0 := by omega
    obtain ⟨hq0, hi0, -, -, -⟩ := index_ranges_neg ex hex hneg
    obtain ⟨k, hk⟩ := Int.eq_ofNat_of_zero_le hq0
    obtain ⟨j, hj⟩ := Int.eq_ofNat_of_zero_le hi0
    have he : e2Of ex = -((k : Int) + (j : Int)) := by
      unfold iNeg at hj; omega
    simp only [scaleNum, scaleDen, e10Of, if_neg h]
    rw [hj, hk, he]
    simp only [Int.toNat_ofNat, Nat.cast_pow, Nat.cast_ofNat]
    have e1 : (k : Int) + -((k : Int) + (j : Int)) = -(j : Int) := by ring
    rw [e1, zpow_neg, zpow_neg, zpow_natCast, ← Int.natCast_add, zpow_natCast]
    have h10 : (10 : ℚ) ^ j = 2 ^ j * 5 ^ j := by rw [← mul_pow]; norm_num
    rw [h10, pow_add]
    field_simp
    ring

/-- The integers `y` with `y * B <= mp * A` (or `<` when bounds are not accepted) are exactly
those up to `vpOf f`: the upper bound of the search is the largest admissible integer. -/
theorem le_vpOf_iff (f : Fields) (hf : f.FiniteNonzero) (y : Nat) :
    y ≤ vpOf f ↔
      (if f.acceptBounds = true then y * scaleDen f.e2 ≤ f.mp * scaleNum f.e2
       else y * scaleDen f.e2 < f.mp * scaleNum f.e2) := by
  obtain ⟨hB, hAB, -⟩ := scale_bounds f.ieeeExponent hf.1
  rw [← e2_eq_e2Of] at hB hAB
  have hN : 0 < f.mp * scaleNum f.e2 :=
    Nat.mul_pos (by have := mm_lt_mp f hf; omega) (by omega)
  unfold vpOf
  generalize f.mp * scaleNum f.e2 = N at *
  generalize scaleDen f.e2 = B at *
  by_cases hacc : f.acceptBounds = true
  · rw [if_pos hacc, if_neg (by simp [hacc]), Nat.sub_zero, Nat.le_div_iff_mul_le hB]
  · rw [if_neg hacc]
    have hacc' : f.acceptBounds = false := by simpa using hacc
    by_cases hd : B ∣ N
    · rw [if_pos ⟨hacc', hd⟩]
      obtain ⟨c, rfl⟩ := hd
      rw [Nat.mul_div_cancel_left _ hB]
      constructor
      · intro h
        have hc : 0 < c := by
          rcases Nat.eq_zero_or_pos c with h0 | h0
          · subst h0
            simp at hN
          · exact h0
        calc y * B ≤ (c - 1) * B := Nat.mul_le_mul_right _ h
          _ < c * B := Nat.mul_lt_mul_of_pos_right (by omega) hB
          _ = B * c := Nat.mul_comm _ _
      · intro h
        rw [Nat.mul_comm B c] at h
        have := Nat.lt_of_mul_lt_mul_right h
        omega
    · rw [if_neg (by simp [hd]), Nat.sub_zero, Nat.le_div_iff_mul_le hB]
      constructor
      · intro h
        rcases Nat.lt_or_ge (y * B) N with h1 | h1
        · exact h1
        · exact absurd ⟨y, by rw [Nat.mul_comm]; omega⟩ hd
      · intro h; omega

theorem vmOf_facts (f : Fields) (hf : f.FiniteNonzero) :
    vmOf f * scaleDen f.e2 ≤ f.mm * scaleNum f.e2 ∧
      f.mm * scaleNum f.e2 < (vmOf f + 1) * scaleDen f.e2 ∧
      (tzOf f = true → f.acceptBounds = true ∧ vmOf f * scaleDen f.e2 = f.mm * scaleNum f.e2) ∧
      (f.acceptBounds = true → tzOf f = false →
        vmOf f * scaleDen f.e2 < f.mm * scaleNum f.e2) := by
  obtain ⟨hB, -, -⟩ := scale_bounds f.ieeeExponent hf.1
  rw [← e2_eq_e2Of] at hB
  unfold vmOf tzOf
  generalize f.mm * scaleNum f.e2 = N at *
  generalize scaleDen f.e2 = B at *
  have h1 : N / B * B ≤ N := Nat.div_mul_le_self _ _
  have h2 : N < (N / B + 1) * B := by
    have := Nat.lt_mul_div_succ N hB
    calc N < B * (N / B + 1) := this
      _ = (N / B + 1) * B := Nat.mul_comm _ _
  refine ⟨h1, h2, ?_, ?_⟩
  · intro h
    simp only [decide_eq_true_eq] at h
    exact ⟨h.1, Nat.div_mul_cancel h.2⟩
  · intro hacc htz
    simp only [decide_eq_false_iff_not, not_and] at htz
    have hnd := htz hacc
    rcases Nat.lt_or_ge (N / B * B) N with h | h
    · exact h
    · exact absurd ⟨N / B, by rw [Nat.mul_comm]; omega⟩ hnd

/-- The printed integer, scaled back by the removed digits, lies in the scaled interval. -/
theorem roundtrip_nat (f : Fields) (hf : f.FiniteNonzero) (r : Nat)
    (hb : vmOf f < vpOf f / 10 ^ r * 10 ^ r ∨
      (tzOf f = true ∧ f.acceptBounds = true ∧ vpOf f / 10 ^ r * 10 ^ r = vmOf f)) :
    (f.acceptBounds = true →
      f.mm * scaleNum f.e2 ≤ vpOf f / 10 ^ r * 10 ^ r * scaleDen f.e2 ∧
      vpOf f / 10 ^ r * 10 ^ r * scaleDen f.e2 ≤ f.mp * scaleNum f.e2) ∧
    (f.acceptBounds = false →
      f.mm * scaleNum f.e2 < vpOf f / 10 ^ r * 10 ^ r * scaleDen f.e2 ∧
      vpOf f / 10 ^ r * 10 ^ r * scaleDen f.e2 < f.mp * scaleNum f.e2) := by
  obtain ⟨hB, -, -⟩ := scale_bounds f.ieeeExponent hf.1
  rw [← e2_eq_e2Of] at hB
  obtain ⟨hv1, hv2, hv3, hv4⟩ := vmOf_facts f hf
  have hup := (le_vpOf_iff f hf (vpOf f / 10 ^ r * 10 ^ r)).mp (Nat.div_mul_le_self _ _)
  have hlow : f.mm * scaleNum f.e2 < vpOf f / 10 ^ r * 10 ^ r * scaleDen f.e2 ∨
      (f.acceptBounds = true ∧
        f.mm * scaleNum f.e2 = vpOf f / 10 ^ r * 10 ^ r * scaleDen f.e2) := by
    rcases hb with hb | ⟨htz, hacc, heq⟩
    · left
      calc f.mm * scaleNum f.e2 < (vmOf f + 1) * scaleDen f.e2 := hv2
        _ ≤ vpOf f / 10 ^ r * 10 ^ r * scaleDen f.e2 := Nat.mul_le_mul_right _ hb
    · right
      exact ⟨hacc, by rw [heq]; exact (hv3 htz).2.symm⟩
  constructor
  · intro hacc
    rw [if_pos hacc] at hup
    refine ⟨?_, hup⟩
    rcases hlow with h | ⟨-, h⟩
    · exact le_of_lt h
    · exact le_of_eq h
  · intro hacc
    rw [if_neg (by simp [hacc])] at hup
    refine ⟨?_, hup⟩
    rcases hlow with h | ⟨h, -⟩
    · exact h
    · rw [hacc] at h; exact absurd h (by simp)

/-- No multiple of `10^(r+1)` lies in the scaled interval, and the interval starts above
every number with fewer digits than were printed. -/
theorem shortest_nat (f : Fields) (hf : f.FiniteNonzero) (r : Nat)
    (hdl : decimalLength (vpOf f / 10 ^ r) = decimalLength (vpOf f) - r)
    (hr : r < decimalLength (vpOf f))
    (hc : vpOf f / 10 ^ (r + 1) ≤ vmOf f / 10 ^ (r + 1))
    (hd : tzOf f = true → f.acceptBounds = true →
      vmOf f / 10 ^ r % 10 ≠ 0 ∨ vmOf f % 10 ^ r ≠ 0) :
    (∀ c : Nat, c * 10 ^ (r + 1) ≤ vpOf f →
      if f.acceptBounds = true then c * 10 ^ (r + 1) * scaleDen f.e2 < f.mm * scaleNum f.e2
      else c * 10 ^ (r + 1) * scaleDen f.e2 ≤ f.mm * scaleNum f.e2) ∧
    (∀ c : Nat, c < 10 ^ (decimalLength (vpOf f) - r - 1) →
      c * 10 ^ r * scaleDen f.e2 < f.mm * scaleNum f.e2) := by
  obtain ⟨hB, hAB, -⟩ := scale_bounds f.ieeeExponent hf.1
  rw [← e2_eq_e2Of] at hB hAB
  obtain ⟨hv1, hv2, hv3, hv4⟩ := vmOf_facts f hf
  obtain ⟨hvm0, hvmvp, hvplt⟩ := vm_lt_vp f hf
  have hp : 0 < 10 ^ (r + 1) := Nat.pow_pos (by norm_num)
  have hpr : 0 < 10 ^ r := Nat.pow_pos (by norm_num)
  constructor
  · intro c hcv
    have h1 : c ≤ vmOf f / 10 ^ (r + 1) :=
      le_trans ((Nat.le_div_iff_mul_le hp).mpr hcv) hc
    have h2 : c * 10 ^ (r + 1) ≤ vmOf f := (Nat.le_div_iff_mul_le hp).mp h1
    by_cases hacc : f.acceptBounds = true
    · rw [if_pos hacc]
      cases htz : tzOf f
      · calc c * 10 ^ (r + 1) * scaleDen f.e2 ≤ vmOf f * scaleDen f.e2 :=
            Nat.mul_le_mul_right _ h2
          _ < f.mm * scaleNum f.e2 := hv4 hacc htz
      · have hne : c * 10 ^ (r + 1) ≠ vmOf f := by
          intro heq
          rcases hd htz hacc with h | h
          · apply h
            have e : c * 10 ^ (r + 1) = c * 10 * 10 ^ r := by rw [pow_succ]; ring
            rw [← heq, e, Nat.mul_div_cancel _ hpr, Nat.mul_mod_left]
          · apply h
            have e : c * 10 ^ (r + 1) = c * 10 * 10 ^ r := by rw [pow_succ]; ring
            rw [← heq, e]
            exact Nat.mul_mod_left _ _
        have hlt : c * 10 ^ (r + 1) < vmOf f := lt_of_le_of_ne h2 hne
        calc c * 10 ^ (r + 1) * scaleDen f.e2 < vmOf f * scaleDen f.e2 :=
            Nat.mul_lt_mul_of_pos_right hlt hB
          _ ≤ f.mm * scaleNum f.e2 := hv1
    · rw [if_neg hacc]
      calc c * 10 ^ (r + 1) * scaleDen f.e2 ≤ vmOf f * scaleDen f.e2 :=
          Nat.mul_le_mul_right _ h2
        _ ≤ f.mm * scaleNum f.e2 := hv1
  · intro c hc1
    have hvp10 : vpOf f < 10 ^ 10 := by norm_num; omega
    have hmm : 0 < f.mm * scaleNum f.e2 :=
      Nat.mul_pos (by have := mm_lt_mp f hf; omega) (by omega)
    rcases Nat.eq_zero_or_pos c with h0 | h0
    · subst h0; simpa using hmm
    · -- at least two digits were printed
      have hn2 : 2 ≤ decimalLength (vpOf f) - r := by
        by_contra hlt
        have : decimalLength (vpOf f) - r - 1 = 0 := by omega
        rw [this] at hc1
        simp at hc1
        omega
      have hout1 : 1 ≤ vpOf f / 10 ^ r := by
        have := decimalLength_lt (vpOf f) hvp10
        by_contra hz
        have hz0 : vpOf f / 10 ^ r = 0 := Nat.lt_one_iff.mp (not_le.mp hz)
        rw [hz0] at hdl
        have : decimalLength 0 = 1 := by decide
        omega
      have hlo := decimalLength_le (vpOf f / 10 ^ r) hout1
      rw [hdl] at hlo
      -- 10^(n-2) ≤ out / 10 ≤ vm / 10^(r+1)
      have h10 : 10 ^ (decimalLength (vpOf f) - r - 1 - 1) ≤ vpOf f / 10 ^ r / 10 := by
        rw [Nat.le_div_iff_mul_le (by norm_num), ← pow_succ]
        have : decimalLength (vpOf f) - r - 1 - 1 + 1 = decimalLength (vpOf f) - r - 1 := by
          omega
        rw [this]; exact hlo
      rw [div_pow_succ'] at h10
      have h11 := le_trans h10 hc
      rw [Nat.le_div_iff_mul_le hp] at h11
      have h12 : 10 ^ (decimalLength (vpOf f) - r - 1) * 10 ^ r ≤ vmOf f := by
        calc 10 ^ (decimalLength (vpOf f) - r - 1) * 10 ^ r
            = 10 ^ (decimalLength (vpOf f) - r - 1 - 1) * 10 ^ (r + 1) := by
              rw [← pow_add, ← pow_add]; congr 1; omega
          _ ≤ vmOf f := h11
      calc c * 10 ^ r * scaleDen f.e2
          < 10 ^ (decimalLength (vpOf f) - r - 1) * 10 ^ r * scaleDen f.e2 :=
            Nat.mul_lt_mul_of_pos_right (Nat.mul_lt_mul_of_pos_right hc1 hpr) hB
        _ ≤ vmOf f * scaleDen f.e2 := Nat.mul_le_mul_right _ h12
        _ ≤ f.mm * scaleNum f.e2 := hv1

theorem bounds_scaled (f : Fields) (hf : f.FiniteNonzero) (z : ℚ) :
    (lowerBound f ≤ z * (10 : ℚ) ^ (e10Of f.e2) ↔
        ((f.mm * scaleNum f.e2 : Nat) : ℚ) ≤ z * (scaleDen f.e2 : ℚ)) ∧
    (lowerBound f < z * (10 : ℚ) ^ (e10Of f.e2) ↔
        ((f.mm * scaleNum f.e2 : Nat) : ℚ) < z * (scaleDen f.e2 : ℚ)) ∧
    (z * (10 : ℚ) ^ (e10Of f.e2) ≤ upperBound f ↔
        z * (scaleDen f.e2 : ℚ) ≤ ((f.mp * scaleNum f.e2 : Nat) : ℚ)) ∧
    (z * (10 : ℚ) ^ (e10Of f.e2) < upperBound f ↔
        z * (scaleDen f.e2 : ℚ) < ((f.mp * scaleNum f.e2 : Nat) : ℚ)) := by
  obtain ⟨hB, -, -⟩ := scale_bounds f.ieeeExponent hf.1
  have hid := scale_identity f.ieeeExponent hf.1
  rw [← e2_eq_e2Of] at hB hid
  have hBq : (0 : ℚ) < (scaleDen f.e2 : ℚ) := by exact_mod_cast hB
  have hT : (0 : ℚ) < (10 : ℚ) ^ (e10Of f.e2) := zpow_pos (by norm_num) _
  unfold lowerBound upperBound
  rw [hid]
  generalize (10 : ℚ) ^ (e10Of f.e2) = T at *
  generalize (scaleDen f.e2 : ℚ) = B at *
  push_cast
  generalize (scaleNum f.e2 : ℚ) = A at *
  generalize (f.mm : ℚ) = m at *
  generalize (f.mp : ℚ) = p at *
  have e1 : m * (A / B * T) = (m * A / B) * T := by ring
  have e2 : p * (A / B * T) = (p * A / B) * T := by ring
  rw [e1, e2]
  refine ⟨?_, ?_, ?_, ?_⟩
  · rw [mul_le_mul_right hT, div_le_iff₀ hBq]
  · rw [mul_lt_mul_right hT, div_lt_iff₀ hBq]
  · rw [mul_le_mul_right hT, le_div_iff₀ hBq]
  · rw [mul_lt_mul_right hT, lt_div_iff₀ hBq]

theorem decimalOf_value (f : Fields) (r : Nat) (hr : r < decimalLength (vpOf f)) :
    (decimalOf f r).value
      = ((vpOf f / 10 ^ r * 10 ^ r : Nat) : ℚ) * (10 : ℚ) ^ (e10Of f.e2) := by
  unfold Decimal.value decimalOf
  simp only
  have e : e10Of f.e2 + (decimalLength (vpOf f) : Int) - 1
      - (((decimalLength (vpOf f) - r : Nat) : Int) - 1) = (r : Int) + e10Of f.e2 := by
    omega
  rw [e, zpow_add₀ (by norm_num), zpow_natCast]
  push_cast
  ring

/-- Round trip, in exact rationals: the printed decimal lies in the rounding interval. -/
theorem value_inInterval (f : Fields) (hf : f.FiniteNonzero) (r : Nat)
    (hr : r < decimalLength (vpOf f))
    (hb : vmOf f < vpOf f / 10 ^ r * 10 ^ r ∨
      (tzOf f = true ∧ f.acceptBounds = true ∧ vpOf f / 10 ^ r * 10 ^ r = vmOf f)) :
    InInterval f (decimalOf f r).value := by
  obtain ⟨h1, h2⟩ := roundtrip_nat f hf r hb
  obtain ⟨b1, b2, b3, b4⟩ := bounds_scaled f hf ((vpOf f / 10 ^ r * 10 ^ r : Nat) : ℚ)
  rw [decimalOf_value f r hr]
  unfold InInterval
  have hacc := acceptBounds_eq f
  by_cases hev : f.m2 % 2 = 0
  · rw [if_pos hev]
    obtain ⟨g1, g2⟩ := h1 (by rw [hacc]; simpa using hev)
    rw [b1, b3]
    constructor
    · exact_mod_cast g1
    · exact_mod_cast g2
  · rw [if_neg hev]
    obtain ⟨g1, g2⟩ := h2 (by rw [hacc]; simpa using hev)
    rw [b2, b4]
    constructor
    · exact_mod_cast g1
    · exact_mod_cast g2

/-- Shortest output, in exact rationals: no decimal `c * 10^t` whose significand has fewer
digits than were printed lies in the rounding interval. -/
theorem fewer_digits_outside (f : Fields) (hf : f.FiniteNonzero) (r : Nat)
    (hdl : decimalLength (vpOf f / 10 ^ r) = decimalLength (vpOf f) - r)
    (hr : r < decimalLength (vpOf f))
    (hc : vpOf f / 10 ^ (r + 1) ≤ vmOf f / 10 ^ (r + 1))
    (hd : tzOf f = true → f.acceptBounds = true →
      vmOf f / 10 ^ r % 10 ≠ 0 ∨ vmOf f % 10 ^ r ≠ 0)
    (c : Nat) (t : Int) (hlt : c < 10 ^ ((decimalOf f r).olength - 1)) :
    ¬ InInterval f ((c : ℚ) * (10 : ℚ) ^ t) := by
  obtain ⟨n1, n2⟩ := shortest_nat f hf r hdl hr hc hd
  obtain ⟨hB, -, -⟩ := scale_bounds f.ieeeExponent hf.1
  rw [← e2_eq_e2Of] at hB
  have hBq : (0 : ℚ) < (scaleDen f.e2 : ℚ) := by exact_mod_cast hB
  have hacc := acceptBounds_eq f
  have hcz : (c : ℚ) * (10 : ℚ) ^ t
      = ((c : ℚ) * (10 : ℚ) ^ (t - e10Of f.e2)) * (10 : ℚ) ^ (e10Of f.e2) := by
    rw [mul_assoc, ← zpow_add₀ (by norm_num)]
    congr 2; ring
  obtain ⟨b1, b2, b3, b4⟩ := bounds_scaled f hf ((c : ℚ) * (10 : ℚ) ^ (t - e10Of f.e2))
  intro hin
  rw [hcz] at hin
  unfold InInterval at hin
  by_cases hs : (r : Int) + 1 ≤ t - e10Of f.e2
  · -- the candidate is a multiple of 10^(r+1) in scaled units
    obtain ⟨u, hu⟩ := Int.eq_ofNat_of_zero_le (show 0 ≤ t - e10Of f.e2 - ((r : Int) + 1) by omega)
    have hz : (c : ℚ) * (10 : ℚ) ^ (t - e10Of f.e2) = ((c * 10 ^ u * 10 ^ (r + 1) : Nat) : ℚ) := by
      have : t - e10Of f.e2 = ((u + (r + 1) : Nat) : Int) := by push_cast; omega
      rw [this, zpow_natCast, pow_add]
      push_cast
      ring
    rw [hz] at b1 b2 b3 b4 hin
    by_cases hev : f.m2 % 2 = 0
    · rw [if_pos hev, b1, b3] at hin
      have hacct : f.acceptBounds = true := by rw [hacc]; simpa using hev
      have g2 : c * 10 ^ u * 10 ^ (r + 1) * scaleDen f.e2 ≤ f.mp * scaleNum f.e2 := by
        exact_mod_cast hin.2
      have hle := (le_vpOf_iff f hf _).mpr (by rw [if_pos hacct]; exact g2)
      have := n1 (c * 10 ^ u) hle
      rw [if_pos hacct] at this
      have g1 : f.mm * scaleNum f.e2 ≤ c * 10 ^ u * 10 ^ (r + 1) * scaleDen f.e2 := by
        exact_mod_cast hin.1
      omega
    · rw [if_neg hev, b2, b4] at hin
      have hacct : ¬ f.acceptBounds = true := by rw [hacc]; simpa using hev
      have g2 : c * 10 ^ u * 10 ^ (r + 1) * scaleDen f.e2 < f.mp * scaleNum f.e2 := by
        exact_mod_cast hin.2
      have hle := (le_vpOf_iff f hf _).mpr (by rw [if_neg hacct]; exact g2)
      have := n1 (c * 10 ^ u) hle
      rw [if_neg hacct] at this
      have g1 : f.mm * scaleNum f.e2 < c * 10 ^ u * 10 ^ (r + 1) * scaleDen f.e2 := by
        exact_mod_cast hin.1
      omega
  · -- the candidate is below 10^(n-1) * 10^r in scaled units
    have hs' : t - e10Of f.e2 ≤ (r : Int) := by omega
    have hpow : (10 : ℚ) ^ (t - e10Of f.e2) ≤ (10 : ℚ) ^ (r : Int) :=
      zpow_le_zpow_right₀ (by norm_num) hs'
    rw [zpow_natCast] at hpow
    have hlt' : c < 10 ^ (decimalLength (vpOf f) - r - 1) := by
      simpa [decimalOf] using hlt
    have g := n2 c hlt'
    have gq : ((c * 10 ^ r * scaleDen f.e2 : Nat) : ℚ) < ((f.mm * scaleNum f.e2 : Nat) : ℚ) := by
      exact_mod_cast g
    have hzle : (c : ℚ) * (10 : ℚ) ^ (t - e10Of f.e2) * (scaleDen f.e2 : ℚ)
        ≤ ((c * 10 ^ r * scaleDen f.e2 : Nat) : ℚ) := by
      push_cast
      apply mul_le_mul_of_nonneg_right _ (le_of_lt hBq)
      exact mul_le_mul_of_nonneg_left hpow (by positivity)
    have hbelow : (c : ℚ) * (10 : ℚ) ^ (t - e10Of f.e2) * (scaleDen f.e2 : ℚ)
        < ((f.mm * scaleNum f.e2 : Nat) : ℚ) := lt_of_le_of_lt hzle gq
    by_cases hev : f.m2 % 2 = 0
    · rw [if_pos hev, b1] at hin
      exact absurd hin.1 (not_le.mpr hbelow)
    · rw [if_neg hev, b2] at hin
      exact absurd hin.1 (not_lt.mpr (le_of_lt hbelow))

/-! ## Consequences used by the main theorems -/

theorem finiteNonzero_of_fields (bits : Nat) (hfin : (decode bits).ieeeExponent ≠ 255)
    (hnz : ¬ ((decode bits).ieeeExponent = 0 ∧ (decode bits).ieeeMantissa = 0)) :
    (decode bits).FiniteNonzero := by
  refine ⟨?_, ?_, hnz⟩
  · have := decode_exponent bits
    omega
  · have := decode_mantissa bits
    omega

/-- Once the digit search has been evaluated with 14 units of fuel, the string written for any
larger fuel and any buffer of at least 16 bytes is the rendering of its result. -/
theorem f2s_buffered_eval (fuel : Nat) (hfuel : 14 ≤ fuel) (bits : Nat) (result : List Nat)
    (hlen : 16 ≤ result.length) (hf : (decode bits).FiniteNonzero) (d : Decimal)
    (h14 : shortest 14 (decode bits) = .ok d) :
    ∃ res, f2s_buffered fuel bits result = .ok res ∧
      cbytes res = render (decode bits).sign d := by
  obtain ⟨r, res, hsh, hrun, -, hc, -⟩ := f2s_buffered_finite fuel hfuel bits result hlen hf
  rw [shortest_fuel fuel hfuel _ hf, h14] at hsh
  have hd : d = decimalOf (decode bits) r := by
    injection hsh
  exact ⟨res, hrun, by rw [hc, hd]⟩

/-- The written string for an input with a special exponent field. -/
theorem f2s_buffered_special (fuel bits : Nat) (result : List Nat) (hlen : 16 ≤ result.length)
    (h : (decode bits).ieeeExponent = 255 ∨
      ((decode bits).ieeeExponent = 0 ∧ (decode bits).ieeeMantissa = 0)) :
    ∃ res, f2s_buffered fuel bits result = .ok res ∧ res.length = result.length ∧
      cbytes res = List.map Char.toNat
        (if (decode bits).ieeeExponent = 255 then
          (if (decode bits).ieeeMantissa ≠ 0 then "NaN"
           else if (decode bits).sign then "-Infinity" else "Infinity")
         else (if (decode bits).sign then "-0E0" else "0E0")).toList := by
  unfold f2s_buffered
  simp only [FLOAT_EXPONENT_BITS]
  have e255 : (1 <<< 8) - 1 = 255 := by decide
  by_cases h255 : (decode bits).ieeeExponent = 255
  · rw [if_pos (h255.trans e255.symm), if_pos h255]
    apply strcpy_cbytes
    · split
      · simp; omega
      · split <;> (simp; omega)
    · split
      · decide
      · split <;> decide
  · rw [if_neg (fun hh => h255 (hh.trans e255)), if_neg h255]
    have h0 : (decode bits).ieeeExponent = 0 ∧ (decode bits).ieeeMantissa = 0 := by
      rcases h with h | h
      · exact absurd h h255
      · exact h
    rw [if_pos h0]
    apply strcpy_cbytes
    · split <;> (simp; omega)
    · split <;> decide

/-! ## Main theorems -/

/-- C3. Special cases short-circuit to fixed literals: for every 32-bit pattern, any fuel and any
buffer of at least 16 bytes, an all-ones exponent field with a non-zero mantissa gives `NaN`
whatever the sign bit, an all-ones exponent field with a zero mantissa gives `Infinity` or
`-Infinity` by the sign bit, and a zero exponent field with a zero mantissa gives `0E0` or
`-0E0` by the sign bit; in particular the pattern `0x7fc00000` gives `NaN`. -/
theorem special_cases (fuel bits : Nat) (result : List Nat) (_hbits : bits < 4294967296)
    (hlen : 16 ≤ result.length) :
    (bits / 8388608 % 256 = 255 → bits % 8388608 ≠ 0 →
      ∃ res, f2s_buffered fuel bits result = .ok res ∧ cstring res = "NaN") ∧
    (bits / 8388608 % 256 = 255 → bits % 8388608 = 0 → bits / 2147483648 = 0 →
      ∃ res, f2s_buffered fuel bits result = .ok res ∧ cstring res = "Infinity") ∧
    (bits / 8388608 % 256 = 255 → bits % 8388608 = 0 → bits / 2147483648 = 1 →
      ∃ res, f2s_buffered fuel bits result = .ok res ∧ cstring res = "-Infinity") ∧
    (bits / 8388608 % 256 = 0 → bits % 8388608 = 0 → bits / 2147483648 = 0 →
      ∃ res, f2s_buffered fuel bits result = .ok res ∧ cstring res = "0E0") ∧
    (bits / 8388608 % 256 = 0 → bits % 8388608 = 0 → bits / 2147483648 = 1 →
      ∃ res, f2s_buffered fuel bits result = .ok res ∧ cstring res = "-0E0") ∧
    (∃ res, f2s_buffered fuel 0x7fc00000 result = .ok res ∧ cstring res = "NaN") := by
  have hE := decode_exponent bits
  have hM := decode_mantissa bits
  have hS := decode_sign bits
  refine ⟨?_, ?_, ?_, ?_, ?_, ?_⟩
  · intro h1 h2
    obtain ⟨res, hrun, -, hc⟩ := f2s_buffered_special fuel bits result hlen
      (Or.inl (by rw [hE]; exact h1))
    refine ⟨res, hrun, ?_⟩
    rw [if_pos (by rw [hE]; exact h1), if_pos (by rw [hM]; exact h2)] at hc
    unfold cstring; rw [hc]; decide
  · intro h1 h2 h3
    obtain ⟨res, hrun, -, hc⟩ := f2s_buffered_special fuel bits result hlen
      (Or.inl (by rw [hE]; exact h1))
    refine ⟨res, hrun, ?_⟩
    rw [if_pos (by rw [hE]; exact h1), if_neg (by rw [hM]; simpa using h2),
      if_neg (by rw [hS, h3]; decide)] at hc
    unfold cstring; rw [hc]; decide
  · intro h1 h2 h3
    obtain ⟨res, hrun, -, hc⟩ := f2s_buffered_special fuel bits result hlen
      (Or.inl (by rw [hE]; exact h1))
    refine ⟨res, hrun, ?_⟩
    rw [if_pos (by rw [hE]; exact h1), if_neg (by rw [hM]; simpa using h2),
      if_pos (by rw [hS, h3]; decide)] at hc
    unfold cstring; rw [hc]; decide
  · intro h1 h2 h3
    obtain ⟨res, hrun, -, hc⟩ := f2s_buffered_special fuel bits result hlen
      (Or.inr ⟨by rw [hE]; exact h1, by rw [hM]; exact h2⟩)
    refine ⟨res, hrun, ?_⟩
    rw [if_neg (by rw [hE, h1]; decide), if_neg (by rw [hS, h3]; decide)] at hc
    unfold cstring; rw [hc]; decide
  · intro h1 h2 h3
    obtain ⟨res, hrun, -, hc⟩ := f2s_buffered_special fuel bits result hlen
      (Or.inr ⟨by rw [hE]; exact h1, by rw [hM]; exact h2⟩)
    refine ⟨res, hrun, ?_⟩
    rw [if_neg (by rw [hE, h1]; decide), if_pos (by rw [hS, h3]; decide)] at hc
    unfold cstring; rw [hc]; decide
  · obtain ⟨res, hrun, -, hc⟩ := f2s_buffered_special fuel 0x7fc00000 result hlen
      (Or.inl (by decide))
    refine ⟨res, hrun, ?_⟩
    rw [if_pos (by decide), if_pos (by decide)] at hc
    unfold cstring; rw [hc]; decide

/-- Witness for C3: the theorem applied to the negative-infinity pattern `0xff800000`, run with
no fuel at all and the zeroed 16-byte buffer of `f2s`. -/
theorem special_cases_witness :
    (4286578688 < 4294967296 ∧ 16 ≤ (List.replicate 16 0).length) ∧
    ∃ res, f2s_buffered 0 4286578688 (List.replicate 16 0) = .ok res ∧
      cstring res = "-Infinity" :=
  ⟨⟨by decide, by decide⟩,
    (special_cases 0 4286578688 (List.replicate 16 0) (by decide) (by decide)).2.2.1
      (by decide) (by decide) (by decide)⟩

/-- C5 (as stated, refuted). On the smallest positive subnormal, bit pattern `0x00000001`,
`f2s` writes `2E-45` and not `1E-45`: the default build prints the truncated upper bound of the
rounding interval, `21 / 10 = 2`. -/
theorem smallest_subnormal_not_1E45 :
    (f2s 14 1).map cstring = .ok "2E-45" ∧ (f2s 14 1).map cstring ≠ .ok "1E-45" := by
  decide!

/-- C5 (amended). For the smallest positive subnormal, bit pattern `0x00000001`, the output of
`f2s_buffered` in the default build is the string `2E-45`, for every fuel of at least 14 and
every buffer of at least 16 bytes. -/
theorem smallest_subnormal (fuel : Nat) (result : List Nat) (hfuel : 14 ≤ fuel)
    (hlen : 16 ≤ result.length) :
    ∃ res, f2s_buffered fuel 1 result = .ok res ∧ cstring res = "2E-45" := by
  obtain ⟨res, hrun, hc⟩ := f2s_buffered_eval fuel hfuel 1 result hlen (by decide)
    { output := 2, olength := 1, exp := -45 } (by decide!)
  refine ⟨res, hrun, ?_⟩
  unfold cstring
  rw [hc]
  decide

/-- Witness for C5 (amended): the theorem at fuel 14 and the zeroed 16-byte buffer of `f2s`. -/
theorem smallest_subnormal_witness :
    (14 ≤ 14 ∧ 16 ≤ (List.replicate 16 0).length) ∧
    ∃ res, f2s_buffered 14 1 (List.replicate 16 0) = .ok res ∧ cstring res = "2E-45" :=
  ⟨⟨by decide, by decide⟩, smallest_subnormal 14 (List.replicate 16 0) (by decide) (by decide)⟩

/-- C6. Concrete scenarios on normal floats: `f2s_buffered` writes `1E0` for `0x3f800000`
(1.0f), `-1E0` for `0xbf800000` (-1.0f), `1E2` for `0x42c80000` (100.0f) and `3E-1` for
`0x3e99999a` (0.3f), for every fuel of at least 14 and every buffer of at least 16 bytes. -/
theorem concrete_scenarios (fuel : Nat) (result : List Nat) (hfuel : 14 ≤ fuel)
    (hlen : 16 ≤ result.length) :
    (∃ res, f2s_buffered fuel 0x3f800000 result = .ok res ∧ cstring res = "1E0") ∧
    (∃ res, f2s_buffered fuel 0xbf800000 result = .ok res ∧ cstring res = "-1E0") ∧
    (∃ res, f2s_buffered fuel 0x42c80000 result = .ok res ∧ cstring res = "1E2") ∧
    (∃ res, f2s_buffered fuel 0x3e99999a result = .ok res ∧ cstring res = "3E-1") := by
  refine ⟨?_, ?_, ?_, ?_⟩
  · obtain ⟨res, hrun, hc⟩ := f2s_buffered_eval fuel hfuel 0x3f800000 result hlen (by decide)
      { output := 1, olength := 1, exp := 0 } (by decide!)
    refine ⟨res, hrun, ?_⟩
    unfold cstring; rw [hc]; decide
  · obtain ⟨res, hrun, hc⟩ := f2s_buffered_eval fuel hfuel 0xbf800000 result hlen (by decide)
      { output := 1, olength := 1, exp := 0 } (by decide!)
    refine ⟨res, hrun, ?_⟩
    unfold cstring; rw [hc]; decide
  · obtain ⟨res, hrun, hc⟩ := f2s_buffered_eval fuel hfuel 0x42c80000 result hlen (by decide)
      { output := 1, olength := 1, exp := 2 } (by decide!)
    refine ⟨res, hrun, ?_⟩
    unfold cstring; rw [hc]; decide
  · obtain ⟨res, hrun, hc⟩ := f2s_buffered_eval fuel hfuel 0x3e99999a result hlen (by decide)
      { output := 3, olength := 1, exp := -1 } (by decide!)
    refine ⟨res, hrun, ?_⟩
    unfold cstring; rw [hc]; decide

/-- Witness for C6: the theorem at fuel 14 and the zeroed 16-byte buffer of `f2s`. -/
theorem concrete_scenarios_witness :
    (14 ≤ 14 ∧ 16 ≤ (List.replicate 16 0).length) ∧
    (∃ res, f2s_buffered 14 0x3f800000 (List.replicate 16 0) = .ok res ∧
      cstring res = "1E0") :=
  ⟨⟨by decide, by decide⟩,
    (concrete_scenarios 14 (List.replicate 16 0) (by decide) (by decide)).1⟩

/-- C1. Round trip: for every finite non-zero 32-bit pattern (fuel at least 14, buffer of at
least 16 bytes) `f2s_buffered` succeeds, and the number `d.ddd * 10^E` read back from the
string it wrote carries the sign of the input and lies in the rounding interval of the input:
between `mm * 2^e2` and `mp * 2^e2`, both included when `m2` is even and both excluded when
`m2` is odd. -/
theorem round_trip (fuel bits : Nat) (result : List Nat) (hfuel : 14 ≤ fuel)
    (_hbits : bits < 4294967296) (hlen : 16 ≤ result.length)
    (hfin : bits / 8388608 % 256 ≠ 255)
    (hnz : ¬ (bits / 8388608 % 256 = 0 ∧ bits % 8388608 = 0)) :
    ∃ res v, f2s_buffered fuel bits result = .ok res ∧
      readSci (cbytes res) = some ((decode bits).sign, v) ∧
      InInterval (decode bits) v := by
  have hf := decode_finiteNonzero bits hfin hnz
  obtain ⟨r, hsh, -, hr, hdl, hb, -, -⟩ := shortest_spec fuel hfuel (decode bits) hf
  obtain ⟨h1, h2, h3, h4, h5, h6⟩ := decimalOf_shape (decode bits) hf r hr hdl
  obtain ⟨res, hrun, hc⟩ := f2s_buffered_eval fuel hfuel bits result hlen hf
    (decimalOf (decode bits) r) (by rw [← shortest_fuel fuel hfuel _ hf]; exact hsh)
  refine ⟨res, (decimalOf (decode bits) r).value, hrun, ?_, ?_⟩
  · rw [hc, readSci_render _ _ h1 h4 (by omega) (by omega)]
    rfl
  · exact value_inInterval (decode bits) hf r hr hb

/-- Witness for C1: the theorem at the pattern `0x3f800000` of `1.0f`, fuel 14 and the zeroed
16-byte buffer of `f2s`. -/
theorem round_trip_witness :
    (14 ≤ 14 ∧ 1065353216 < 4294967296 ∧ 16 ≤ (List.replicate 16 0).length ∧
      1065353216 / 8388608 % 256 ≠ 255 ∧
      ¬ (1065353216 / 8388608 % 256 = 0 ∧ 1065353216 % 8388608 = 0)) ∧
    ∃ res v, f2s_buffered 14 1065353216 (List.replicate 16 0) = .ok res ∧
      readSci (cbytes res) = some ((decode 1065353216).sign, v) ∧
      InInterval (decode 1065353216) v :=
  ⟨⟨by decide, by decide, by decide, by decide, by decide⟩,
    round_trip 14 1065353216 (List.replicate 16 0) (by decide) (by decide) (by decide)
      (by decide) (by decide)⟩

/-- C2. Shortest length: for every finite non-zero 32-bit pattern, if the digit search returns
a decimal with `olength = n` significant digits (the one `f2s_buffered` prints), then no number
`c * 10^t` with a significand `c` of fewer than `n` digits lies in the rounding interval of the
input. -/
theorem shortest_length (fuel bits : Nat) (result : List Nat) (hfuel : 14 ≤ fuel)
    (_hbits : bits < 4294967296) (hlen : 16 ≤ result.length)
    (hfin : bits / 8388608 % 256 ≠ 255)
    (hnz : ¬ (bits / 8388608 % 256 = 0 ∧ bits % 8388608 = 0)) :
    ∃ d res, shortest fuel (decode bits) = .ok d ∧
      f2s_buffered fuel bits result = .ok res ∧
      cbytes res = render (decode bits).sign d ∧
      ∀ (c : Nat) (t : Int), c < 10 ^ (d.olength - 1) →
        ¬ InInterval (decode bits) ((c : ℚ) * (10 : ℚ) ^ t) := by
  have hf := decode_finiteNonzero bits hfin hnz
  obtain ⟨r, hsh, -, hr, hdl, -, hc, hd⟩ := shortest_spec fuel hfuel (decode bits) hf
  obtain ⟨res, hrun, hcb⟩ := f2s_buffered_eval fuel hfuel bits result hlen hf
    (decimalOf (decode bits) r) (by rw [← shortest_fuel fuel hfuel _ hf]; exact hsh)
  refine ⟨decimalOf (decode bits) r, res, hsh, hrun, hcb, ?_⟩
  intro c t hlt
  exact fewer_digits_outside (decode bits) hf r hdl hr hc hd c t hlt

/-- Witness for C2: the theorem at the pattern `0x00800000` of the smallest normal float,
fuel 14 and the zeroed 16-byte buffer of `f2s`.  The digit search returns the eight digits
`11754944` with exponent `-38`, so the theorem excludes every significand of up to seven
digits, among them both seven-digit neighbours `1.175494E-38` and `1.175495E-38`. -/
theorem shortest_length_witness :
    (14 ≤ 14 ∧ 8388608 < 4294967296 ∧ 16 ≤ (List.replicate 16 0).length ∧
      8388608 / 8388608 % 256 ≠ 255 ∧
      ¬ (8388608 / 8388608 % 256 = 0 ∧ 8388608 % 8388608 = 0)) ∧
    shortest 14 (decode 8388608) = .ok { output := 11754944, olength := 8, exp := -38 } ∧
    (∃ res, f2s_buffered 14 8388608 (List.replicate 16 0) = .ok res ∧
      cbytes res = render (decode 8388608).sign
        { output := 11754944, olength := 8, exp := -38 }) ∧
    (∀ (c : Nat) (t : Int), c < 10 ^ (8 - 1) →
      ¬ InInterval (decode 8388608) ((c : ℚ) * (10 : ℚ) ^ t)) ∧
    ¬ InInterval (decode 8388608) (((1175494 : Nat) : ℚ) * (10 : ℚ) ^ (-44 : Int)) ∧
    ¬ InInterval (decode 8388608) (((1175495 : Nat) : ℚ) * (10 : ℚ) ^ (-44 : Int)) := by
  have hsh : shortest 14 (decode 8388608)
      = .ok { output := 11754944, olength := 8, exp := -38 } := by rfl
  obtain ⟨d, res, hd, hrun, hcb, hall⟩ := shortest_length 14 8388608 (List.replicate 16 0)
    (by decide) (by decide) (by decide) (by decide) (by decide)
  have hdeq : d = { output := 11754944, olength := 8, exp := -38 } :=
    Except.ok.inj (hd.symm.trans hsh)
  subst hdeq
  exact ⟨⟨by decide, by decide, by decide, by decide, by decide⟩, hsh, ⟨res, hrun, hcb⟩,
    hall, hall 1175494 (-44) (by decide), hall 1175495 (-44) (by decide)⟩

theorem render_canonical (sign : Bool) (d : Decimal) (hol : 1 ≤ d.olength)
    (hlo : 10 ^ (d.olength - 1) ≤ d.output) (hhi : d.output < 10 ^ d.olength)
    (he1 : -99 ≤ d.exp) (he2 : d.exp ≤ 99) : Canonical sign (render sign d) := by
  obtain ⟨output, olength, exp⟩ := d
  simp only at hol hlo hhi he1 he2
  have c0 : '0'.toNat = 48 := by decide
  have c1 : '1'.toNat = 49 := by decide
  have c9 : '9'.toNat = 57 := by decide
  have hp : 0 < 10 ^ (olength - 1) := Nat.pow_pos (by norm_num)
  have hq1 : 1 ≤ output / 10 ^ (olength - 1) := by
    rw [Nat.le_div_iff_mul_le hp, one_mul]; exact hlo
  have hq9 : output / 10 ^ (olength - 1) < 10 := by
    rw [Nat.div_lt_iff_lt_mul hp, ← pow_succ']
    have : olength - 1 + 1 = olength := by omega
    rw [this]; exact hhi
  refine ⟨48 + output / 10 ^ (olength - 1) % 10, fracDigits output olength,
    decide (exp < 0),
    (if exp.natAbs ≥ 10 then [48 + exp.natAbs / 10, 48 + exp.natAbs % 10]
     else [48 + exp.natAbs]), ?_, ?_, ?_, ?_, ?_⟩
  · unfold render mantissaBytes exponentBytes
    have hfr : (fracDigits output olength = []) ↔ ¬ olength > 1 := by
      rw [← List.length_eq_zero, fracDigits_length]; omega
    by_cases hgt : olength > 1
    · have hne : ¬ fracDigits output olength = [] := by rw [hfr]; simpa using hgt
      simp [hgt, hne]
    · have hne : fracDigits output olength = [] := by rw [hfr]; exact hgt
      simp [hgt, hne]
  · rw [c1, c9]; omega
  · intro c hc
    rw [fracDigits_eq] at hc
    have := digitsMSB_bounds output _ c hc
    rw [c0, c9]; exact this
  · rw [c0, c1, c9]
    by_cases h10 : exp.natAbs ≥ 10
    · right
      exact ⟨48 + exp.natAbs / 10, 48 + exp.natAbs % 10, by rw [if_pos h10],
        ⟨by omega, by omega⟩, ⟨by omega, by omega⟩⟩
    · left
      exact ⟨48 + exp.natAbs, by rw [if_neg h10], by omega, by omega⟩
  · intro hneg
    have hlt : exp < 0 := by simpa using hneg
    rw [c0]
    split
    · simp
    · simp; omega

/-- C4. Canonical form: for every finite non-zero 32-bit pattern the string written by
`f2s_buffered` matches the grammar `["-"] d1 ["." digit+] "E" ["-"] exponent`, with `d1` a
digit `1..9`, a point only when a digit follows, the leading `-` exactly when the sign bit is
set, and an exponent of one digit or of two digits without leading zero, never `-0` and never
with a `+`. -/
theorem canonical_form (fuel bits : Nat) (result : List Nat) (hfuel : 14 ≤ fuel)
    (_hbits : bits < 4294967296) (hlen : 16 ≤ result.length)
    (hfin : bits / 8388608 % 256 ≠ 255)
    (hnz : ¬ (bits / 8388608 % 256 = 0 ∧ bits % 8388608 = 0)) :
    ∃ res, f2s_buffered fuel bits result = .ok res ∧
      Canonical (decide (bits / 2147483648 % 2 = 1)) (cbytes res) := by
  have hf := decode_finiteNonzero bits hfin hnz
  obtain ⟨r, hsh, -, hr, hdl, -, -, -⟩ := shortest_spec fuel hfuel (decode bits) hf
  obtain ⟨h1, h2, h3, h4, h5, h6⟩ := decimalOf_shape (decode bits) hf r hr hdl
  obtain ⟨res, hrun, hc⟩ := f2s_buffered_eval fuel hfuel bits result hlen hf
    (decimalOf (decode bits) r) (by rw [← shortest_fuel fuel hfuel _ hf]; exact hsh)
  refine ⟨res, hrun, ?_⟩
  rw [hc, decode_sign]
  exact render_canonical _ _ h1 h3 h4 (by omega) (by omega)

/-- Witness for C4: the theorem at the pattern `0xbf800000` of `-1.0f`, fuel 14 and the zeroed
16-byte buffer of `f2s`. -/
theorem canonical_form_witness :
    (14 ≤ 14 ∧ 3212836864 < 4294967296 ∧ 16 ≤ (List.replicate 16 0).length ∧
      3212836864 / 8388608 % 256 ≠ 255 ∧
      ¬ (3212836864 / 8388608 % 256 = 0 ∧ 3212836864 % 8388608 = 0)) ∧
    ∃ res, f2s_buffered 14 3212836864 (List.replicate 16 0) = .ok res ∧
      Canonical (decide (3212836864 / 2147483648 % 2 = 1)) (cbytes res) :=
  ⟨⟨by decide, by decide, by decide, by decide, by decide⟩,
    canonical_form 14 3212836864 (List.replicate 16 0) (by decide) (by decide) (by decide)
      (by decide) (by decide)⟩

/-- C7. Buffer bound: for every 32-bit input pattern (fuel at least 14) `f2s_buffered` runs
without fault in any buffer of at least 16 bytes, keeps its length, and leaves a string of at
most 15 characters before the NUL; so does `f2s` in its own 16-byte block, where a store at an
index of 16 or more would have been a fault.  For finite non-zero inputs the decimal printed
has `olength <= 9` and `|exp| <= 99`. -/
theorem buffer_bound (fuel bits : Nat) (result : List Nat) (hfuel : 14 ≤ fuel)
    (_hbits : bits < 4294967296) (hlen : 16 ≤ result.length) :
    (∃ res, f2s_buffered fuel bits result = .ok res ∧ res.length = result.length ∧
      (cbytes res).length ≤ 15) ∧
    (∃ res, f2s fuel bits = .ok res ∧ res.length = 16 ∧ (cbytes res).length ≤ 15) ∧
    (bits / 8388608 % 256 ≠ 255 → ¬ (bits / 8388608 % 256 = 0 ∧ bits % 8388608 = 0) →
      ∃ d, shortest fuel (decode bits) = .ok d ∧ d.olength ≤ 9 ∧ -99 ≤ d.exp ∧ d.exp ≤ 99) := by
  have key : ∀ buf : List Nat, 16 ≤ buf.length →
      ∃ res, f2s_buffered fuel bits buf = .ok res ∧ res.length = buf.length ∧
        (cbytes res).length ≤ 15 := by
    intro buf hbuf
    by_cases hsp : (decode bits).ieeeExponent = 255 ∨
        ((decode bits).ieeeExponent = 0 ∧ (decode bits).ieeeMantissa = 0)
    · obtain ⟨res, hrun, hl, hc⟩ := f2s_buffered_special fuel bits buf hbuf hsp
      refine ⟨res, hrun, hl, ?_⟩
      rw [hc]
      split
      · split
        · decide
        · split <;> decide
      · split <;> decide
    · have hf : (decode bits).FiniteNonzero := by
        apply finiteNonzero_of_fields
        · intro h; exact hsp (Or.inl h)
        · intro h; exact hsp (Or.inr h)
      obtain ⟨r, res, -, hrun, hl, hc, hle⟩ := f2s_buffered_finite fuel hfuel bits buf hbuf hf
      exact ⟨res, hrun, hl, by rw [hc]; exact hle⟩
  refine ⟨key result hlen, ?_, ?_⟩
  · obtain ⟨res, hrun, hl, hc⟩ := key (List.replicate 16 0) (by simp)
    exact ⟨res, hrun, by simpa using hl, hc⟩
  · intro hfin hnz
    have hf := decode_finiteNonzero bits hfin hnz
    obtain ⟨r, hsh, -, hr, hdl, -, -, -⟩ := shortest_spec fuel hfuel (decode bits) hf
    obtain ⟨h1, h2, h3, h4, h5, h6⟩ := decimalOf_shape (decode bits) hf r hr hdl
    exact ⟨decimalOf (decode bits) r, hsh, h2, by omega, by omega⟩

/-- Witness for C7: the theorem at the pattern `0x00800000` of the smallest normal float
(`1.1754944E-38`), fuel 14 and the zeroed 16-byte buffer of `f2s`. -/
theorem buffer_bound_witness :
    (14 ≤ 14 ∧ 8388608 < 4294967296 ∧ 16 ≤ (List.replicate 16 0).length) ∧
    ∃ res, f2s_buffered 14 8388608 (List.replicate 16 0) = .ok res ∧
      res.length = (List.replicate 16 0).length ∧ (cbytes res).length ≤ 15 :=
  ⟨⟨by decide, by decide, by decide⟩,
    (buffer_bound 14 8388608 (List.replicate 16 0) (by decide) (by decide) (by decide)).1⟩

/-- C8. No runtime failure: for every finite non-zero 32-bit pattern, (a) when `e2 >= 0` the
index `q` is within `0..30`, inside `POW5_INV_SPLIT`, and the shift argument `i` within
`32..95`; (b) when `e2 < 0` the index `i` is within `0..46`, inside `POW5_SPLIT`, and the shift
argument `j` within `32..95`; (c) the exponent printed satisfies `2 * |exp| + 1 < 200`, the
size of `DIGIT_TABLE`; and the whole run of `f2s_buffered` ends without a fault. -/
theorem no_runtime_failure (fuel bits : Nat) (result : List Nat) (hfuel : 14 ≤ fuel)
    (_hbits : bits < 4294967296) (hlen : 16 ≤ result.length)
    (hfin : bits / 8388608 % 256 ≠ 255)
    (hnz : ¬ (bits / 8388608 % 256 = 0 ∧ bits % 8388608 = 0)) :
    (0 ≤ (decode bits).e2 →
      (0 ≤ qPos (decode bits).e2 ∧ qPos (decode bits).e2 ≤ 30) ∧
      u32 (qPos (decode bits).e2) < POW5_INV_SPLIT.length ∧
      (32 ≤ iPos (decode bits).e2 ∧ iPos (decode bits).e2 ≤ 95)) ∧
    ((decode bits).e2 < 0 →
      (0 ≤ iNeg (decode bits).e2 ∧ iNeg (decode bits).e2 ≤ 46) ∧
      u32 (iNeg (decode bits).e2) < POW5_SPLIT.length ∧
      (32 ≤ jNeg (decode bits).e2 ∧ jNeg (decode bits).e2 ≤ 95)) ∧
    (∃ d, shortest fuel (decode bits) = .ok d ∧ 2 * d.exp.natAbs + 1 < DIGIT_TABLE.length) ∧
    (∃ res, f2s_buffered fuel bits result = .ok res) := by
  have hf := decode_finiteNonzero bits hfin hnz
  have hex : (decode bits).ieeeExponent < 255 := hf.1
  have h31 : POW5_INV_SPLIT.length = 31 := by decide
  have h47 : POW5_SPLIT.length = 47 := by decide
  have h200 : DIGIT_TABLE.length = 200 := by rfl
  rw [e2_eq_e2Of, h31, h47, h200]
  refine ⟨?_, ?_, ?_, ?_⟩
  · intro h
    obtain ⟨a, b, c, d⟩ := index_ranges_pos _ hex h
    refine ⟨⟨a, b⟩, ?_, ⟨c, d⟩⟩
    unfold u32; omega
  · intro h
    obtain ⟨-, a, b, c, d⟩ := index_ranges_neg _ hex h
    refine ⟨⟨a, b⟩, ?_, ⟨c, d⟩⟩
    unfold u32; omega
  · obtain ⟨r, hsh, -, hr, hdl, -, -, -⟩ := shortest_spec fuel hfuel (decode bits) hf
    obtain ⟨h1, h2, h3, h4, h5, h6⟩ := decimalOf_shape (decode bits) hf r hr hdl
    exact ⟨decimalOf (decode bits) r, hsh, by omega⟩
  · obtain ⟨r, res, -, hrun, -⟩ := f2s_buffered_finite fuel hfuel bits result hlen hf
    exact ⟨res, hrun⟩

/-- Witness for C8: the theorem at the pattern `0x7f7fffff` of the largest finite float, fuel
14 and the zeroed 16-byte buffer of `f2s`. -/
theorem no_runtime_failure_witness :
    (14 ≤ 14 ∧ 2139095039 < 4294967296 ∧ 16 ≤ (List.replicate 16 0).length ∧
      2139095039 / 8388608 % 256 ≠ 255 ∧
      ¬ (2139095039 / 8388608 % 256 = 0 ∧ 2139095039 % 8388608 = 0)) ∧
    ∃ res, f2s_buffered 14 2139095039 (List.replicate 16 0) = .ok res :=
  ⟨⟨by decide, by decide, by decide, by decide, by decide⟩,
    (no_runtime_failure 14 2139095039 (List.replicate 16 0) (by decide) (by decide)
      (by decide) (by decide) (by decide)).2.2.2⟩

/-- C9. Termination of the digit search: for every finite non-zero 32-bit pattern and fuel of
at least 14, the scaling step and both digit-stripping loops return; `vm` is not 0 when the
second loop is entered; the number `removed` of stripped digits is at most 9 and smaller than
`vplength`, so that `olength = vplength - removed >= 1`. -/
theorem digit_search_terminates (fuel bits : Nat) (hfuel : 14 ≤ fuel)
    (_hbits : bits < 4294967296) (hfin : bits / 8388608 % 256 ≠ 255)
    (hnz : ¬ (bits / 8388608 % 256 = 0 ∧ bits % 8388608 = 0)) :
    ∃ sc s1 s d,
      scale fuel (decode bits).e2 (decode bits).mp (decode bits).mm (decode bits).acceptBounds
        = .ok sc ∧
      digitLoop1 fuel
        { vp := sc.vp, vm := sc.vm, vmIsTrailingZeros := sc.vmIsTrailingZeros, removed := 0 }
        = .ok s1 ∧
      ((s1.vmIsTrailingZeros && (decode bits).acceptBounds) = true → s1.vm ≠ 0) ∧
      search fuel sc (decode bits).acceptBounds = .ok s ∧
      s.removed ≤ 9 ∧ s.removed < decimalLength sc.vp ∧
      shortest fuel (decode bits) = .ok d ∧
      d.olength = decimalLength sc.vp - s.removed ∧ 1 ≤ d.olength := by
  have hf := decode_finiteNonzero bits hfin hnz
  obtain ⟨hvm0, hvmvp, hvplt⟩ := vm_lt_vp (decode bits) hf
  have hsc : scale fuel (decode bits).e2 (decode bits).mp (decode bits).mm
      (decode bits).acceptBounds = .ok
      { vp := vpOf (decode bits), vm := vmOf (decode bits), e10 := e10Of (decode bits).e2,
        vmIsTrailingZeros := tzOf (decode bits) } :=
    scale_spec fuel hfuel (decode bits) hf
  obtain ⟨r, hsh, hsearch, hr, hdl, -, -, -⟩ := shortest_spec fuel hfuel (decode bits) hf
  obtain ⟨k, -, hloop1, -, -⟩ := digitLoop1_spec 10 fuel (vpOf (decode bits))
    (vmOf (decode bits)) (tzOf (decode bits)) 0 (by norm_num; omega) (by omega) (by omega)
  have hdlr := decimalLength_range (vpOf (decode bits))
  refine ⟨_, _, _, _, hsc, hloop1, ?_, hsearch, ?_, hr, hsh, rfl, ?_⟩
  · intro h
    simp only [Bool.and_eq_true, decide_eq_true_eq] at h
    obtain ⟨⟨-, hz⟩, -⟩ := h
    have hmul := div_mul_pow_of_mod _ _ hz
    intro h0
    simp only at h0
    rw [h0] at hmul
    omega
  · simp only; omega
  · simp only [decimalOf]; omega

/-- Witness for C9: the theorem at the pattern `0x00000001` of the smallest subnormal and
fuel 14. -/
theorem digit_search_terminates_witness :
    (14 ≤ 14 ∧ 1 < 4294967296 ∧ 1 / 8388608 % 256 ≠ 255 ∧
      ¬ (1 / 8388608 % 256 = 0 ∧ 1 % 8388608 = 0)) ∧
    ∃ sc s1 s d,
      scale 14 (decode 1).e2 (decode 1).mp (decode 1).mm (decode 1).acceptBounds = .ok sc ∧
      digitLoop1 14
        { vp := sc.vp, vm := sc.vm, vmIsTrailingZeros := sc.vmIsTrailingZeros, removed := 0 }
        = .ok s1 ∧
      ((s1.vmIsTrailingZeros && (decode 1).acceptBounds) = true → s1.vm ≠ 0) ∧
      search 14 sc (decode 1).acceptBounds = .ok s ∧
      s.removed ≤ 9 ∧ s.removed < decimalLength sc.vp ∧
      shortest 14 (decode 1) = .ok d ∧
      d.olength = decimalLength sc.vp - s.removed ∧ 1 ≤ d.olength :=
  ⟨⟨by decide, by decide, by decide, by decide⟩,
    digit_search_terminates 14 1 (by decide) (by decide) (by decide) (by decide)⟩

/-- C10. Exactness of the fixed-point scaling: for every finite non-zero 32-bit pattern and
for `m` either `mp` or `mm`, the multiply-shift made before any inclusivity correction returns
the exact floor of the scaled boundary: `floor(m * 2^e2 / 10^q)` from `mulPow5InvDivPow2` when
`e2 >= 0`, and `floor(m * 5^(-e2-q) / 2^q)` from `mulPow5divPow2` when `e2 < 0`. -/
theorem scaling_exact (bits m : Nat) (_hbits : bits < 4294967296)
    (hfin : bits / 8388608 % 256 ≠ 255)
    (hnz : ¬ (bits / 8388608 % 256 = 0 ∧ bits % 8388608 = 0))
    (hm : m = (decode bits).mp ∨ m = (decode bits).mm) :
    (0 ≤ (decode bits).e2 →
      mulPow5InvDivPow2 m (u32 (qPos (decode bits).e2)) (iPos (decode bits).e2)
        = .ok (m * 2 ^ (decode bits).e2.toNat / 10 ^ (qPos (decode bits).e2).toNat)) ∧
    ((decode bits).e2 < 0 →
      mulPow5divPow2 m (u32 (iNeg (decode bits).e2)) (jNeg (decode bits).e2)
        = .ok (m * 5 ^ (-(decode bits).e2 - qNeg (decode bits).e2).toNat
            / 2 ^ (qNeg (decode bits).e2).toNat)) := by
  have hf := decode_finiteNonzero bits hfin hnz
  obtain ⟨h1, h2, h3, h4⟩ := mm_lt_mp (decode bits) hf
  have hlt : m < 67108864 := by rcases hm with h | h <;> omega
  have key := mulScaled_exact (decode bits).ieeeExponent hf.1 m hlt
  rw [← e2_eq_e2Of] at key
  constructor
  · intro h
    simpa only [mulScaled, scaleNum, scaleDen, if_pos h] using key
  · intro h
    have h' : ¬ 0 ≤ (decode bits).e2 := by omega
    simpa only [mulScaled, scaleNum, scaleDen, if_neg h', iNeg] using key

/-- Witness for C10: the theorem at the pattern `0x7f7fffff` of the largest finite float and
its upper boundary `mp`. -/
theorem scaling_exact_witness :
    (2139095039 < 4294967296 ∧ 2139095039 / 8388608 % 256 ≠ 255 ∧
      ¬ (2139095039 / 8388608 % 256 = 0 ∧ 2139095039 % 8388608 = 0) ∧
      ((decode 2139095039).mp = (decode 2139095039).mp ∨
        (decode 2139095039).mp = (decode 2139095039).mm)) ∧
    (0 ≤ (decode 2139095039).e2 →
      mulPow5InvDivPow2 (decode 2139095039).mp (u32 (qPos (decode 2139095039).e2))
          (iPos (decode 2139095039).e2)
        = .ok ((decode 2139095039).mp * 2 ^ (decode 2139095039).e2.toNat
            / 10 ^ (qPos (decode 2139095039).e2).toNat)) :=
  ⟨⟨by decide, by decide, by decide, Or.inl rfl⟩,
    (scaling_exact 2139095039 (decode 2139095039).mp (by decide) (by decide) (by decide)
      (Or.inl rfl)).1⟩

/-! ## The helper functions and the tables -/

theorem pow5_split_lt : ∀ i < 47, POW5_SPLIT.getD i 0 < 2305843009213693952 ∧
    1152921504606846976 ≤ POW5_SPLIT.getD i 0 := by
  decide!

theorem pow5_inv_split_lt : ∀ q < 31, POW5_INV_SPLIT.getD q 0 < 1152921504606846976 := by
  decide!

theorem table_entry (t : List Nat) (i x : Nat) (h : t[i]? = some x) :
    i < t.length ∧ t.getD i 0 = x := by
  have hi : i < t.length := by
    by_contra hn
    rw [List.getElem?_eq_none (by omega)] at h
    exact absurd h (by simp)
  exact ⟨hi, by simp [h]⟩

theorem split_sum_lt (m factor : Nat) (hm : m < 4294967296)
    (hf : factor < 4611686018427387904) :
    m * (factor &&& 0xffffffff) < 18446744073709551616 ∧
    m * (factor >>> 32) < 18446744073709551616 ∧
    (((m * (factor &&& 0xffffffff)) % 18446744073709551616) >>> 32)
      + (m * (factor >>> 32)) % 18446744073709551616 < 18446744073709551616 := by
  simp only [and_mask32, Nat.shiftRight_eq_div_pow, Nat.reducePow]
  have hlo : factor % 4294967296 < 4294967296 := Nat.mod_lt _ (by norm_num)
  have hhi : factor / 4294967296 < 1073741824 := by omega
  have hb0 : m * (factor % 4294967296) < 18446744073709551616 := by nlinarith
  have hb1 : m * (factor / 4294967296) < 4611686018427387904 := by nlinarith
  have hb1' : m * (factor / 4294967296) < 18446744073709551616 := by omega
  refine ⟨hb0, hb1', ?_⟩
  rw [Nat.mod_eq_of_lt hb0, Nat.mod_eq_of_lt hb1']
  have h3 : m * (factor % 4294967296) / 4294967296 < 4294967296 :=
    Nat.div_lt_of_lt_mul (by omega)
  omega

/-- C11. The split 32x32->64 multiply emulates the wide multiply exactly: for every
`m < 2^32`, every valid table index and every shift `j` with `32 <= j <= 95`,
`mulPow5divPow2(m, i, j)` is `floor(m * POW5_SPLIT[i] / 2^j) mod 2^32` and
`mulPow5InvDivPow2(m, q, j)` is `floor(m * POW5_INV_SPLIT[q] / 2^j) mod 2^32`, the products
being exact integers; neither partial product nor the intermediate sum
`(bits0 >> 32) + bits1` overflows 64 bits. -/
theorem split_multiply (m i : Nat) (j : Int) (factor : Nat) (hm : m < 4294967296)
    (hj : 32 ≤ j) (hj2 : j ≤ 95) :
    (POW5_SPLIT[i]? = some factor →
      mulPow5divPow2 m i j = .ok (m * factor / 2 ^ j.toNat % 4294967296) ∧
      m * (factor &&& 0xffffffff) < 18446744073709551616 ∧
      m * (factor >>> 32) < 18446744073709551616 ∧
      (((m * (factor &&& 0xffffffff)) % 18446744073709551616) >>> 32)
        + (m * (factor >>> 32)) % 18446744073709551616 < 18446744073709551616) ∧
    (POW5_INV_SPLIT[i]? = some factor →
      mulPow5InvDivPow2 m i j = .ok (m * factor / 2 ^ j.toNat % 4294967296) ∧
      m * (factor &&& 0xffffffff) < 18446744073709551616 ∧
      m * (factor >>> 32) < 18446744073709551616 ∧
      (((m * (factor &&& 0xffffffff)) % 18446744073709551616) >>> 32)
        + (m * (factor >>> 32)) % 18446744073709551616 < 18446744073709551616) := by
  constructor
  · intro h
    obtain ⟨hi, hx⟩ := table_entry _ _ _ h
    have h47 : POW5_SPLIT.length = 47 := by rfl
    have hf : factor < 4611686018427387904 := by
      have := (pow5_split_lt i (by omega)).1
      rw [hx] at this; omega
    refine ⟨?_, split_sum_lt m factor hm hf⟩
    simp only [mulPow5divPow2, tableGet, h]
    exact mulShift_eq m factor j hm hf hj (by omega)
  · intro h
    obtain ⟨hi, hx⟩ := table_entry _ _ _ h
    have h31 : POW5_INV_SPLIT.length = 31 := by rfl
    have hf : factor < 4611686018427387904 := by
      have := pow5_inv_split_lt i (by omega)
      rw [hx] at this; omega
    refine ⟨?_, split_sum_lt m factor hm hf⟩
    simp only [mulPow5InvDivPow2, tableGet, h]
    exact mulShift_eq m factor j hm hf hj (by omega)

/-- Witness for C11: the theorem at the largest 32-bit multiplier, the last entry of
`POW5_SPLIT` and the largest shift. -/
theorem split_multiply_witness :
    (4294967295 < 4294967296 ∧ (32 : Int) ≤ 95 ∧ (95 : Int) ≤ 95 ∧
      POW5_SPLIT[46]? = some 2019483917365790221) ∧
    mulPow5divPow2 4294967295 46 95
      = .ok (4294967295 * 2019483917365790221 / 2 ^ (95 : Int).toNat % 4294967296) :=
  ⟨⟨by decide, by decide, by decide, by rfl⟩,
    ((split_multiply 4294967295 46 95 2019483917365790221 (by decide) (by decide)
      (by decide)).1 (by rfl)).1⟩

/-- C15. The constant tables hold exactly their defining fixed-point values: for every
`q <= 30`, `POW5_INV_SPLIT[q] = floor(2^(59 + pow5bits(q) - 1) / 5^q) + 1`, and for every
`i <= 46`, `POW5_SPLIT[i] = floor(5^i * 2^61 / 2^pow5bits(i))`, which lies in `[2^60, 2^61)`. -/
theorem table_values :
    POW5_INV_SPLIT.length = 31 ∧ POW5_SPLIT.length = 47 ∧
    (∀ q : Nat, q < 31 → POW5_INV_SPLIT[q]? =
      some (2 ^ (POW5_INV_BITCOUNT + pow5bits (Int.ofNat q) - 1) / 5 ^ q + 1)) ∧
    (∀ i : Nat, i < 47 → POW5_SPLIT[i]? =
      some (5 ^ i * 2 ^ POW5_BITCOUNT / 2 ^ pow5bits (Int.ofNat i))) ∧
    (∀ i < 47, 2 ^ 60 ≤ POW5_SPLIT.getD i 0 ∧ POW5_SPLIT.getD i 0 < 2 ^ 61) := by
  refine ⟨by rfl, by rfl, by decide!, by decide!, by decide!⟩

/-- Witness for C15: the last entries of both tables. -/
theorem table_values_witness :
    (30 < 31 ∧ 46 < 47) ∧
    POW5_INV_SPLIT[30]? =
      some (2 ^ (POW5_INV_BITCOUNT + pow5bits (Int.ofNat 30) - 1) / 5 ^ 30 + 1) ∧
    POW5_SPLIT[46]? = some (5 ^ 46 * 2 ^ POW5_BITCOUNT / 2 ^ pow5bits (Int.ofNat 46)) :=
  ⟨⟨by decide, by decide⟩, table_values.2.2.1 30 (by decide),
    table_values.2.2.2.1 46 (by decide)⟩

theorem pow5bits_bounds : ∀ e : Nat, e < 47 →
    1 ≤ pow5bits (Int.ofNat e) ∧ 2 ^ (pow5bits (Int.ofNat e) - 1) ≤ 5 ^ e ∧
    5 ^ e < 2 ^ pow5bits (Int.ofNat e) ∧
    (1 ≤ e → 2 ^ (pow5bits (Int.ofNat e) - 1) < 5 ^ e) := by
  decide!

/-- C18. On the range used, `pow5bits` is the bit length of `5^e`: `pow5bits(0) = 1`, and for
`0 <= e <= 46` it equals `log2(5^e) + 1`; for `1 <= e <= 46` it is the unique `b` with
`2^(b-1) < 5^e < 2^b`, that is the ceiling of `e * log2(5)`. -/
theorem pow5bits_bit_length :
    pow5bits 0 = 1 ∧
    (∀ e : Nat, e < 47 → pow5bits (Int.ofNat e) = Nat.log2 (5 ^ e) + 1) ∧
    (∀ e : Nat, e < 47 → 1 ≤ e →
      2 ^ (pow5bits (Int.ofNat e) - 1) < 5 ^ e ∧ 5 ^ e < 2 ^ pow5bits (Int.ofNat e)) ∧
    (∀ e : Nat, e < 47 → 1 ≤ e → ∀ b : Nat, 2 ^ (b - 1) < 5 ^ e → 5 ^ e < 2 ^ b →
      b = pow5bits (Int.ofNat e)) := by
  refine ⟨by decide, ?_, ?_, ?_⟩
  · intro e he
    obtain ⟨g0, g1, g2, -⟩ := pow5bits_bounds e he
    have hne : 5 ^ e ≠ 0 := Nat.pos_iff_ne_zero.mp (Nat.pow_pos (by norm_num))
    have a1 : pow5bits (Int.ofNat e) - 1 ≤ Nat.log2 (5 ^ e) := (Nat.le_log2 hne).mpr g1
    have a2 : Nat.log2 (5 ^ e) < pow5bits (Int.ofNat e) := (Nat.log2_lt hne).mpr g2
    omega
  · intro e he h1
    obtain ⟨-, -, g2, g3⟩ := pow5bits_bounds e he
    exact ⟨g3 h1, g2⟩
  · intro e he h1 b hb1 hb2
    obtain ⟨g0, -, g2, g3⟩ := pow5bits_bounds e he
    have a1 : 2 ^ (b - 1) < 2 ^ pow5bits (Int.ofNat e) := lt_trans hb1 g2
    have a2 : 2 ^ (pow5bits (Int.ofNat e) - 1) < 2 ^ b := lt_trans (g3 h1) hb2
    rw [Nat.pow_lt_pow_iff_right (by norm_num)] at a1 a2
    have hbpos : 0 < b := by
      by_contra h0
      have hb0 : b = 0 := by omega
      rw [hb0] at hb2
      have : 1 ≤ 5 ^ e := Nat.pow_pos (by norm_num)
      simp at hb2
    omega

/-- Witness for C18 at the largest exponent used, `e = 46`: `5^46` has 107 bits. -/
theorem pow5bits_bit_length_witness :
    (46 < 47 ∧ 1 ≤ 46) ∧ pow5bits (Int.ofNat 46) = 107 ∧
    pow5bits (Int.ofNat 46) = Nat.log2 (5 ^ 46) + 1 ∧
    2 ^ (pow5bits (Int.ofNat 46) - 1) < 5 ^ 46 ∧ 5 ^ 46 < 2 ^ pow5bits (Int.ofNat 46) :=
  ⟨⟨by decide, by decide⟩, by decide, pow5bits_bit_length.2.1 46 (by decide),
    pow5bits_bit_length.2.2.1 46 (by decide) (by decide)⟩

theorem pow5Factor_zero (fuel : Nat) (hfuel : 1 ≤ fuel) : pow5Factor fuel 0 = .ok 0 := by
  obtain ⟨n, rfl⟩ : ∃ n, fuel = n + 1 := ⟨fuel - 1, by omega⟩
  simp [pow5Factor, pow5FactorLoop]

/-- C19. The function `pow5Factor` computes the 5-adic valuation: with 14 units of fuel the
loop ends for every 32-bit `v`; for `0 < v < 2^32` the result `k` satisfies `5^k` divides `v`
and `5^(k+1)` does not, so it is the largest such exponent (the multiplicity of 5 in `v`);
and `pow5Factor(0) = 0`. -/
theorem pow5Factor_valuation (fuel v : Nat) (hfuel : 14 ≤ fuel) (hv : v < 4294967296) :
    (∃ k, pow5Factor fuel v = .ok k) ∧
    (0 < v → ∃ k, pow5Factor fuel v = .ok k ∧ 5 ^ k ∣ v ∧ ¬ 5 ^ (k + 1) ∣ v ∧
      (∀ j, 5 ^ j ∣ v → j ≤ k) ∧ k = padicValNat 5 v) ∧
    pow5Factor fuel 0 = .ok 0 := by
  have hz := pow5Factor_zero fuel (by omega)
  refine ⟨?_, ?_, hz⟩
  · rcases Nat.eq_zero_or_pos v with h0 | h0
    · exact ⟨0, by rw [h0]; exact hz⟩
    · obtain ⟨k, hk, -⟩ := pow5Factor_spec fuel v hfuel h0 hv
      exact ⟨k, hk⟩
  · intro h0
    obtain ⟨k, hk, -, hd, hnd⟩ := pow5Factor_spec fuel v hfuel h0 hv
    have hmax : ∀ j, 5 ^ j ∣ v → j ≤ k := fun j hj => (pow5_dvd_iff k j v hd hnd).mp hj
    refine ⟨k, hk, hd, hnd, hmax, ?_⟩
    haveI : Fact (Nat.Prime 5) := ⟨by norm_num⟩
    have h1 : k ≤ padicValNat 5 v := (padicValNat_dvd_iff_le (by omega)).mp hd
    have h2 : padicValNat 5 v ≤ k := hmax _ pow_padicValNat_dvd
    omega

/-- Witness for C19 at `v = 4000000000 = 2^11 * 5^9`. -/
theorem pow5Factor_valuation_witness :
    (14 ≤ 14 ∧ 4000000000 < 4294967296) ∧ pow5Factor 14 4000000000 = .ok 9 ∧
    ∃ k, pow5Factor 14 4000000000 = .ok k ∧ 5 ^ k ∣ 4000000000 ∧ ¬ 5 ^ (k + 1) ∣ 4000000000 ∧
      (∀ j, 5 ^ j ∣ 4000000000 → j ≤ k) ∧ k = padicValNat 5 4000000000 :=
  ⟨⟨by decide, by decide⟩, by decide,
    (pow5Factor_valuation 14 4000000000 (by decide) (by decide)).2.1 (by decide)⟩

/-- C20. The function `decimalLength` counts decimal digits: for every `v < 2^32` the result
`n` satisfies `1 <= n <= 10`, `v < 10^n`, and `10^(n-1) <= v` when `v >= 1`; and
`decimalLength(0) = 1`. -/
theorem decimalLength_digits (v : Nat) (hv : v < 4294967296) :
    1 ≤ decimalLength v ∧ decimalLength v ≤ 10 ∧ v < 10 ^ decimalLength v ∧
    (1 ≤ v → 10 ^ (decimalLength v - 1) ≤ v) ∧ decimalLength 0 = 1 := by
  have hr := decimalLength_range v
  refine ⟨hr.1, hr.2, decimalLength_lt v (by norm_num; omega), decimalLength_le v, by decide⟩

/-- Witness for C20 at the largest 32-bit value. -/
theorem decimalLength_digits_witness :
    4294967295 < 4294967296 ∧ decimalLength 4294967295 = 10 ∧
    4294967295 < 10 ^ decimalLength 4294967295 :=
  ⟨by decide, by decide, (decimalLength_digits 4294967295 (by decide)).2.2.1⟩

/-! ## The inclusivity correction -/

/-- Setting bit 31 of a pattern below `2^31` sets the sign and keeps both other fields. -/
theorem decode_set_sign (b : Nat) (hb : b < 2147483648) :
    (decode b).sign = false ∧ (decode (b + 2147483648)).sign = true ∧
    (decode (b + 2147483648)).ieeeMantissa = (decode b).ieeeMantissa ∧
    (decode (b + 2147483648)).ieeeExponent = (decode b).ieeeExponent := by
  refine ⟨?_, ?_, ?_, ?_⟩
  · rw [decode_sign]; simp; omega
  · rw [decode_sign]; simp; omega
  · rw [decode_mantissa, decode_mantissa]; omega
  · rw [decode_exponent, decode_exponent]; omega

/-- The digit search reads the mantissa and exponent fields only. -/
theorem shortest_sign_irrelevant (fuel : Nat) (f g : Fields)
    (hm : g.ieeeMantissa = f.ieeeMantissa) (he : g.ieeeExponent = f.ieeeExponent) :
    shortest fuel g = shortest fuel f := by
  have h1 : g.e2 = f.e2 := by unfold Fields.e2; rw [he]
  have h2 : g.m2 = f.m2 := by unfold Fields.m2; rw [he, hm]
  have h3 : g.mp = f.mp := by unfold Fields.mp; rw [h2]
  have h4 : g.mm = f.mm := by unfold Fields.mm; rw [h2, he]
  have h5 : g.acceptBounds = f.acceptBounds := by unfold Fields.acceptBounds; rw [h2]
  unfold shortest
  rw [h1, h3, h4, h5]

theorem render_sign (d : Decimal) : render true d = '-'.toNat :: render false d := by
  simp [render]

/-- C17. Sign symmetry: for every pattern `b` below `2^31` that is not a NaN, with at least 14
units of fuel and a buffer of at least 16 bytes, the string written for `b` with the sign bit
set is the character `-` followed by the string written for `b`; the digit search returns the
same decimal (digits, length and exponent) for both patterns. -/
theorem sign_symmetry (fuel b : Nat) (result : List Nat) (hfuel : 14 ≤ fuel)
    (hb : b < 2147483648) (hlen : 16 ≤ result.length)
    (hnan : ¬ (b / 8388608 % 256 = 255 ∧ b % 8388608 ≠ 0)) :
    (∃ r0 r1, f2s_buffered fuel b result = .ok r0 ∧
      f2s_buffered fuel (b + 2147483648) result = .ok r1 ∧
      cbytes r1 = '-'.toNat :: cbytes r0) ∧
    shortest fuel (decode (b + 2147483648)) = shortest fuel (decode b) := by
  obtain ⟨hs0, hs1, hm, he⟩ := decode_set_sign b hb
  have hsh := shortest_sign_irrelevant fuel (decode b) (decode (b + 2147483648)) hm he
  refine ⟨?_, hsh⟩
  have hx := decode_exponent b
  have hmn := decode_mantissa b
  by_cases hsp : (decode b).ieeeExponent = 255 ∨
      ((decode b).ieeeExponent = 0 ∧ (decode b).ieeeMantissa = 0)
  · have hsp1 : (decode (b + 2147483648)).ieeeExponent = 255 ∨
        ((decode (b + 2147483648)).ieeeExponent = 0 ∧
          (decode (b + 2147483648)).ieeeMantissa = 0) := by
      rw [he, hm]; exact hsp
    obtain ⟨r0, hrun0, -, hc0⟩ := f2s_buffered_special fuel b result hlen hsp
    obtain ⟨r1, hrun1, -, hc1⟩ := f2s_buffered_special fuel (b + 2147483648) result hlen hsp1
    refine ⟨r0, r1, hrun0, hrun1, ?_⟩
    rw [hc0, hc1, he, hm, hs0, hs1]
    by_cases h255 : (decode b).ieeeExponent = 255
    · have hz : (decode b).ieeeMantissa = 0 := by
        by_contra hne
        exact hnan ⟨by omega, by omega⟩
      simp only [h255, hz]
      decide
    · simp only [h255, if_false, if_true]
      decide
  · have hf : (decode b).FiniteNonzero := by
      apply finiteNonzero_of_fields
      · intro h; exact hsp (Or.inl h)
      · intro h; exact hsp (Or.inr h)
    have hf1 : (decode (b + 2147483648)).FiniteNonzero := by
      apply finiteNonzero_of_fields
      · rw [he]; intro h; exact hsp (Or.inl h)
      · rw [he, hm]; intro h; exact hsp (Or.inr h)
    obtain ⟨r, res0, hsh0, hrun0, -, hc0, -⟩ := f2s_buffered_finite fuel hfuel b result hlen hf
    obtain ⟨r', res1, hsh1, hrun1, -, hc1, -⟩ :=
      f2s_buffered_finite fuel hfuel (b + 2147483648) result hlen hf1
    refine ⟨res0, res1, hrun0, hrun1, ?_⟩
    rw [hsh, hsh0] at hsh1
    have hd : decimalOf (decode b) r = decimalOf (decode (b + 2147483648)) r' := by
      injection hsh1
    rw [hc0, hc1, ← hd, hs0, hs1]
    exact render_sign _

/-- Witness for C17 at the pattern `0x3f800000` of `1.0f`: `0xbf800000` prints `-1E0`. -/
theorem sign_symmetry_witness :
    (14 ≤ 14 ∧ 1065353216 < 2147483648 ∧ 16 ≤ (List.replicate 16 0).length ∧
      ¬ (1065353216 / 8388608 % 256 = 255 ∧ 1065353216 % 8388608 ≠ 0)) ∧
    ∃ r0 r1, f2s_buffered 14 1065353216 (List.replicate 16 0) = .ok r0 ∧
      f2s_buffered 14 (1065353216 + 2147483648) (List.replicate 16 0) = .ok r1 ∧
      cbytes r1 = '-'.toNat :: cbytes r0 :=
  ⟨⟨by decide, by decide, by decide, by decide⟩,
    (sign_symmetry 14 1065353216 (List.replicate 16 0) (by decide) (by decide) (by decide)
      (by decide)).1⟩

/-! ## The boundaries as halfway points -/

theorem two_zpow_add (e k : Int) (n : Nat) (h : k = e + n) :
    (2 : ℚ) ^ k = 2 ^ n * (2 : ℚ) ^ e := by
  rw [h, zpow_add₀ (by norm_num), zpow_natCast, mul_comm]

/-- The value of a pattern in terms of its fields, on the scale `2^e2` of the code. -/
theorem val_fields (E M : Nat) (hE : E < 256) (hM : M < 8388608) :
    val (E * 8388608 + M) =
      4 * ((if E = 0 then M else 8388608 + M : Nat) : ℚ) *
        (2 : ℚ) ^ (if E = 0 then (-151 : Int) else (E : Int) - 152) := by
  have h1 : (E * 8388608 + M) / 8388608 % 256 = E := by omega
  have h2 : (E * 8388608 + M) % 8388608 = M := by omega
  unfold val
  rw [h1, h2]
  by_cases h : E = 0
  · rw [if_pos h, if_pos h, if_pos h, two_zpow_add (-151) (-149) 2 (by norm_num)]
    ring
  · rw [if_neg h, if_neg h, if_neg h,
      two_zpow_add ((E : Int) - 152) ((E : Int) - 150) 2 (by push_cast; ring)]
    ring

/-- The fields, `m2` and `e2` of a positive finite pattern. -/
theorem fields_of_pattern (b : Nat) (h0 : 0 < b) (hb : b < 2139095040) :
    (decode b).FiniteNonzero ∧ (decode b).ieeeExponent = b / 8388608 ∧
    (decode b).ieeeMantissa = b % 8388608 ∧
    (decode b).m2 = (if b / 8388608 = 0 then b % 8388608 else 8388608 + b % 8388608) ∧
    (decode b).e2 = (if b / 8388608 = 0 then (-151 : Int) else ((b / 8388608 : Nat) : Int) - 152)
    := by
  have hx : (decode b).ieeeExponent = b / 8388608 := by rw [decode_exponent]; omega
  have hmn := decode_mantissa b
  have hf : (decode b).FiniteNonzero := by
    apply finiteNonzero_of_fields
    · omega
    · rw [hx, hmn]; omega
  refine ⟨hf, hx, hmn, ?_, ?_⟩
  · rw [m2_eq _ hf.2.1, hx, hmn]
  · rw [e2_eq_e2Of, e2Of_eq _ (by omega), hx]

theorem val_succ (E M : Nat) (hE : E < 255) (hM : M < 8388608) :
    val (E * 8388608 + M + 1) =
      (4 * ((if E = 0 then M else 8388608 + M : Nat) : ℚ) + 4) *
        (2 : ℚ) ^ (if E = 0 then (-151 : Int) else (E : Int) - 152) := by
  by_cases hc : M + 1 < 8388608
  · have := val_fields E (M + 1) (by omega) hc
    rw [show E * 8388608 + (M + 1) = E * 8388608 + M + 1 by ring] at this
    rw [this]
    by_cases h : E = 0
    · simp only [if_pos h]; push_cast; ring
    · simp only [if_neg h]; push_cast; ring
  · have hM1 : M = 8388607 := by omega
    have := val_fields (E + 1) 0 (by omega) (by norm_num)
    rw [show (E + 1) * 8388608 + 0 = E * 8388608 + M + 1 by rw [hM1]; ring] at this
    rw [this, if_neg (by omega), if_neg (by omega), hM1]
    by_cases h : E = 0
    · simp only [if_pos h]
      rw [h]; norm_num
    · simp only [if_neg h]
      rw [two_zpow_add ((E : Int) - 152) (((E + 1 : Nat) : Int) - 152) 1 (by push_cast; ring)]
      push_cast; ring

theorem val_pred (E M : Nat) (hE : E < 255) (hM : M < 8388608) (hpos : 0 < E * 8388608 + M) :
    val (E * 8388608 + M - 1) =
      (4 * ((if E = 0 then M else 8388608 + M : Nat) : ℚ)
          - (if M = 0 ∧ 1 < E then 2 else 4)) *
        (2 : ℚ) ^ (if E = 0 then (-151 : Int) else (E : Int) - 152) := by
  by_cases hc : 0 < M
  · obtain ⟨M', rfl⟩ : ∃ M', M = M' + 1 := ⟨M - 1, by omega⟩
    have := val_fields E M' (by omega) (by omega)
    have hne : ¬ (M' + 1 = 0 ∧ 1 < E) := by omega
    rw [show E * 8388608 + (M' + 1) - 1 = E * 8388608 + M' by omega, this, if_neg hne]
    by_cases h : E = 0
    · simp only [if_pos h]; push_cast; ring
    · simp only [if_neg h]; push_cast; ring
  · have hM0 : M = 0 := by omega
    subst hM0
    obtain ⟨E', rfl⟩ : ∃ E', E = E' + 1 := ⟨E - 1, by omega⟩
    have := val_fields E' 8388607 (by omega) (by norm_num)
    have hne : ¬ (E' + 1 = 0) := by omega
    rw [show (E' + 1) * 8388608 + 0 - 1 = E' * 8388608 + 8388607 by omega, this,
      if_neg hne, if_neg hne]
    by_cases h : E' = 0
    · have h1 : ¬ (0 = 0 ∧ 1 < E' + 1) := by omega
      rw [if_pos h, if_pos h, if_neg h1, h]
      norm_num
    · have h1 : 0 = 0 ∧ 1 < E' + 1 := ⟨rfl, by omega⟩
      rw [if_neg h, if_neg h, if_pos h1,
        two_zpow_add ((E' : Int) - 152) (((E' + 1 : Nat) : Int) - 152) 1 (by push_cast; ring)]
      push_cast; ring

/-- C12. The boundaries are the exact halfway points to the adjacent floats.  With `val` the
exact value of a non-negative pattern (`val(0) = 0`, `val(0x7f800000) = 2^128`), for every
pattern `0 < b < 0x7f800000`: `val(b) = 4 * m2 * 2^e2`, `mp * 2^e2 = (val(b) + val(b+1)) / 2`
and `mm * 2^e2 = (val(b-1) + val(b)) / 2`; and `mm = 4*m2 - 1` exactly when `m2 = 2^23` and
the exponent field is above 1, `mm = 4*m2 - 2` otherwise. -/
theorem boundaries_halfway (b : Nat) (h0 : 0 < b) (hb : b < 2139095040) :
    val 0 = 0 ∧ val 2139095040 = (2 : ℚ) ^ (128 : Nat) ∧
    val b = 4 * ((decode b).m2 : ℚ) * (2 : ℚ) ^ (decode b).e2 ∧
    ((decode b).mp : ℚ) * (2 : ℚ) ^ (decode b).e2 = (val b + val (b + 1)) / 2 ∧
    ((decode b).mm : ℚ) * (2 : ℚ) ^ (decode b).e2 = (val (b - 1) + val b) / 2 ∧
    ((decode b).mm = 4 * (decode b).m2 - 1 ↔
      ((decode b).m2 = 8388608 ∧ 1 < (decode b).ieeeExponent)) ∧
    (¬ ((decode b).m2 = 8388608 ∧ 1 < (decode b).ieeeExponent) →
      (decode b).mm = 4 * (decode b).m2 - 2) := by
  obtain ⟨hf, hx, hmn, hm2, he2⟩ := fields_of_pattern b h0 hb
  have hE : b / 8388608 < 255 := by omega
  have hM : b % 8388608 < 8388608 := Nat.mod_lt _ (by norm_num)
  have hbEM : b / 8388608 * 8388608 + b % 8388608 = b := Nat.div_add_mod' b 8388608
  have hvb := val_fields (b / 8388608) (b % 8388608) (by omega) hM
  have hvs := val_succ (b / 8388608) (b % 8388608) hE hM
  have hvp := val_pred (b / 8388608) (b % 8388608) hE hM (by omega)
  rw [hbEM, ← hm2, ← he2] at hvb hvs hvp
  have hm2pos := m2_pos_lt _ hf
  have hmp : ((decode b).mp : ℚ) = 4 * ((decode b).m2 : ℚ) + 2 := by
    rw [mp_eq _ hf]; push_cast; ring
  have hcond : (b % 8388608 = 0 ∧ 1 < b / 8388608) ↔
      ((decode b).m2 = 8388608 ∧ 1 < (decode b).ieeeExponent) := by
    rw [hm2, hx]
    split <;> omega
  have hmme := mm_eq _ hf
  refine ⟨?_, ?_, hvb, ?_, ?_, ?_, ?_⟩
  · simp [val]
  · unfold val
    norm_num
  · rw [hvb, hvs, hmp]; ring
  · rw [hvb, hvp]
    by_cases hc : (decode b).m2 = 8388608 ∧ 1 < (decode b).ieeeExponent
    · rw [if_pos (hcond.mpr hc)]
      rw [if_neg (by omega)] at hmme
      have : ((decode b).mm : ℚ) = 4 * ((decode b).m2 : ℚ) - 1 := by
        rw [hmme, Nat.cast_sub (by omega)]; push_cast; ring
      rw [this]; ring
    · rw [if_neg (fun h => hc (hcond.mp h))]
      rw [if_pos (by omega)] at hmme
      have : ((decode b).mm : ℚ) = 4 * ((decode b).m2 : ℚ) - 2 := by
        rw [hmme, Nat.cast_sub (by omega)]; push_cast; ring
      rw [this]; ring
  · rw [hmme]
    split <;> omega
  · intro hc
    rw [hmme, if_pos (by omega)]

/-- Witness for C12 at the pattern `0x00800000` of the smallest normal float, whose lower
neighbour is the largest subnormal. -/
theorem boundaries_halfway_witness :
    (0 < 8388608 ∧ 8388608 < 2139095040) ∧
    ((decode 8388608).mp : ℚ) * (2 : ℚ) ^ (decode 8388608).e2
      = (val 8388608 + val (8388608 + 1)) / 2 ∧
    ((decode 8388608).mm : ℚ) * (2 : ℚ) ^ (decode 8388608).e2
      = (val (8388608 - 1) + val 8388608) / 2 :=
  ⟨⟨by decide, by decide⟩,
    (boundaries_halfway 8388608 (by decide) (by decide)).2.2.2.1,
    (boundaries_halfway 8388608 (by decide) (by decide)).2.2.2.2.1⟩

/-! ## The invariant of the digit search -/

theorem digitHeads1_spec (VP VM : Nat) : ∀ (fuel n : Nat) (s x : Search),
    digitLoop1 fuel s = .ok x → s.vp < 10 ^ n → s.removed + n < 4294967296 →
    Stripped VP VM s →
    ∃ t, digitHeads1 fuel s = .ok t ∧ t.head? = some s ∧ t.getLast? = some x ∧
      ∀ y ∈ t, Stripped VP VM y ∧ (y = s ∨ y.vm < y.vp)
  | 0, _, s, x, h, _, _, _ => by simp [digitLoop1] at h
  | fuel + 1, n, s, x, h, hn, hr, hs => by
    unfold digitLoop1 at h
    unfold digitHeads1
    by_cases hc : s.vp / 10 > s.vm / 10
    · rw [if_pos hc] at h
      rw [if_pos hc]
      obtain ⟨m, rfl⟩ : ∃ m, n = m + 1 := by
        rcases n with _ | m
        · simp at hn; omega
        · exact ⟨m, rfl⟩
      have hn' : s.vp / 10 < 10 ^ m := by
        rw [Nat.div_lt_iff_lt_mul (by norm_num)]
        rw [pow_succ] at hn; exact hn
      have hrem : (s.removed + 1) % 4294967296 = s.removed + 1 := Nat.mod_eq_of_lt (by omega)
      have hs' : Stripped VP VM
          { vp := s.vp / 10, vm := s.vm / 10,
            vmIsTrailingZeros := s.vmIsTrailingZeros && (s.vm % 10 == 0),
            removed := (s.removed + 1) % 4294967296 } := by
        unfold Stripped
        simp only [hrem]
        rw [hs.1, hs.2, div_pow_succ', div_pow_succ']
        exact ⟨rfl, rfl⟩
      obtain ⟨t, ht, hhead, hlast, hall⟩ := digitHeads1_spec VP VM fuel m _ x h hn'
        (by simp only [hrem]; omega) hs'
      refine ⟨s :: t, ?_, rfl, ?_, ?_⟩
      · simp only [ht, bind, Except.bind, pure, Except.pure]
      · cases t with
        | nil => simp at hhead
        | cons a t => rw [List.getLast?_cons_cons]; exact hlast
      · intro y hy
        rcases List.mem_cons.mp hy with rfl | hy
        · exact ⟨hs, Or.inl rfl⟩
        · obtain ⟨h1, h2⟩ := hall y hy
          refine ⟨h1, Or.inr ?_⟩
          rcases h2 with rfl | h2
          · exact hc
          · exact h2
    · rw [if_neg hc] at h
      rw [if_neg hc]
      have hx : s = x := by injection h
      subst hx
      refine ⟨[s], rfl, rfl, rfl, ?_⟩
      intro y hy
      rw [List.mem_singleton] at hy
      subst hy
      exact ⟨hs, Or.inl rfl⟩

theorem digitHeads2_spec (VP VM : Nat) : ∀ (fuel n : Nat) (s x : Search),
    digitLoop2 fuel s = .ok x → 0 < s.vm → s.vm < 10 ^ n → s.removed + n < 4294967296 →
    Stripped VP VM s →
    ∃ t, digitHeads2 fuel s = .ok t ∧ t.head? = some s ∧ t.getLast? = some x ∧
      ∀ y ∈ t, Stripped VP VM y
  | 0, _, s, x, h, _, _, _, _ => by simp [digitLoop2] at h
  | fuel + 1, n, s, x, h, h0, hn, hr, hs => by
    unfold digitLoop2 at h
    unfold digitHeads2
    by_cases hc : s.vm % 10 = 0
    · rw [if_pos hc] at h
      rw [if_pos hc]
      obtain ⟨m, rfl⟩ : ∃ m, n = m + 1 := by
        rcases n with _ | m
        · simp at hn; omega
        · exact ⟨m, rfl⟩
      have hn' : s.vm / 10 < 10 ^ m := by
        rw [Nat.div_lt_iff_lt_mul (by norm_num)]
        rw [pow_succ] at hn; exact hn
      have h0' : 0 < s.vm / 10 := by omega
      have hrem : (s.removed + 1) % 4294967296 = s.removed + 1 := Nat.mod_eq_of_lt (by omega)
      have hs' : Stripped VP VM
          { vp := s.vp / 10, vm := s.vm / 10, vmIsTrailingZeros := s.vmIsTrailingZeros,
            removed := (s.removed + 1) % 4294967296 } := by
        unfold Stripped
        simp only [hrem]
        rw [hs.1, hs.2, div_pow_succ', div_pow_succ']
        exact ⟨rfl, rfl⟩
      obtain ⟨t, ht, hhead, hlast, hall⟩ := digitHeads2_spec VP VM fuel m _ x h h0' hn'
        (by simp only [hrem]; omega) hs'
      refine ⟨s :: t, ?_, rfl, ?_, ?_⟩
      · simp only [ht, bind, Except.bind, pure, Except.pure]
      · cases t with
        | nil => simp at hhead
        | cons a t => rw [List.getLast?_cons_cons]; exact hlast
      · intro y hy
        rcases List.mem_cons.mp hy with rfl | hy
        · exact hs
        · exact hall y hy
    · rw [if_neg hc] at h
      rw [if_neg hc]
      have hx : s = x := by injection h
      subst hx
      refine ⟨[s], rfl, rfl, rfl, ?_⟩
      intro y hy
      rw [List.mem_singleton] at hy
      subst hy
      exact hs

/-- The scaled value lies between the two scaled bounds, strictly below the upper one. -/
theorem vr_between (f : Fields) (hf : f.FiniteNonzero) :
    vmOf f ≤ vrOf f ∧ vrOf f + 1 ≤ vpOf f := by
  obtain ⟨hmm2, hmm3, hmm4, hmp⟩ := mm_lt_mp f hf
  have hmpe := mp_eq f hf
  obtain ⟨hB, hAB, -⟩ := scale_bounds f.ieeeExponent hf.1
  rw [← e2_eq_e2Of] at hB hAB
  unfold vmOf vrOf vpOf
  constructor
  · exact Nat.div_le_div_right (Nat.mul_le_mul_right _ (by omega))
  · have h3 : 4 * f.m2 * scaleNum f.e2 / scaleDen f.e2 + 2
        ≤ f.mp * scaleNum f.e2 / scaleDen f.e2 := by
      rw [Nat.le_div_iff_mul_le hB]
      have := Nat.div_mul_le_self (4 * f.m2 * scaleNum f.e2) (scaleDen f.e2)
      rw [hmpe]
      nlinarith
    split <;> omega

/-- The scaled value is the floor of the exact quotient `4 * m2 * 2^e2 / 10^e10`. -/
theorem vrOf_floor (f : Fields) (hf : f.FiniteNonzero) :
    Nat.floor (4 * (f.m2 : ℚ) * (2 : ℚ) ^ f.e2 / (10 : ℚ) ^ (e10Of f.e2)) = vrOf f := by
  obtain ⟨hB, -, -⟩ := scale_bounds f.ieeeExponent hf.1
  have hid := scale_identity f.ieeeExponent hf.1
  rw [← e2_eq_e2Of] at hB hid
  have hT : (10 : ℚ) ^ (e10Of f.e2) ≠ 0 := zpow_ne_zero _ (by norm_num)
  have : 4 * (f.m2 : ℚ) * (2 : ℚ) ^ f.e2 / (10 : ℚ) ^ (e10Of f.e2)
      = ((4 * f.m2 * scaleNum f.e2 : Nat) : ℚ) / ((scaleDen f.e2 : Nat) : ℚ) := by
    rw [hid]
    push_cast
    field_simp
    ring
  rw [this, Nat.floor_div_eq_div]
  rfl

/-- C14. Loop invariant of the digit search.  For every finite non-zero pattern, with `vr`
the floor of the exactly scaled value `4 * m2` (the result of the multiply-shift on `4 * m2`),
divided by 10 once per stripped digit: at every evaluation of a loop condition, that is before
and after every iteration of both loops, `vm <= vr <= vp`; moreover `vm < vp` at every such
point of the first loop and `vm <= vp` at every such point of the second loop.  The states
listed start with the scaled bounds and end with the result of the search. -/
theorem digit_search_invariant (fuel : Nat) (f : Fields) (hfuel : 14 ≤ fuel)
    (hf : f.FiniteNonzero) :
    ∃ sc vr t1 t2 s,
      scale fuel f.e2 f.mp f.mm f.acceptBounds = .ok sc ∧
      mulScaled f.e2 (4 * f.m2) = .ok vr ∧
      Nat.floor (4 * (f.m2 : ℚ) * (2 : ℚ) ^ f.e2 / (10 : ℚ) ^ sc.e10) = vr ∧
      searchHeads fuel sc f.acceptBounds = .ok (t1, t2) ∧
      search fuel sc f.acceptBounds = .ok s ∧
      t1.head? = some { vp := sc.vp, vm := sc.vm,
                        vmIsTrailingZeros := sc.vmIsTrailingZeros, removed := 0 } ∧
      (t1 ++ t2).getLast? = some s ∧
      (∀ y ∈ t1, y.vm ≤ vr / 10 ^ y.removed ∧ vr / 10 ^ y.removed ≤ y.vp ∧ y.vm < y.vp) ∧
      (∀ y ∈ t2, y.vm ≤ vr / 10 ^ y.removed ∧ vr / 10 ^ y.removed ≤ y.vp ∧ y.vm ≤ y.vp) := by
  obtain ⟨hvm0, hvmvp, hvplt⟩ := vm_lt_vp f hf
  obtain ⟨hvr1, hvr2⟩ := vr_between f hf
  have hm2 := m2_pos_lt f hf
  have hsc : scale fuel f.e2 f.mp f.mm f.acceptBounds = .ok
      { vp := vpOf f, vm := vmOf f, e10 := e10Of f.e2, vmIsTrailingZeros := tzOf f } :=
    scale_spec fuel hfuel f hf
  have hms := mulScaled_exact f.ieeeExponent hf.1 (4 * f.m2) (by omega)
  rw [← e2_eq_e2Of] at hms
  obtain ⟨k1, hk1, hrun1, hexit1, hiter1⟩ :=
    digitLoop1_spec 10 fuel (vpOf f) (vmOf f) (tzOf f) 0 (by norm_num; omega) (by omega)
      (by omega)
  rw [zero_add] at hrun1
  have hinit : Stripped (vpOf f) (vmOf f)
      { vp := vpOf f, vm := vmOf f, vmIsTrailingZeros := tzOf f, removed := 0 } := by
    simp [Stripped]
  have hmono : ∀ y : Search, Stripped (vpOf f) (vmOf f) y →
      y.vm ≤ vrOf f / 10 ^ y.removed ∧ vrOf f / 10 ^ y.removed ≤ y.vp ∧ y.vm ≤ y.vp := by
    intro y hy
    rw [hy.1, hy.2]
    exact ⟨Nat.div_le_div_right hvr1, Nat.div_le_div_right (by omega),
      Nat.div_le_div_right (by omega)⟩
  obtain ⟨t1, ht1, hhead1, hlast1, hall1⟩ := digitHeads1_spec (vpOf f) (vmOf f) fuel 10 _ _
    hrun1 (by simp only; norm_num; omega) (by simp only; omega) hinit
  have hinv1 : ∀ y ∈ t1, y.vm ≤ vrOf f / 10 ^ y.removed ∧ vrOf f / 10 ^ y.removed ≤ y.vp ∧
      y.vm < y.vp := by
    intro y hy
    obtain ⟨h1, h2⟩ := hall1 y hy
    obtain ⟨a1, a2, -⟩ := hmono y h1
    refine ⟨a1, a2, ?_⟩
    rcases h2 with rfl | h2
    · simp only; omega
    · exact h2
  have ht1ne : t1 ≠ [] := by
    intro h; rw [h] at hhead1; simp at hhead1
  by_cases hc : (tzOf f && decide (vmOf f % 10 ^ k1 = 0) && f.acceptBounds) = true
  · have hc' := hc
    simp only [Bool.and_eq_true, decide_eq_true_eq] at hc'
    obtain ⟨⟨hflag, hz1⟩, hacc⟩ := hc'
    have hvm1 : vmOf f / 10 ^ k1 * 10 ^ k1 = vmOf f := div_mul_pow_of_mod _ _ hz1
    have hvm1pos : 0 < vmOf f / 10 ^ k1 := by
      rcases Nat.eq_zero_or_pos (vmOf f / 10 ^ k1) with h | h
      · rw [h] at hvm1; omega
      · exact h
    have hvm1lt : vmOf f / 10 ^ k1 < 10 ^ 10 :=
      lt_of_le_of_lt (Nat.div_le_self _ _) (by norm_num; omega)
    obtain ⟨k2, hk2, hrun2, -, -⟩ := digitLoop2_spec 10 fuel (vpOf f / 10 ^ k1)
      (vmOf f / 10 ^ k1) (tzOf f && decide (vmOf f % 10 ^ k1 = 0)) k1 hvm1pos hvm1lt
      (by omega) (by omega)
    have hs1 : Stripped (vpOf f) (vmOf f)
        { vp := vpOf f / 10 ^ k1, vm := vmOf f / 10 ^ k1,
          vmIsTrailingZeros := tzOf f && decide (vmOf f % 10 ^ k1 = 0), removed := k1 } := by
      simp [Stripped]
    obtain ⟨t2, ht2, hhead2, hlast2, hall2⟩ := digitHeads2_spec (vpOf f) (vmOf f) fuel 10 _ _
      hrun2 hvm1pos hvm1lt (by simp only; omega) hs1
    have ht2ne : t2 ≠ [] := by
      intro h; rw [h] at hhead2; simp at hhead2
    refine ⟨_, _, t1, t2,
      { vp := vpOf f / 10 ^ k1 / 10 ^ k2, vm := vmOf f / 10 ^ k1 / 10 ^ k2,
        vmIsTrailingZeros := tzOf f && decide (vmOf f % 10 ^ k1 = 0), removed := k1 + k2 },
      hsc, hms, vrOf_floor f hf, ?_, ?_, hhead1, ?_, hinv1, ?_⟩
    · simp only [searchHeads, ht1, hrun1, bind, Except.bind, hc, if_true, ht2, pure,
        Except.pure]
    · simp only [search, hrun1, bind, Except.bind, hc, if_true]
      exact hrun2
    · rw [List.getLast?_append_of_ne_nil _ ht2ne]; exact hlast2
    · intro y hy
      exact hmono y (hall2 y hy)
  · refine ⟨_, _, t1, [],
      { vp := vpOf f / 10 ^ k1, vm := vmOf f / 10 ^ k1,
        vmIsTrailingZeros := tzOf f && decide (vmOf f % 10 ^ k1 = 0), removed := k1 },
      hsc, hms, vrOf_floor f hf, ?_, ?_, hhead1, ?_, hinv1, ?_⟩
    · simp only [searchHeads, ht1, hrun1, bind, Except.bind, hc, pure, Except.pure]
      rfl
    · simp only [search, hrun1, bind, Except.bind, hc]
      rfl
    · rw [List.append_nil]; exact hlast1
    · intro y hy
      simp at hy

/-- Witness for C14 at the pattern of `1.0f` (fields 0, 127, 0). -/
theorem digit_search_invariant_witness :
    (14 ≤ 14 ∧
      Fields.FiniteNonzero { sign := false, ieeeMantissa := 0, ieeeExponent := 127 }) ∧
    ∃ sc vr t1 t2,
      scale 14 (Fields.e2 { sign := false, ieeeMantissa := 0, ieeeExponent := 127 })
        (Fields.mp { sign := false, ieeeMantissa := 0, ieeeExponent := 127 })
        (Fields.mm { sign := false, ieeeMantissa := 0, ieeeExponent := 127 })
        (Fields.acceptBounds { sign := false, ieeeMantissa := 0, ieeeExponent := 127 })
          = .ok sc ∧
      searchHeads 14 sc
        (Fields.acceptBounds { sign := false, ieeeMantissa := 0, ieeeExponent := 127 })
          = .ok (t1, t2) ∧
      (∀ y ∈ t1, y.vm ≤ vr / 10 ^ y.removed ∧ vr / 10 ^ y.removed ≤ y.vp ∧ y.vm < y.vp) ∧
      (∀ y ∈ t2, y.vm ≤ vr / 10 ^ y.removed ∧ vr / 10 ^ y.removed ≤ y.vp ∧ y.vm ≤ y.vp) :=
  ⟨⟨by decide, by decide⟩,
    let ⟨sc, vr, t1, t2, _, h1, _, _, h4, _, _, _, h8, h9⟩ := digit_search_invariant 14
      { sign := false, ieeeMantissa := 0, ieeeExponent := 127 } (by decide) (by decide)
    ⟨sc, vr, t1, t2, h1, h4, h8, h9⟩⟩

/-! ## The footprint of the digit printer -/

theorem poke_frame (r r' : List Nat) (pos : Int) (c : Nat) (h : poke r pos c = .ok r') :
    r'.length = r.length ∧ ∀ k : Nat, (k : Int) ≠ pos → peek r' k = peek r k := by
  unfold poke at h
  split at h
  · rename_i hpos
    injection h with h
    subst h
    refine ⟨by simp, fun k hk => ?_⟩
    rw [peek_set _ _ _ _ (by omega), if_neg (by omega)]
  · cases h

theorem memcpy2_frame (r r' : List Nat) (pos : Int) (c : Nat)
    (h : memcpy2 r pos c = .ok r') :
    r'.length = r.length ∧
      ∀ k : Nat, (k : Int) ≠ pos → (k : Int) ≠ pos + 1 → peek r' k = peek r k := by
  unfold memcpy2 at h
  simp only [bind, Except.bind] at h
  split at h
  · cases h
  · split at h
    · cases h
    · split at h
      · cases h
      · rename_i r1 h1
        obtain ⟨l1, f1⟩ := poke_frame _ _ _ _ h1
        obtain ⟨l2, f2⟩ := poke_frame _ _ _ _ h
        exact ⟨by omega, fun k hk1 hk2 => by rw [f2 k hk2, f1 k hk1]⟩

theorem printLoop4_above (index : Int) (olength : Nat) : ∀ (fuel : Nat) (p p' : Printer),
    printLoop4 index olength fuel p = .ok p' →
    p.i ≤ p'.i ∧ p'.result.length = p.result.length ∧
    ∀ k : Nat, index + (olength : Int) - p.i < (k : Int) → peek p'.result k = peek p.result k
  | 0, p, p', h => by simp [printLoop4] at h
  | fuel + 1, p, p', h => by
    unfold printLoop4 at h
    split at h
    · simp only [bind, Except.bind] at h
      split at h
      · cases h
      · rename_i r1 h1
        split at h
        · cases h
        · rename_i r2 h2
          obtain ⟨l1, f1⟩ := memcpy2_frame _ _ _ _ h1
          obtain ⟨l2, f2⟩ := memcpy2_frame _ _ _ _ h2
          obtain ⟨hi, hl, hf⟩ := printLoop4_above index olength fuel _ p' h
          simp only at hi hl hf
          refine ⟨by omega, by omega, fun k hk => ?_⟩
          rw [hf k (by omega), f2 k (by omega) (by omega), f1 k (by omega) (by omega)]
    · injection h with h
      subst h
      exact ⟨le_refl _, rfl, fun _ _ => rfl⟩

theorem printLoop2_above (index : Int) (olength : Nat) : ∀ (fuel : Nat) (p p' : Printer),
    printLoop2 index olength fuel p = .ok p' →
    p.i ≤ p'.i ∧ p'.result.length = p.result.length ∧
    ∀ k : Nat, index + (olength : Int) - p.i < (k : Int) → peek p'.result k = peek p.result k
  | 0, p, p', h => by simp [printLoop2] at h
  | fuel + 1, p, p', h => by
    unfold printLoop2 at h
    split at h
    · simp only [bind, Except.bind] at h
      split at h
      · cases h
      · rename_i r1 h1
        obtain ⟨l1, f1⟩ := memcpy2_frame _ _ _ _ h1
        obtain ⟨hi, hl, hf⟩ := printLoop2_above index olength fuel _ p' h
        simp only at hi hl hf
        refine ⟨by omega, by omega, fun k hk => ?_⟩
        rw [hf k (by omega), f1 k (by omega) (by omega)]
    · injection h with h
      subst h
      exact ⟨le_refl _, rfl, fun _ _ => rfl⟩

set_option maxRecDepth 4000 in
/-- The digit printer of the table build stores nothing above position `index + olength`. -/
theorem printDigits_above (fuel : Nat) (buf r : List Nat) (index : Int) (olength output : Nat)
    (h : printDigits fuel buf index olength output = .ok r) :
    ∀ k : Nat, index + (olength : Int) < (k : Int) → peek r k = peek buf k := by
  unfold printDigits at h
  simp only [bind, Except.bind] at h
  split at h
  · cases h
  · rename_i p1 h1
    split at h
    · cases h
    · rename_i p2 h2
      obtain ⟨i1, -, f1⟩ := printLoop4_above _ _ _ _ _ h1
      obtain ⟨i2, -, f2⟩ := printLoop2_above _ _ _ _ _ h2
      simp only at i1 f1
      intro k hk
      have e1 : peek p2.result k = peek buf k := by
        rw [f2 k (by omega), f1 k (by omega)]
      split at h
      · split at h
        · cases h
        · split at h
          · cases h
          · rename_i ra ha
            split at h
            · cases h
            · obtain ⟨-, g1⟩ := poke_frame _ _ _ _ ha
              obtain ⟨-, g2⟩ := poke_frame _ _ _ _ h
              rw [g2 k (by omega), g1 k (by omega), e1]
      · obtain ⟨-, g2⟩ := poke_frame _ _ _ _ h
        rw [g2 k (by omega), e1]

set_option maxRecDepth 4000 in
/-- The digit printer of the table build leaves the place of the decimal point alone. -/
theorem printDigits_point (fuel : Nat) (hfuel : 4 ≤ fuel) (buf : List Nat)
    (idx olength output : Nat) (hlen : idx + olength < buf.length) (hol : 1 ≤ olength)
    (hol10 : olength ≤ 10) (hout : output < 10 ^ olength) :
    ∃ r, printDigits fuel buf (idx : Int) olength output = .ok r ∧
      peek r (idx + 1) = peek buf (idx + 1) := by
  have h10 : output < 10000 ^ 3 := by
    calc output < 10 ^ olength := hout
      _ ≤ 10 ^ 10 := Nat.pow_le_pow_right (by norm_num) hol10
      _ ≤ 10000 ^ 3 := by norm_num
  obtain ⟨r1, i1, hrun1, hlt1, hi1, hinv1⟩ := printLoop4_spec buf idx olength output hlen hout
    3 fuel buf 0 (by simpa using h10) (by omega) (by omega)
    ⟨rfl, fun _ _ => rfl, fun d hd => by omega⟩
  obtain ⟨r2, i2, hrun2, hlt2, hi2, hinv2⟩ := printLoop2_spec buf idx olength output hlen hout
    2 fuel r1 i1 (by norm_num; omega) (by omega) hi1 hinv1
  obtain ⟨hl, hfr, hdig⟩ := hinv2
  have hp : 0 < 10 ^ i2 := Nat.pow_pos (by norm_num)
  unfold printDigits
  have hrun1' : printLoop4 (idx : Int) olength fuel { result := buf, output := output, i := 0 }
      = .ok { result := r1, output := output / 10 ^ i1, i := ((i1 : Nat) : Int) } := by
    simpa using hrun1
  simp only [hrun1', hrun2, bind, Except.bind]
  generalize ho : output / 10 ^ i2 = o at *
  by_cases hc : o ≥ 10
  · rw [if_pos hc]
    have hol2 : i2 + 2 ≤ olength := by
      have h1 : 10 * 10 ^ i2 ≤ output := by
        rw [← ho, ge_iff_le, Nat.le_div_iff_mul_le hp] at hc; exact hc
      have h3 : 10 ^ (i2 + 1) < 10 ^ olength := by
        rw [pow_succ, mul_comm]; omega
      rw [Nat.pow_lt_pow_iff_right (by norm_num)] at h3
      omega
    obtain ⟨ht1, ht2⟩ := digit_table_spec o (by omega)
    have hsh : o <<< 1 % 4294967296 = 2 * o := by rw [Nat.shiftLeft_eq]; omega
    simp only [hsh, tableGet, ht1, ht2]
    rw [poke_eq r2 _ (idx + olength - i2) _ (by omega) (by omega)]
    simp only
    rw [poke_eq _ _ idx _ rfl (by simp; omega)]
    refine ⟨_, rfl, ?_⟩
    rw [peek_set _ _ _ _ (by simp; omega), peek_set _ _ _ _ (by omega)]
    rw [if_neg (by omega), if_neg (by omega)]
    exact hfr _ (by omega)
  · rw [if_neg hc]
    rw [poke_eq r2 _ idx _ rfl (by omega)]
    refine ⟨_, rfl, ?_⟩
    rw [peek_set _ _ _ _ (by omega), if_neg (by omega)]
    exact hfr _ (by omega)

/-- The whole buffer after the digit printer of the table build. -/
theorem printDigits_full (fuel : Nat) (hfuel : 4 ≤ fuel) (buf : List Nat)
    (idx olength output : Nat) (hlen : idx + olength < buf.length) (hol : 1 ≤ olength)
    (hol10 : olength ≤ 10)
    (hlo : 10 ^ (olength - 1) ≤ output) (hout : output < 10 ^ olength) :
    ∃ r, printDigits fuel buf (idx : Int) olength output = .ok r ∧
      r.length = buf.length ∧ ∀ k, peek r k = digitsAt buf idx olength output k := by
  obtain ⟨r, hrun, hl, hfr, hlead, hdig⟩ :=
    printDigits_spec fuel hfuel buf idx olength output hlen hol hol10 hlo hout
  obtain ⟨r', hrun', hpt⟩ :=
    printDigits_point fuel hfuel buf idx olength output hlen hol hol10 hout
  have hrr : r' = r := by
    rw [hrun] at hrun'; injection hrun' with h; exact h.symm
  subst hrr
  have habove := printDigits_above fuel buf r' (idx : Int) olength output hrun
  refine ⟨r', hrun, hl, fun k => ?_⟩
  unfold digitsAt
  by_cases h1 : k = idx
  · rw [if_pos h1, h1]; exact hlead
  · rw [if_neg h1]
    by_cases h2 : idx + 2 ≤ k ∧ k ≤ idx + olength
    · rw [if_pos h2]
      have := hdig (idx + olength - k) (by omega)
      have e : idx + olength - (idx + olength - k) = k := by omega
      rw [e] at this
      exact this
    · rw [if_neg h2]
      by_cases h3 : k < idx
      · exact hfr k h3
      · by_cases h4 : k = idx + 1
        · rw [h4]; exact hpt
        · exact habove k (by omega)

theorem ext_peek (r r' : List Nat) (hl : r.length = r'.length)
    (h : ∀ k, peek r k = peek r' k) : r = r' := by
  apply List.ext_getElem hl
  intro k h1 h2
  have := h k
  unfold peek at this
  rw [List.getD_eq_getElem _ _ h1, List.getD_eq_getElem _ _ h2] at this
  exact this

/-! ## The printer without the digit table -/

theorem printLoopNaive_spec (buf : List Nat) (idx olength output : Nat)
    (hlen : idx + olength < buf.length) (hol : 1 ≤ olength) (hol10 : olength ≤ 10)
    (hidx : idx ≤ 1) :
    ∀ (n fuel : Nat) (r : List Nat) (i : Nat), n < fuel → i + n = olength - 1 →
      NaiveInv buf r idx olength output i →
      ∃ r', printLoopNaive (idx : Int) olength fuel r (output / 10 ^ i) i
          = .ok (r', output / 10 ^ (olength - 1)) ∧
        NaiveInv buf r' idx olength output (olength - 1)
  | _, 0, _, _, hf, _, _ => by omega
  | 0, fuel + 1, r, i, _, hi, hinv => by
    have hu : u32 ((olength : Int) - 1) = olength - 1 := by unfold u32; omega
    have hi' : i = olength - 1 := by omega
    unfold printLoopNaive
    rw [hu, if_neg (by omega)]
    subst hi'
    exact ⟨r, rfl, hinv⟩
  | n + 1, fuel + 1, r, i, hf, hi, hinv => by
    have hu : u32 ((olength : Int) - 1) = olength - 1 := by unfold u32; omega
    have h48 : '0'.toNat = 48 := by decide
    obtain ⟨hl, hpk⟩ := hinv
    unfold printLoopNaive
    rw [hu, if_pos (by omega)]
    have hpos : ((u32 ((idx : Int) + (olength : Int) - (i : Int)) : Nat) : Int)
        = ((idx + olength - i : Nat) : Int) := by
      unfold u32; omega
    have hc : ('0'.toNat + output / 10 ^ i % 10) % 256 = 48 + output / 10 ^ i % 10 := by
      rw [h48]; omega
    simp only [bind, Except.bind]
    rw [hc, poke_eq r _ (idx + olength - i) _ hpos (by omega)]
    simp only
    rw [Nat.mod_eq_of_lt (by omega : i + 1 < 4294967296), div_pow_succ']
    apply printLoopNaive_spec buf idx olength output hlen hol hol10 hidx n fuel _ (i + 1)
      (by omega) (by omega)
    refine ⟨by simp [hl], fun k => ?_⟩
    rw [peek_set _ _ _ _ (by omega)]
    by_cases hk : k = idx + olength - i
    · rw [if_pos hk, if_pos (by omega)]
      have : idx + olength - k = i := by omega
      rw [this]
    · rw [if_neg hk, hpk k]
      by_cases hr : idx + olength - i < k ∧ k ≤ idx + olength
      · rw [if_pos hr, if_pos (by omega)]
      · rw [if_neg hr, if_neg (by omega)]

/-- The whole buffer after the digit printer of the `NO_DIGIT_TABLE` build. -/
theorem printDigitsNaive_full (fuel : Nat) (hfuel : 10 ≤ fuel) (buf : List Nat)
    (idx olength output : Nat) (hlen : idx + olength < buf.length) (hol : 1 ≤ olength)
    (hol10 : olength ≤ 10) (hidx : idx ≤ 1) :
    ∃ r, printDigitsNaive fuel buf (idx : Int) olength output = .ok r ∧
      r.length = buf.length ∧ ∀ k, peek r k = digitsAt buf idx olength output k := by
  have h48 : '0'.toNat = 48 := by decide
  obtain ⟨r1, hrun, hl, hpk⟩ := printLoopNaive_spec buf idx olength output hlen hol hol10
    hidx (olength - 1) fuel buf 0 (by omega) (by omega)
    ⟨rfl, fun k => by rw [if_neg (by omega)]⟩
  have hrun' : printLoopNaive (idx : Int) olength fuel buf output 0
      = .ok (r1, output / 10 ^ (olength - 1)) := by
    simpa using hrun
  have hc : ('0'.toNat + output / 10 ^ (olength - 1) % 10) % 256
      = 48 + output / 10 ^ (olength - 1) % 10 := by
    rw [h48]; omega
  unfold printDigitsNaive
  simp only [hrun', bind, Except.bind]
  rw [hc, poke_eq r1 _ idx _ rfl (by omega)]
  refine ⟨_, rfl, by simp [hl], fun k => ?_⟩
  unfold digitsAt
  rw [peek_set _ _ _ _ (by omega)]
  by_cases h1 : k = idx
  · rw [if_pos h1, if_pos h1]
  · rw [if_neg h1, if_neg h1, hpk k]
    by_cases h2 : idx + 2 ≤ k ∧ k ≤ idx + olength
    · rw [if_pos h2, if_pos (by omega)]
    · rw [if_neg h2, if_neg (by omega)]

theorem naive_digit_hi (e : Int) (h0 : 0 ≤ e) (h : e ≤ 99) :
    u32 (('0'.toNat : Int) + Int.tmod (Int.tdiv e 10) 10) % 256 = 48 + e.natAbs / 10 := by
  have h48 : '0'.toNat = 48 := by decide
  rw [Int.tdiv_eq_ediv h0 (by norm_num), Int.tmod_eq_emod (by omega) (by norm_num), h48]
  unfold u32
  omega

theorem naive_digit_lo (e : Int) (h0 : 0 ≤ e) :
    u32 (('0'.toNat : Int) + Int.tmod e 10) % 256 = 48 + e.natAbs % 10 := by
  have h48 : '0'.toNat = 48 := by decide
  rw [Int.tmod_eq_emod h0 (by norm_num), h48]
  unfold u32
  omega

set_option maxRecDepth 4000 in
theorem printExponentNaive_eq (r : List Nat) (idx olength : Nat) (exp : Int)
    (hl : idx + olength + 5 < r.length) (hol : 1 ≤ olength) (hol10 : olength ≤ 10)
    (hidx : idx ≤ 1) (he1 : -99 ≤ exp) (he2 : exp ≤ 99) :
    printExponentNaive r (idx : Int) olength exp
      = .ok (afterExponent r idx olength exp) := by
  have h48 : '0'.toNat = 48 := by decide
  by_cases h1 : olength > 1
  · by_cases h2 : exp < 0
    · have hA : u32 (('0'.toNat : Int) + Int.tmod (Int.tdiv (-exp) 10) 10) % 256
          = 48 + exp.natAbs / 10 := by
        rw [naive_digit_hi _ (by omega) (by omega), Int.natAbs_neg]
      have hB : u32 (('0'.toNat : Int) + Int.tmod (-exp) 10) % 256 = 48 + exp.natAbs % 10 := by
        rw [naive_digit_lo _ (by omega), Int.natAbs_neg]
      by_cases h3 : -exp ≥ 10
      · have h3' : exp.natAbs ≥ 10 := by omega
        unfold printExponentNaive afterExponent putExpDigits putExpSign putPoint
        simp only [h1, h2, h3', if_true, if_false, bind, Except.bind, pure, Except.pure]
        rw [poke_eq r _ (idx + 1) _ (by omega) (by omega)]
        simp only []
        rw [i32_u32 _ (by omega) (by omega)]
        rw [poke_eq _ _ (idx + (olength + 1)) _ (by omega) (by first | omega | (simp; omega))]
        simp only []
        rw [poke_eq _ _ (idx + (olength + 1) + 1) _ (by omega) (by first | omega | (simp; omega))]
        simp only []
        rw [if_pos h3]
        rw [hA, poke_eq _ _ (idx + (olength + 1) + 2) _ (by omega) (by first | omega | (simp; omega))]
        simp only []
        rw [hB, poke_eq _ _ (idx + (olength + 1) + 2 + 1) _ (by omega) (by first | omega | (simp; omega))]
        simp only []
        rw [poke_eq _ _ (idx + (olength + 1) + 2 + 2) _ (by omega) (by first | omega | (simp; omega))]
      · have h3' : ¬ exp.natAbs ≥ 10 := by omega
        unfold printExponentNaive afterExponent putExpDigits putExpSign putPoint
        simp only [h1, h2, h3', if_true, if_false, bind, Except.bind, pure, Except.pure]
        rw [poke_eq r _ (idx + 1) _ (by omega) (by omega)]
        simp only []
        rw [i32_u32 _ (by omega) (by omega)]
        rw [poke_eq _ _ (idx + (olength + 1)) _ (by omega) (by first | omega | (simp; omega))]
        simp only []
        rw [poke_eq _ _ (idx + (olength + 1) + 1) _ (by omega) (by first | omega | (simp; omega))]
        simp only []
        rw [if_neg h3]
        simp only []
        have hc : 48 + exp.natAbs % 10 = 48 + exp.natAbs := by omega
        rw [hB, hc, poke_eq _ _ (idx + (olength + 1) + 2) _ (by omega) (by first | omega | (simp; omega))]
        simp only []
        rw [poke_eq _ _ (idx + (olength + 1) + 2 + 1) _ (by omega) (by first | omega | (simp; omega))]
    · have hA : u32 (('0'.toNat : Int) + Int.tmod (Int.tdiv exp 10) 10) % 256
          = 48 + exp.natAbs / 10 := naive_digit_hi _ (by omega) (by omega)
      have hB : u32 (('0'.toNat : Int) + Int.tmod exp 10) % 256 = 48 + exp.natAbs % 10 :=
        naive_digit_lo _ (by omega)
      by_cases h3 : exp ≥ 10
      · have h3' : exp.natAbs ≥ 10 := by omega
        unfold printExponentNaive afterExponent putExpDigits putExpSign putPoint
        simp only [h1, h2, h3', if_true, if_false, bind, Except.bind, pure, Except.pure]
        rw [poke_eq r _ (idx + 1) _ (by omega) (by omega)]
        simp only []
        rw [i32_u32 _ (by omega) (by omega)]
        rw [poke_eq _ _ (idx + (olength + 1)) _ (by omega) (by first | omega | (simp; omega))]
        simp only []
        rw [if_pos h3]
        rw [hA, poke_eq _ _ (idx + (olength + 1) + 1) _ (by omega) (by first | omega | (simp; omega))]
        simp only []
        rw [hB, poke_eq _ _ (idx + (olength + 1) + 1 + 1) _ (by omega) (by first | omega | (simp; omega))]
        simp only []
        rw [poke_eq _ _ (idx + (olength + 1) + 1 + 2) _ (by omega) (by first | omega | (simp; omega))]
      · have h3' : ¬ exp.natAbs ≥ 10 := by omega
        unfold printExponentNaive afterExponent putExpDigits putExpSign putPoint
        simp only [h1, h2, h3', if_true, if_false, bind, Except.bind, pure, Except.pure]
        rw [poke_eq r _ (idx + 1) _ (by omega) (by omega)]
        simp only []
        rw [i32_u32 _ (by omega) (by omega)]
        rw [poke_eq _ _ (idx + (olength + 1)) _ (by omega) (by first | omega | (simp; omega))]
        simp only []
        rw [if_neg h3]
        simp only []
        have hc : 48 + exp.natAbs % 10 = 48 + exp.natAbs := by omega
        rw [hB, hc, poke_eq _ _ (idx + (olength + 1) + 1) _ (by omega) (by first | omega | (simp; omega))]
        simp only []
        rw [poke_eq _ _ (idx + (olength + 1) + 1 + 1) _ (by omega) (by first | omega | (simp; omega))]
  · by_cases h2 : exp < 0
    · have hA : u32 (('0'.toNat : Int) + Int.tmod (Int.tdiv (-exp) 10) 10) % 256
          = 48 + exp.natAbs / 10 := by
        rw [naive_digit_hi _ (by omega) (by omega), Int.natAbs_neg]
      have hB : u32 (('0'.toNat : Int) + Int.tmod (-exp) 10) % 256 = 48 + exp.natAbs % 10 := by
        rw [naive_digit_lo _ (by omega), Int.natAbs_neg]
      by_cases h3 : -exp ≥ 10
      · have h3' : exp.natAbs ≥ 10 := by omega
        unfold printExponentNaive afterExponent putExpDigits putExpSign putPoint
        simp only [h1, h2, h3', if_true, if_false, bind, Except.bind, pure, Except.pure]
        rw [poke_eq _ _ (idx + 1) _ (by omega) (by omega)]
        simp only []
        rw [poke_eq _ _ (idx + 1 + 1) _ (by omega) (by first | omega | (simp; omega))]
        simp only []
        rw [if_pos h3]
        rw [hA, poke_eq _ _ (idx + 1 + 2) _ (by omega) (by first | omega | (simp; omega))]
        simp only []
        rw [hB, poke_eq _ _ (idx + 1 + 2 + 1) _ (by omega) (by first | omega | (simp; omega))]
        simp only []
        rw [poke_eq _ _ (idx + 1 + 2 + 2) _ (by omega) (by first | omega | (simp; omega))]
      · have h3' : ¬ exp.natAbs ≥ 10 := by omega
        unfold printExponentNaive afterExponent putExpDigits putExpSign putPoint
        simp only [h1, h2, h3', if_true, if_false, bind, Except.bind, pure, Except.pure]
        rw [poke_eq _ _ (idx + 1) _ (by omega) (by omega)]
        simp only []
        rw [poke_eq _ _ (idx + 1 + 1) _ (by omega) (by first | omega | (simp; omega))]
        simp only []
        rw [if_neg h3]
        simp only []
        have hc : 48 + exp.natAbs % 10 = 48 + exp.natAbs := by omega
        rw [hB, hc, poke_eq _ _ (idx + 1 + 2) _ (by omega) (by first | omega | (simp; omega))]
        simp only []
        rw [poke_eq _ _ (idx + 1 + 2 + 1) _ (by omega) (by first | omega | (simp; omega))]
    · have hA : u32 (('0'.toNat : Int) + Int.tmod (Int.tdiv exp 10) 10) % 256
          = 48 + exp.natAbs / 10 := naive_digit_hi _ (by omega) (by omega)
      have hB : u32 (('0'.toNat : Int) + Int.tmod exp 10) % 256 = 48 + exp.natAbs % 10 :=
        naive_digit_lo _ (by omega)
      by_cases h3 : exp ≥ 10
      · have h3' : exp.natAbs ≥ 10 := by omega
        unfold printExponentNaive afterExponent putExpDigits putExpSign putPoint
        simp only [h1, h2, h3', if_true, if_false, bind, Except.bind, pure, Except.pure]
        rw [poke_eq _ _ (idx + 1) _ (by omega) (by omega)]
        simp only []
        rw [if_pos h3]
        rw [hA, poke_eq _ _ (idx + 1 + 1) _ (by omega) (by first | omega | (simp; omega))]
        simp only []
        rw [hB, poke_eq _ _ (idx + 1 + 1 + 1) _ (by omega) (by first | omega | (simp; omega))]
        simp only []
        rw [poke_eq _ _ (idx + 1 + 1 + 2) _ (by omega) (by first | omega | (simp; omega))]
      · have h3' : ¬ exp.natAbs ≥ 10 := by omega
        unfold printExponentNaive afterExponent putExpDigits putExpSign putPoint
        simp only [h1, h2, h3', if_true, if_false, bind, Except.bind, pure, Except.pure]
        rw [poke_eq _ _ (idx + 1) _ (by omega) (by omega)]
        simp only []
        rw [if_neg h3]
        simp only []
        have hc : 48 + exp.natAbs % 10 = 48 + exp.natAbs := by omega
        rw [hB, hc, poke_eq _ _ (idx + 1 + 1) _ (by omega) (by first | omega | (simp; omega))]
        simp only []
        rw [poke_eq _ _ (idx + 1 + 1 + 1) _ (by omega) (by first | omega | (simp; omega))]

/-! ## The two printers agree -/

theorem digitsAt_lead (buf : List Nat) (idx olength output : Nat) :
    digitsAt buf idx olength output idx = 48 + output / 10 ^ (olength - 1) % 10 := by
  unfold digitsAt
  rw [if_pos rfl]

theorem digitsAt_digit (buf : List Nat) (idx olength output d : Nat) (hd : d + 2 ≤ olength) :
    digitsAt buf idx olength output (idx + olength - d) = 48 + output / 10 ^ d % 10 := by
  unfold digitsAt
  rw [if_neg (by omega), if_pos (by omega)]
  have : idx + olength - (idx + olength - d) = d := by omega
  rw [this]

theorem digitsAt_below (buf : List Nat) (idx olength output k : Nat) (hk : k < idx) :
    digitsAt buf idx olength output k = peek buf k := by
  unfold digitsAt
  rw [if_neg (by omega), if_neg (by omega)]

/-- Both digit printers followed by their exponent printers leave the same buffer, which holds
`pre`, the mantissa, `E`, the exponent and a NUL. -/
theorem printers_agree (fuel : Nat) (hfuel : 10 ≤ fuel) (buf pre : List Nat)
    (idx olength output : Nat) (exp : Int)
    (hpre : Holds buf 0 pre) (hprelen : pre.length = idx) (hidx : idx ≤ 1)
    (hl : idx + olength + 5 < buf.length) (hol : 1 ≤ olength) (hol10 : olength ≤ 10)
    (hlo : 10 ^ (olength - 1) ≤ output) (hout : output < 10 ^ olength)
    (he1 : -99 ≤ exp) (he2 : exp ≤ 99) :
    ∃ r1 r, printDigits fuel buf (idx : Int) olength output = .ok r1 ∧
      printDigitsNaive fuel buf (idx : Int) olength output = .ok r1 ∧
      printExponent r1 (idx : Int) olength exp = .ok r ∧
      printExponentNaive r1 (idx : Int) olength exp = .ok r ∧
      r.length = buf.length ∧
      Holds r 0 (pre ++ mantissaBytes output olength ++ 'E'.toNat :: exponentBytes exp) ∧
      peek r (pre ++ mantissaBytes output olength ++ 'E'.toNat :: exponentBytes exp).length
        = 0 ∧
      (pre ++ mantissaBytes output olength ++ 'E'.toNat :: exponentBytes exp).length
        ≤ idx + olength + 5 := by
  obtain ⟨r1, hrun1, hl1, hpk1⟩ := printDigits_full fuel (by omega) buf idx olength output
    (by omega) hol hol10 hlo hout
  obtain ⟨r1', hrun1', hl1', hpk1'⟩ := printDigitsNaive_full fuel hfuel buf idx olength output
    (by omega) hol hol10 hidx
  have hsame : r1' = r1 := ext_peek _ _ (by omega) (fun k => by rw [hpk1 k, hpk1' k])
  subst hsame
  have hpre1 : Holds r1' 0 pre :=
    Holds.frame idx hpre (by omega) (fun k hk => by rw [hpk1 k, digitsAt_below _ _ _ _ _ hk])
  obtain ⟨r, hrun2, hl2, hh, hz, hle⟩ := printExponent_spec r1' pre idx olength output exp
    hpre1 hprelen (by rw [hpk1, digitsAt_lead])
    (fun d hd => by rw [hpk1, digitsAt_digit _ _ _ _ _ hd])
    (by omega) hol hol10 hidx he1 he2
  have heq := printExponent_eq r1' idx olength exp (by omega) hol hol10 hidx he1 he2
  have heqN := printExponentNaive_eq r1' idx olength exp (by omega) hol hol10 hidx he1 he2
  have hr : afterExponent r1' idx olength exp = r := by
    rw [heq] at hrun2; injection hrun2
  rw [hr] at heq heqN
  exact ⟨r1', r, hrun1, hrun1', heq, heqN, by omega, hh, hz, hle⟩

set_option maxRecDepth 4000 in
/-- C16. The lookup-table formatter equals naive digit extraction.  For every `v` with
`1 <= v < 2^32`, `olength = decimalLength(v)`, sign flag and `exp` with `|exp| <= 99`, in any
buffer with room for the string and its NUL, the printer of the default build and the printer
of the `NO_DIGIT_TABLE` build both succeed and leave the same buffer; it holds an optional
`-`, the leading digit of `v`, then (if `olength > 1`) `.` and the other `olength - 1` digits
in order, then `E`, an optional `-`, the digits of `|exp|` without leading zero, and a NUL. -/
theorem table_equals_naive (fuel : Nat) (buf : List Nat) (sign : Bool) (v : Nat) (exp : Int)
    (hfuel : 10 ≤ fuel) (hv1 : 1 ≤ v) (hv : v < 4294967296) (he1 : -99 ≤ exp)
    (he2 : exp ≤ 99) (hlen : (if sign then 1 else 0) + decimalLength v + 5 < buf.length) :
    ∃ r, print fuel buf sign { output := v, olength := decimalLength v, exp := exp } = .ok r ∧
      printNaive fuel buf sign { output := v, olength := decimalLength v, exp := exp }
        = .ok r ∧
      r.length = buf.length ∧
      Holds r 0 (render sign { output := v, olength := decimalLength v, exp := exp } ++ [0]) ∧
      cbytes r = render sign { output := v, olength := decimalLength v, exp := exp } ∧
      render sign { output := v, olength := decimalLength v, exp := exp } =
        (if sign then ['-'.toNat] else []) ++
          (48 + v / 10 ^ (decimalLength v - 1)) ::
            (if decimalLength v > 1 then '.'.toNat :: digitsMSB v (decimalLength v - 1)
             else []) ++
          'E'.toNat :: ((if exp < 0 then ['-'.toNat] else []) ++
            (if exp.natAbs ≥ 10 then [48 + exp.natAbs / 10, 48 + exp.natAbs % 10]
             else [48 + exp.natAbs])) := by
  obtain ⟨hn1, hn10⟩ := decimalLength_range v
  have hlo := decimalLength_le v hv1
  have hhi := decimalLength_lt v (by norm_num; omega)
  have hlead : v / 10 ^ (decimalLength v - 1) % 10 = v / 10 ^ (decimalLength v - 1) := by
    apply Nat.mod_eq_of_lt
    rw [Nat.div_lt_iff_lt_mul (Nat.pow_pos (by norm_num))]
    calc v < 10 ^ decimalLength v := hhi
      _ = 10 ^ (decimalLength v - 1 + 1) := by congr 1; omega
      _ = 10 * 10 ^ (decimalLength v - 1) := by rw [pow_succ, mul_comm]
  have hform : ∀ s : Bool,
      render s { output := v, olength := decimalLength v, exp := exp } =
        (if s then ['-'.toNat] else []) ++
          (48 + v / 10 ^ (decimalLength v - 1)) ::
            (if decimalLength v > 1 then '.'.toNat :: digitsMSB v (decimalLength v - 1)
             else []) ++
          'E'.toNat :: ((if exp < 0 then ['-'.toNat] else []) ++
            (if exp.natAbs ≥ 10 then [48 + exp.natAbs / 10, 48 + exp.natAbs % 10]
             else [48 + exp.natAbs])) := by
    intro s
    unfold render exponentBytes
    simp only [mantissaBytes_eq, hlead]
  suffices h : ∃ r,
      print fuel buf sign { output := v, olength := decimalLength v, exp := exp } = .ok r ∧
      printNaive fuel buf sign { output := v, olength := decimalLength v, exp := exp }
        = .ok r ∧
      r.length = buf.length ∧
      Holds r 0 (render sign { output := v, olength := decimalLength v, exp := exp } ++ [0]) ∧
      cbytes r = render sign { output := v, olength := decimalLength v, exp := exp } by
    obtain ⟨r, h1, h2, h3, h4, h5⟩ := h
    exact ⟨r, h1, h2, h3, h4, h5, hform sign⟩
  cases sign
  · simp only [Bool.false_eq_true, if_false, zero_add] at hlen
    obtain ⟨r1, r, hd, hdN, hx, hxN, hl, hh, hz, hle⟩ := printers_agree fuel hfuel buf [] 0
      (decimalLength v) v exp (Holds.nil _ _) rfl (by omega) (by omega) hn1 hn10 hlo hhi
      he1 he2
    have hd' : printDigits fuel buf 0 (decimalLength v) v = .ok r1 := by simpa using hd
    have hdN' : printDigitsNaive fuel buf 0 (decimalLength v) v = .ok r1 := by simpa using hdN
    have hx' : printExponent r1 0 (decimalLength v) exp = .ok r := by simpa using hx
    have hxN' : printExponentNaive r1 0 (decimalLength v) exp = .ok r := by simpa using hxN
    have hrender : render false { output := v, olength := decimalLength v, exp := exp }
        = [] ++ mantissaBytes v (decimalLength v) ++ 'E'.toNat :: exponentBytes exp := by
      simp [render]
    rw [← hrender] at hh hz hle
    refine ⟨r, ?_, ?_, hl, ?_, ?_⟩
    · unfold print
      simp only [Bool.false_eq_true, if_false, bind, Except.bind, pure, Except.pure, hd']
      exact hx'
    · unfold printNaive
      simp only [Bool.false_eq_true, if_false, bind, Except.bind, pure, Except.pure, hdN']
      exact hxN'
    · exact Holds.append hh (Holds.single (by simpa using hz))
    · exact cbytes_of_holds _ _ hh hz (render_ne_zero _ _) (by omega)
  · simp only [if_true] at hlen
    have hp0 : poke buf 0 '-'.toNat = .ok (buf.set 0 '-'.toNat) :=
      poke_eq buf 0 0 _ rfl (by omega)
    have hpre : Holds (buf.set 0 '-'.toNat) 0 ['-'.toNat] := by
      apply Holds.single
      rw [peek_set _ _ _ _ (by omega)]
      simp
    obtain ⟨r1, r, hd, hdN, hx, hxN, hl, hh, hz, hle⟩ := printers_agree fuel hfuel
      (buf.set 0 '-'.toNat) ['-'.toNat] 1 (decimalLength v) v exp hpre rfl (by omega)
      (by simp; omega) hn1 hn10 hlo hhi he1 he2
    have hd' : printDigits fuel (buf.set 0 '-'.toNat) 1 (decimalLength v) v = .ok r1 := by
      simpa using hd
    have hdN' : printDigitsNaive fuel (buf.set 0 '-'.toNat) 1 (decimalLength v) v = .ok r1 := by
      simpa using hdN
    have hx' : printExponent r1 1 (decimalLength v) exp = .ok r := by simpa using hx
    have hxN' : printExponentNaive r1 1 (decimalLength v) exp = .ok r := by simpa using hxN
    have hrender : render true { output := v, olength := decimalLength v, exp := exp }
        = ['-'.toNat] ++ mantissaBytes v (decimalLength v) ++ 'E'.toNat :: exponentBytes exp := by
      simp [render]
    rw [← hrender] at hh hz hle
    have hl' : r.length = buf.length := by rw [hl]; simp
    refine ⟨r, ?_, ?_, hl', ?_, ?_⟩
    · unfold print
      simp only [if_true, bind, Except.bind, pure, Except.pure, hp0, hd']
      exact hx'
    · unfold printNaive
      simp only [if_true, bind, Except.bind, pure, Except.pure, hp0, hdN']
      exact hxN'
    · exact Holds.append hh (Holds.single (by simpa using hz))
    · exact cbytes_of_holds _ _ hh hz (render_ne_zero _ _) (by omega)

/-- Witness for C16: the largest 32-bit value with a sign and a two-digit negative exponent,
in a zeroed buffer of 17 bytes. -/
theorem table_equals_naive_witness :
    (10 ≤ 10 ∧ 1 ≤ 4294967295 ∧ 4294967295 < 4294967296 ∧ (-99 : Int) ≤ -12 ∧
      (-12 : Int) ≤ 99 ∧
      (if true then 1 else 0) + decimalLength 4294967295 + 5 < (List.replicate 17 0).length) ∧
    ∃ r, print 10 (List.replicate 17 0) true
          { output := 4294967295, olength := decimalLength 4294967295, exp := -12 } = .ok r ∧
      printNaive 10 (List.replicate 17 0) true
          { output := 4294967295, olength := decimalLength 4294967295, exp := -12 } = .ok r ∧
      r.length = (List.replicate 17 0).length :=
  ⟨⟨by decide, by decide, by decide, by decide, by decide, by decide⟩,
    let ⟨r, h1, h2, h3, _⟩ := table_equals_naive 10 (List.replicate 17 0) true 4294967295
      (-12) (by decide) (by decide) (by decide) (by decide) (by decide) (by decide)
    ⟨r, h1, h2, h3⟩⟩

end Ryu
